import Mathlib

/-!
# BigNumber: a verification development

Shallow embedding of `src/BigNumberDemo.cpp` (class `BigNumber`): a sign flag and a
vector of decimal digits, least-significant digit first, with the constructors,
the comparison helpers and the arithmetic operators.

Modelling conventions
* `vector<int> digits` is a `List Int`; `/` and `%` on `int` are the truncating
  `Int.tdiv` / `Int.tmod`.
* A `size_t` stored in an `int` (`int i = s.size() - 1`, `int n = digits.size()`) is
  reduced to the 32-bit two's-complement range by `toInt32`; a loop bounded by such an
  `int` reads the prefix of the vector that the wrapped bound allows.  Arithmetic on an
  `int` that would leave its range is undefined in the source and yields no value here.
* `BigNumber.mul` is `operator*` with its `int` slots read as integers.
  `BigNumber.mulInt` adds the range of `int`: it is `mul` when every slot and every loop
  counter stays in the `int` range, and `none` when one would leave it (signed overflow,
  which the source leaves undefined).
* `unsigned long long` is a `Nat` reduced modulo `2 ^ 64`.
* `throw runtime_error(msg)` is `Except.error msg`.
* `operator+` and binary `operator-` call each other without a bound in the source.
  They take a `fuel : Nat` that bounds the depth of nested calls (and the number of
  iterations of a `while` loop); `none` means the fuel ran out, or, on the same-sign path
  of `operator+`, that the loop counter would leave the range of `int`.  A computation that
  is `none` for every fuel returns no value in the source.
* The static vectors `factorialCache`, `fibonacciCache` and `catalanCache` are the fields
  of an explicit state `Caches`; the sequence functions take the state and return the new
  one.  Their `int` index is a `Nat` with an explicit bound.
* `operator<<` is the function `toText` returning the text written.
-/

namespace BigNumberDemo

/-- The class `BigNumber`: `digits` (least significant first) and `isNegative`. -/
structure BigNumber where
  digits : List Int
  isNegative : Bool
deriving DecidableEq, Repr

/-- Loop of `BigNumber(unsigned long long n)`:
`do { digits.push_back(n % 10); n /= 10; } while (n);`.  The first argument bounds
the number of iterations; 20 iterations exhaust any value below `2 ^ 64`. -/
def pushDigits : Nat → Nat → List Int
  | 0, _ => []
  | k + 1, n => ((n % 10 : Nat) : Int) :: (if n / 10 = 0 then [] else pushDigits k (n / 10))

/-- Constructor `BigNumber(unsigned long long n = 0)`. -/
def BigNumber.ofULL (n : Nat) : BigNumber :=
  ⟨pushDigits 20 (n % 2 ^ 64), false⟩

/-- Pops most-significant zeros from a most-significant-first list while more than one
digit remains: the `while` of `removeLeadingZeros`, seen from the back of the vector. -/
def popZeros : List Int → List Int
  | 0 :: d :: ds => popZeros (d :: ds)
  | ds => ds

/-- `removeLeadingZeros`:
`while (digits.size() > 1 && digits.back() == 0) digits.pop_back();`
`if (digits.size() == 1 && digits[0] == 0) isNegative = false;`. -/
def BigNumber.removeLeadingZeros (a : BigNumber) : BigNumber :=
  let ds := (popZeros a.digits.reverse).reverse
  ⟨ds, if ds = [0] then false else a.isNegative⟩

/-- `isZero`: `digits.size() == 1 && digits[0] == 0`. -/
def BigNumber.isZero (a : BigNumber) : Bool := decide (a.digits = [0])

/-- Conversion of an integer to `int`: reduction to the range `-2^31 .. 2^31 - 1`. -/
def toInt32 (z : Int) : Int := (z + 2147483648) % 4294967296 - 2147483648

/-- Loop body of the string constructor over the characters it visits, in the order it
visits them: `if (!isdigit(c)) throw runtime_error("Invalid number");`
`digits.push_back(c - '0');`. -/
def parseLoop : List Char → List Int → Except String (List Int)
  | [], acc => .ok acc
  | c :: cs, acc =>
    if c.isDigit then parseLoop cs (acc ++ [(c.toNat : Int) - 48])
    else .error "Invalid number"

/-- Constructor `BigNumber(const string &s)`.  The loop
`for (int i = s.size() - 1; i >= start; i--)` starts at `s.size() - 1` converted to `int`
and runs down to `start`: it visits, from the last to the first, the characters at the
indices `start .. i`, and none when the converted index is below `start`. -/
def BigNumber.ofString (s : String) : Except String BigNumber :=
  let neg : Bool := decide (s.data.length > 0) && decide (s.data.head? = some '-')
  let start : Nat := if neg then 1 else 0
  let i : Int := toInt32 ((s.data.length : Int) - 1)
  match parseLoop ((s.data.take (i + 1).toNat).drop start).reverse [] with
  | .error e => .error e
  | .ok ds => .ok (BigNumber.removeLeadingZeros ⟨ds, neg⟩)

/-- Loop of `absLess` for vectors of equal size, from the most significant digit down:
returns at the first differing digit. -/
def absLessLoop : List Int → List Int → Bool
  | x :: xs, y :: ys => if x ≠ y then decide (x < y) else absLessLoop xs ys
  | _, _ => false

/-- `absLess`: compares sizes first, then digits from the most significant. -/
def BigNumber.absLess (a b : BigNumber) : Bool :=
  if a.digits.length ≠ b.digits.length then decide (a.digits.length < b.digits.length)
  else absLessLoop a.digits.reverse b.digits.reverse

/-- `operator<`. -/
def BigNumber.lt (a b : BigNumber) : Bool :=
  if a.isNegative ≠ b.isNegative then a.isNegative
  else if a.isNegative then b.absLess a
  else a.absLess b

/-- `operator>`: `b < *this`. -/
def BigNumber.gt (a b : BigNumber) : Bool := b.lt a

/-- Unary `operator-`: flips the sign flag unless `isZero()`. -/
def BigNumber.neg (a : BigNumber) : BigNumber :=
  if a.isZero then a else ⟨a.digits, !a.isNegative⟩

/-- Tail of the addition loop once both vectors are exhausted: it keeps running
while `carry` is non-zero.  The first argument is the termination measure `|carry|`. -/
def flushCarry : Nat → Int → List Int
  | 0, _ => []
  | k + 1, c => if c = 0 then [] else Int.tmod c 10 :: flushCarry k (Int.tdiv c 10)

/-- Digit loop of `operator+` on the digits it reads:
`for (i = 0; i < max(n, m) || carry; i++) { sum = carry + a[i] + b[i]; push(sum % 10); carry = sum / 10; }`
with absent digits read as 0.  The two lists are the digits with index below `n` and
below `m`. -/
def addLoop : List Int → List Int → Int → List Int
  | [], [], c => flushCarry c.natAbs c
  | x :: xs, [], c => Int.tmod (c + x + 0) 10 :: addLoop xs [] (Int.tdiv (c + x + 0) 10)
  | [], y :: ys, c => Int.tmod (c + 0 + y) 10 :: addLoop [] ys (Int.tdiv (c + 0 + y) 10)
  | x :: xs, y :: ys, c => Int.tmod (c + x + y) 10 :: addLoop xs ys (Int.tdiv (c + x + y) 10)

/-- Digit loop of binary `operator-`, over the digits of the left operand only;
returns the digits pushed and the borrow left after the last digit. -/
def subLoop : List Int → List Int → Int → List Int × Int
  | [], _, bw => ([], bw)
  | x :: xs, ys, bw =>
    let diff := x - bw - ys.headD 0
    let r := subLoop xs ys.tail (if diff < 0 then 1 else 0)
    ((if diff < 0 then diff + 10 else diff) :: r.1, r.2)

mutual
/-- `operator+`.  The digit loop is bounded by `int n = digits.size(), m = b.digits.size()`:
it reads `digits[i]` only for `i < n` and `b.digits[i]` only for `i < m`, with the sizes
converted to `int`.  The counter `int i` is incremented once for every digit pushed; the
increment after digit number `2^31` would leave the range of `int` (signed overflow,
undefined), so a loop that pushes more than `INT_MAX` digits has no result. -/
def BigNumber.add : Nat → BigNumber → BigNumber → Option BigNumber
  | 0, _, _ => none
  | fuel + 1, a, b =>
    if a.isNegative ≠ b.isNegative then BigNumber.sub fuel a b.neg
    else if (addLoop (a.digits.take (toInt32 a.digits.length).toNat)
        (b.digits.take (toInt32 b.digits.length).toNat) 0).length ≤ 2147483647 then
      some ⟨addLoop (a.digits.take (toInt32 a.digits.length).toNat)
        (b.digits.take (toInt32 b.digits.length).toNat) 0, a.isNegative⟩
    else none
/-- Binary `operator-`. -/
def BigNumber.sub : Nat → BigNumber → BigNumber → Option BigNumber
  | 0, _, _ => none
  | fuel + 1, a, b =>
    if a.isNegative ≠ b.isNegative then BigNumber.add fuel a b.neg
    else if a.isNegative then BigNumber.sub fuel b.neg a.neg
    else if a.absLess b then (BigNumber.sub fuel b a).map BigNumber.neg
    else some (BigNumber.removeLeadingZeros ⟨(subLoop a.digits b.digits 0).1, false⟩)
end

/-- One pass of the inner loop of `operator*` from column `j` on:
`result.digits[i + j] += digits[i] * b.digits[j]`, the slot computed as an integer;
`mulInnerOk` tells whether it fits the 32-bit `int` of the source. -/
def mulInner (x : Int) (i : Nat) : List Int → Nat → List Int → List Int
  | [], _, res => res
  | y :: ys, j, res => mulInner x i ys (j + 1) (res.modify (fun t => t + x * y) (i + j))

/-- Outer loop of `operator*` from row `i` on. -/
def mulOuter (bs : List Int) : List Int → Nat → List Int → List Int
  | [], _, res => res
  | x :: xs, i, res => mulOuter bs xs (i + 1) (mulInner x i bs 0 res)

/-- Carry loop of `operator*`:
`result.digits[i] += carry; carry = result.digits[i] / 10; result.digits[i] %= 10;`, the
slot computed as an integer; `carryPassOk` tells whether it fits the 32-bit `int` of the
source.  Returns the digits and the carry left after the last slot. -/
def carryPass : List Int → Int → List Int × Int
  | [], c => ([], c)
  | d :: ds, c =>
    let r := carryPass ds (Int.tdiv (d + c) 10)
    (Int.tmod (d + c) 10 :: r.1, r.2)

/-- The loops of `operator*` with the `int` slots and counters read as integers: what
`operator*` returns whenever none of them leaves the range of `int` (`BigNumber.mulInt`). -/
def BigNumber.mul (a b : BigNumber) : BigNumber :=
  let acc := mulOuter b.digits a.digits 0 (List.replicate (a.digits.length + b.digits.length) 0)
  BigNumber.removeLeadingZeros ⟨(carryPass acc 0).1, a.isNegative != b.isNegative⟩

/-- The value fits the type `int`. -/
def inInt (z : Int) : Bool := decide (-2147483648 ≤ z) && decide (z ≤ 2147483647)

/-- Every `int` computed by the inner loop of `operator*` from column `j` on fits `int`:
the product `digits[i] * b.digits[j]` and the slot after `+=`. -/
def mulInnerOk (x : Int) (i : Nat) : List Int → Nat → List Int → Bool
  | [], _, _ => true
  | y :: ys, j, res =>
    inInt (x * y) && inInt (res.getD (i + j) 0 + x * y) &&
      mulInnerOk x i ys (j + 1) (res.modify (fun t => t + x * y) (i + j))

/-- Every `int` computed by the nested loops of `operator*` from row `i` on fits `int`. -/
def mulOuterOk (bs : List Int) : List Int → Nat → List Int → Bool
  | [], _, _ => true
  | x :: xs, i, res => mulInnerOk x i bs 0 res && mulOuterOk bs xs (i + 1) (mulInner x i bs 0 res)

/-- Every slot after `result.digits[i] += carry` in the carry loop of `operator*` fits
`int`. -/
def carryPassOk : List Int → Int → Bool
  | [], _ => true
  | d :: ds, c => inInt (d + c) && carryPassOk ds (Int.tdiv (d + c) 10)

/-- `operator*` on 32-bit `int` slots and counters: the value `a.mul b` when the loop
counters (`len a + len b` at most `INT_MAX`) and every slot stay in the range of `int`,
and no value when one of them would leave it. -/
def BigNumber.mulInt (a b : BigNumber) : Option BigNumber :=
  if decide (a.digits.length + b.digits.length ≤ 2147483647) &&
      mulOuterOk b.digits a.digits 0
        (List.replicate (a.digits.length + b.digits.length) 0) &&
      carryPassOk (mulOuter b.digits a.digits 0
        (List.replicate (a.digits.length + b.digits.length) 0)) 0
  then some (a.mul b) else none

/-- Conversion of an `int` to `unsigned long long`, as in `BigNumber(mid)`. -/
def intToULL (i : Int) : Nat := (i % (2 : Int) ^ 64).toNat

/-- Binary search of `operator/` for the quotient digit:
`while (l <= r) { mid = (l + r) / 2; if (!(divisor * BigNumber(mid) > current)) { x = mid; l = mid + 1; } else r = mid - 1; }`. -/
def searchDigit (divisor current : BigNumber) : Nat → Int → Int → Int → Option Int
  | 0, _, _, _ => none
  | fuel + 1, l, r, x =>
    if l ≤ r then
      let mid := Int.tdiv (l + r) 2
      if !((divisor.mul (BigNumber.ofULL (intToULL mid))).gt current) then
        searchDigit divisor current fuel (mid + 1) r mid
      else searchDigit divisor current fuel l (mid - 1) x
    else some x

/-- Long-division loop of `operator/`, `for (i = size - 1; i >= 0; i--)`: the first list
holds the dividend digits still to be read, most significant first, so that its head is
`dividend.digits[i]` with `i` one less than its length. -/
def divLoop (fuel : Nat) (divisor : BigNumber) :
    List Int → BigNumber → List Int → Option (BigNumber × List Int)
  | [], current, q => some (current, q)
  | d :: ds, current, q =>
    let cur := BigNumber.removeLeadingZeros ⟨d :: current.digits, current.isNegative⟩
    match searchDigit divisor cur fuel 0 9 0 with
    | none => none
    | some x =>
      match BigNumber.sub fuel cur (divisor.mul (BigNumber.ofULL (intToULL x))) with
      | none => none
      | some next => divLoop fuel divisor ds next (q.set ds.length x)

/-- `operator/`. -/
def BigNumber.div (fuel : Nat) (a b : BigNumber) : Option (Except String BigNumber) :=
  if b.isZero then some (.error "Division by zero")
  else
    let dividend : BigNumber := ⟨a.digits, false⟩
    let divisor : BigNumber := ⟨b.digits, false⟩
    let resultSign : Bool := a.isNegative != b.isNegative
    if dividend.absLess divisor then some (.ok (BigNumber.ofULL 0))
    else
      match divLoop fuel divisor dividend.digits.reverse (BigNumber.ofULL 0)
          (List.replicate dividend.digits.length 0) with
      | none => none
      | some (_, q) => some (.ok (BigNumber.removeLeadingZeros ⟨q, resultSign⟩))

/-- `operator%`: `*this - (*this / b) * b`. -/
def BigNumber.mod (fuel : Nat) (a b : BigNumber) : Option (Except String BigNumber) :=
  match BigNumber.div fuel a b with
  | none => none
  | some (.error e) => some (.error e)
  | some (.ok q) =>
    match BigNumber.sub fuel a (q.mul b) with
    | none => none
    | some r => some (.ok r)

/-- Magnitude denoted by a digit vector (least significant digit first). -/
def evalDigits : List Int → Int
  | [] => 0
  | d :: ds => d + 10 * evalDigits ds

/-- Magnitude of a `BigNumber`. -/
def BigNumber.mag (a : BigNumber) : Int := evalDigits a.digits

/-- Signed integer denoted by a `BigNumber`. -/
def BigNumber.value (a : BigNumber) : Int := if a.isNegative then - a.mag else a.mag

/-- Data-model invariants: digits non-empty, each digit in 0..9, no most-significant zero
unless the number is the single digit 0, and the sign flag clear on zero. -/
def BigNumber.WellFormed (a : BigNumber) : Prop :=
  a.digits ≠ [] ∧ (∀ d ∈ a.digits, 0 ≤ d ∧ d ≤ 9) ∧
    (a.digits.getLast? ≠ some 0 ∨ a.digits = [0]) ∧ (a.digits = [0] → a.isNegative = false)

instance (a : BigNumber) : Decidable a.WellFormed := by
  unfold BigNumber.WellFormed; infer_instance

/-- Every entry of the list is a decimal digit. -/
def DigitsOk (ds : List Int) : Prop := ∀ d ∈ ds, 0 ≤ d ∧ d ≤ 9

instance (ds : List Int) : Decidable (DigitsOk ds) := by
  unfold DigitsOk; infer_instance

/-- `operator==`: same digit vector and same sign flag. -/
def BigNumber.eq (a b : BigNumber) : Bool :=
  decide (a.digits = b.digits) && decide (a.isNegative = b.isNegative)

/-- `operator<=`: `!(*this > b)`. -/
def BigNumber.le (a b : BigNumber) : Bool := !(a.gt b)

/-- `operator>=`: `!(*this < b)`. -/
def BigNumber.ge (a b : BigNumber) : Bool := !(a.lt b)

/-- `operator<<`: a `-` when `isNegative && !isZero()`, then the loop
`for (int i = b.digits.size() - 1; i >= 0; i--) out << b.digits[i];`, which writes the
entries at the indices `0 .. i` from the last to the first, each as a decimal `int`.  The
result is the text written. -/
def BigNumber.toText (b : BigNumber) : String :=
  String.mk ((if b.isNegative && !b.isZero then ['-'] else []) ++
    (((b.digits.take (toInt32 ((b.digits.length : Int) - 1) + 1).toNat).reverse.map
      (fun d => (toString d).data)).flatten))

/-- Value of `carry` in the loop of `operator+` when the index reaches `max(n, m)`, that is
after the most significant position of the longer operand. -/
def addCarry : List Int → List Int → Int → Int
  | [], [], c => c
  | x :: xs, [], c => addCarry xs [] (Int.tdiv (c + x + 0) 10)
  | [], y :: ys, c => addCarry [] ys (Int.tdiv (c + 0 + y) 10)
  | x :: xs, y :: ys, c => addCarry xs ys (Int.tdiv (c + x + y) 10)

/-- The three static caches of the class. -/
structure Caches where
  factorialCache : List BigNumber
  fibonacciCache : List BigNumber
  catalanCache : List BigNumber

/-- Loop of `factorial`:
`for (int i = cache.size(); i <= n; i++) cache.push_back(cache.back() * BigNumber(i));`.
The first argument counts the iterations left, `n + 1 - i`.  `back()` of an empty vector is
not defined in the source; the vector is never empty here and the model reads the zero
value in that case. -/
def factorialLoop : Nat → Nat → List BigNumber → List BigNumber
  | 0, _, cache => cache
  | k + 1, i, cache =>
    factorialLoop k (i + 1)
      (cache ++ [(cache.getLastD (BigNumber.ofULL 0)).mul (BigNumber.ofULL (intToULL i))])

/-- `factorial(int n)` for `n >= 0`: returns `factorialCache[n]` and the new caches. -/
def BigNumber.factorial (n : Nat) (s : Caches) : BigNumber × Caches :=
  let c1 := if s.factorialCache.isEmpty then s.factorialCache ++ [BigNumber.ofULL 1]
    else s.factorialCache
  let c2 := factorialLoop (n + 1 - c1.length) c1.length c1
  (c2.getD n (BigNumber.ofULL 0), { s with factorialCache := c2 })

/-- Loop of `fibonacci`:
`for (int i = cache.size(); i <= n; i++) cache.push_back(cache[i - 1] + cache[i - 2]);`.
The second argument counts the iterations left. -/
def fibonacciLoop (fuel : Nat) : Nat → Nat → List BigNumber → Option (List BigNumber)
  | 0, _, cache => some cache
  | k + 1, i, cache =>
    match BigNumber.add fuel (cache.getD (i - 1) (BigNumber.ofULL 0))
        (cache.getD (i - 2) (BigNumber.ofULL 0)) with
    | none => none
    | some v => fibonacciLoop fuel k (i + 1) (cache ++ [v])

/-- `fibonacci(int n)` for `n >= 0`: returns `fibonacciCache[n]` and the new caches. -/
def BigNumber.fibonacci (fuel : Nat) (n : Nat) (s : Caches) : Option (BigNumber × Caches) :=
  let c1 := if s.fibonacciCache.isEmpty then
    (s.fibonacciCache ++ [BigNumber.ofULL 0]) ++ [BigNumber.ofULL 1] else s.fibonacciCache
  match fibonacciLoop fuel (n + 1 - c1.length) c1.length c1 with
  | none => none
  | some c2 => some (c2.getD n (BigNumber.ofULL 0), { s with fibonacciCache := c2 })

/-- Loop of `catalan`:
`for (int i = cache.size(); i <= n; i++)`
`cache.push_back(factorial(2 * i) / (factorial(i + 1) * factorial(i)));`.
The three calls of `factorial` are made from left to right (the source leaves their order
open; every order yields the same values).  The second argument counts the iterations
left. -/
def catalanLoop (fuel : Nat) : Nat → Nat → Caches → Option (Except String Caches)
  | 0, _, s => some (.ok s)
  | k + 1, i, s =>
    let f1 := BigNumber.factorial (2 * i) s
    let f2 := BigNumber.factorial (i + 1) f1.2
    let f3 := BigNumber.factorial i f2.2
    match BigNumber.div fuel f1.1 (f2.1.mul f3.1) with
    | none => none
    | some (.error e) => some (.error e)
    | some (.ok q) =>
      catalanLoop fuel k (i + 1) { f3.2 with catalanCache := f3.2.catalanCache ++ [q] }

/-- `catalan(int n)` for `n >= 0`: returns `catalanCache[n]` and the new caches. -/
def BigNumber.catalan (fuel : Nat) (n : Nat) (s : Caches) :
    Option (Except String (BigNumber × Caches)) :=
  let s1 : Caches := if s.catalanCache.isEmpty then
    { s with catalanCache := s.catalanCache ++ [BigNumber.ofULL 1] } else s
  match catalanLoop fuel (n + 1 - s1.catalanCache.length) s1.catalanCache.length s1 with
  | none => none
  | some (.error e) => some (.error e)
  | some (.ok s2) => some (.ok (s2.catalanCache.getD n (BigNumber.ofULL 0), s2))

/-- States of the caches that calls of the three sequence functions can produce, starting
from the empty caches of a fresh process.  The indices are non-negative `int` values whose
loop counter (and `2 * i` in `catalan`) stays in the `int` range. -/
inductive Caches.Reachable : Caches → Prop
  | init : Caches.Reachable ⟨[], [], []⟩
  | factorial (n : Nat) (s : Caches) : n < 2147483647 → Caches.Reachable s →
      Caches.Reachable (BigNumber.factorial n s).2
  | fibonacci (fuel n : Nat) (s : Caches) (v : BigNumber) (s2 : Caches) : n < 2147483647 →
      Caches.Reachable s → BigNumber.fibonacci fuel n s = some (v, s2) → Caches.Reachable s2
  | catalan (fuel n : Nat) (s : Caches) (v : BigNumber) (s2 : Caches) : n < 1073741824 →
      Caches.Reachable s → BigNumber.catalan fuel n s = some (.ok (v, s2)) →
      Caches.Reachable s2

/-- Every entry of a cache is well-formed and entry `i` has the value `f i`. -/
def SeqOk (f : Nat → Int) (cache : List BigNumber) : Prop :=
  ∀ (i : Nat) (v : BigNumber), cache[i]? = some v → v.WellFormed ∧ v.value = f i

/-- The three caches hold the factorials, the Fibonacci numbers and the Catalan numbers;
the Fibonacci cache never has exactly one entry. -/
def Caches.Ok (s : Caches) : Prop :=
  SeqOk (fun i => (i.factorial : Int)) s.factorialCache ∧
    (SeqOk (fun i => (Nat.fib i : Int)) s.fibonacciCache ∧ s.fibonacciCache.length ≠ 1) ∧
    SeqOk (fun i => (catalan i : Int)) s.catalanCache

/-! ## Digit vectors and their magnitude -/


theorem evalDigits_append (xs ys : List Int) :
    evalDigits (xs ++ ys) = evalDigits xs + 10 ^ xs.length * evalDigits ys := by
  induction xs with
  | nil => simp [evalDigits]
  | cons x xs ih =>
    show x + 10 * evalDigits (xs ++ ys) = (x + 10 * evalDigits xs) + 10 ^ (xs.length + 1) * evalDigits ys
    rw [ih, pow_succ]; ring

theorem evalDigits_replicate_zero (k : Nat) : evalDigits (List.replicate k 0) = 0 := by
  induction k with
  | zero => rfl
  | succ k ih => simp [List.replicate_succ, evalDigits, ih]

theorem evalDigits_nonneg {ds : List Int} (h : DigitsOk ds) : 0 ≤ evalDigits ds := by
  induction ds with
  | nil => simp [evalDigits]
  | cons d ds ih =>
    have h1 := h d (List.mem_cons_self _ _)
    have h2 := ih (fun e he => h e (List.mem_cons_of_mem _ he))
    simp only [evalDigits]; omega

theorem evalDigits_lt {ds : List Int} (h : DigitsOk ds) : evalDigits ds < 10 ^ ds.length := by
  induction ds with
  | nil => simp [evalDigits]
  | cons d ds ih =>
    have h1 := h d (List.mem_cons_self _ _)
    have h2 := ih (fun e he => h e (List.mem_cons_of_mem _ he))
    simp only [evalDigits, List.length_cons, pow_succ]; omega

theorem popZeros_decomp (r : List Int) : ∃ k, r = List.replicate k 0 ++ popZeros r := by
  induction r with
  | nil => exact ⟨0, rfl⟩
  | cons x xs ih =>
    cases xs with
    | nil => exact ⟨0, by simp [popZeros]⟩
    | cons y ys =>
      by_cases hx : x = 0
      · subst hx
        obtain ⟨k, hk⟩ := ih
        refine ⟨k + 1, ?_⟩
        rw [popZeros, List.replicate_succ, List.cons_append, ← hk]
      · refine ⟨0, ?_⟩
        rw [popZeros]
        · rfl
        · intro d ds h; simp at h; exact hx h.1

theorem popZeros_ne_nil {r : List Int} (h : r ≠ []) : popZeros r ≠ [] := by
  induction r with
  | nil => exact absurd rfl h
  | cons x xs ih =>
    cases xs with
    | nil => simp [popZeros]
    | cons y ys =>
      by_cases hx : x = 0
      · subst hx; rw [popZeros]; exact ih (by simp)
      · rw [popZeros]
        · simp
        · intro d ds h; simp at h; exact hx h.1

theorem popZeros_head (r : List Int) : (popZeros r).head? ≠ some 0 ∨ popZeros r = [0] := by
  induction r with
  | nil => left; simp [popZeros]
  | cons x xs ih =>
    cases xs with
    | nil =>
      by_cases hx : x = 0
      · right; subst hx; rfl
      · left; simp [popZeros, hx]
    | cons y ys =>
      by_cases hx : x = 0
      · subst hx; rw [popZeros]; exact ih
      · left; rw [popZeros]
        · simp [hx]
        · intro d ds h; simp at h; exact hx h.1


theorem digitsOk_cons {d : Int} {ds : List Int} :
    DigitsOk (d :: ds) ↔ (0 ≤ d ∧ d ≤ 9) ∧ DigitsOk ds := by
  simp [DigitsOk]

theorem digitsOk_append {xs ys : List Int} :
    DigitsOk (xs ++ ys) ↔ DigitsOk xs ∧ DigitsOk ys := by
  simp only [DigitsOk, List.mem_append]
  constructor
  · intro h; exact ⟨fun d hd => h d (Or.inl hd), fun d hd => h d (Or.inr hd)⟩
  · rintro ⟨h1, h2⟩ d (hd | hd)
    · exact h1 d hd
    · exact h2 d hd

theorem digitsOk_reverse {xs : List Int} : DigitsOk xs.reverse ↔ DigitsOk xs := by
  simp [DigitsOk]

theorem digitsOk_replicate_zero (k : Nat) : DigitsOk (List.replicate k 0) := by
  intro d hd
  rw [List.mem_replicate] at hd
  omega

/-- A non-empty digit vector whose last entry is not 0 denotes at least `10 ^ (length - 1)`. -/
theorem evalDigits_ge_of_getLast {ds : List Int} (hok : DigitsOk ds) (hne : ds ≠ [])
    (hl : ds.getLast? ≠ some 0) : 10 ^ (ds.length - 1) ≤ evalDigits ds := by
  obtain ⟨init, l, rfl⟩ : ∃ init l, ds = init ++ [l] :=
    ⟨ds.dropLast, ds.getLast hne, (List.dropLast_append_getLast hne).symm⟩
  rw [digitsOk_append] at hok
  have hl0 : l ≠ 0 := by
    intro h; apply hl; simp [h]
  have hlr := hok.2 l (by simp)
  have hi := evalDigits_nonneg hok.1
  rw [evalDigits_append]
  simp only [List.length_append, List.length_singleton, Nat.add_sub_cancel, evalDigits, mul_zero,
    add_zero]
  have hp : (0 : Int) < 10 ^ init.length := by positivity
  have h1 : (1 : Int) ≤ l := by omega
  have h2 : (10 : Int) ^ init.length * 1 ≤ 10 ^ init.length * l :=
    mul_le_mul_of_nonneg_left h1 hp.le
  linarith

/-- The digits part of the data-model invariants. -/
theorem wellFormed_iff (a : BigNumber) :
    a.WellFormed ↔ a.digits ≠ [] ∧ DigitsOk a.digits ∧
      (a.digits.getLast? ≠ some 0 ∨ a.digits = [0]) ∧ (a.digits = [0] → a.isNegative = false) :=
  Iff.rfl

theorem mag_nonneg {a : BigNumber} (h : a.WellFormed) : 0 ≤ a.mag :=
  evalDigits_nonneg h.2.1

theorem mag_lt_pow {a : BigNumber} (h : a.WellFormed) : a.mag < 10 ^ a.digits.length :=
  evalDigits_lt h.2.1

theorem pow_le_mag {a : BigNumber} (h : a.WellFormed) (h2 : 2 ≤ a.digits.length) :
    10 ^ (a.digits.length - 1) ≤ a.mag := by
  rcases h.2.2.1 with h1 | h1
  · exact evalDigits_ge_of_getLast h.2.1 h.1 h1
  · rw [h1] at h2; simp at h2

/-- A well-formed number has magnitude 0 exactly when it is the single digit 0. -/
theorem mag_eq_zero_iff {a : BigNumber} (h : a.WellFormed) : a.mag = 0 ↔ a.digits = [0] := by
  constructor
  · intro h0
    rcases h.2.2.1 with h1 | h1
    · have := evalDigits_ge_of_getLast h.2.1 h.1 h1
      have hp : (0 : Int) < 10 ^ (a.digits.length - 1) := by positivity
      unfold BigNumber.mag at h0; omega
    · exact h1
  · intro h0; simp [BigNumber.mag, h0, evalDigits]

theorem isZero_iff_mag {a : BigNumber} (h : a.WellFormed) : a.isZero = true ↔ a.mag = 0 := by
  rw [mag_eq_zero_iff h]; simp [BigNumber.isZero]

theorem absLessLoop_iff : ∀ (r1 r2 : List Int), r1.length = r2.length → DigitsOk r1 → DigitsOk r2 →
    (absLessLoop r1 r2 = true ↔ evalDigits r1.reverse < evalDigits r2.reverse)
  | [], [], _, _, _ => by simp [absLessLoop, evalDigits]
  | [], _ :: _, h, _, _ => by simp at h
  | _ :: _, [], h, _, _ => by simp at h
  | x :: xs, y :: ys, h, h1, h2 => by
    rw [digitsOk_cons] at h1 h2
    have hlen : xs.length = ys.length := by simpa using h
    have ih := absLessLoop_iff xs ys hlen h1.2 h2.2
    have bx := evalDigits_lt (digitsOk_reverse.2 h1.2)
    have by_ := evalDigits_lt (digitsOk_reverse.2 h2.2)
    have nx := evalDigits_nonneg (digitsOk_reverse.2 h1.2)
    have ny := evalDigits_nonneg (digitsOk_reverse.2 h2.2)
    simp only [List.length_reverse] at bx by_
    rw [← hlen] at by_
    simp only [List.reverse_cons, evalDigits_append, List.length_reverse, evalDigits, mul_zero,
      add_zero, absLessLoop]
    rw [← hlen]
    have hp : (0 : Int) < 10 ^ xs.length := by positivity
    by_cases hxy : x = y
    · subst hxy
      simp only [ne_eq, not_true_eq_false, if_false, ih]
      constructor <;> intro h' <;> linarith
    · simp only [ne_eq, hxy, not_false_eq_true, if_true, decide_eq_true_eq]
      constructor
      · intro hlt
        have : x + 1 ≤ y := hlt
        nlinarith
      · intro hlt
        by_contra hge
        have : y + 1 ≤ x := by omega
        nlinarith

/-- On well-formed numbers `absLess` decides the order of the magnitudes. -/
theorem absLess_iff {a b : BigNumber} (ha : a.WellFormed) (hb : b.WellFormed) :
    a.absLess b = true ↔ a.mag < b.mag := by
  unfold BigNumber.absLess
  by_cases hlen : a.digits.length = b.digits.length
  · simp only [hlen, ne_eq, not_true_eq_false, if_false]
    rw [absLessLoop_iff _ _ (by simpa using hlen) (digitsOk_reverse.2 ha.2.1)
      (digitsOk_reverse.2 hb.2.1)]
    simp [BigNumber.mag]
  · simp only [ne_eq, hlen, not_false_eq_true, if_true, decide_eq_true_eq]
    have la : 1 ≤ a.digits.length := List.length_pos.2 ha.1
    have lb : 1 ≤ b.digits.length := List.length_pos.2 hb.1
    constructor
    · intro hlt
      have h1 := mag_lt_pow ha
      have h2 := pow_le_mag hb (by omega)
      have h3 : (10 : Int) ^ a.digits.length ≤ 10 ^ (b.digits.length - 1) :=
        pow_le_pow_right₀ (by norm_num) (by omega)
      linarith
    · intro hlt
      by_contra hge
      have h1 := mag_lt_pow hb
      have h2 := pow_le_mag ha (by omega)
      have h3 : (10 : Int) ^ b.digits.length ≤ 10 ^ (a.digits.length - 1) :=
        pow_le_pow_right₀ (by norm_num) (by omega)
      linarith

/-! ## Normalisation and negation -/

theorem removeLeadingZeros_decomp (a : BigNumber) :
    ∃ k, a.digits = a.removeLeadingZeros.digits ++ List.replicate k 0 := by
  obtain ⟨k, hk⟩ := popZeros_decomp a.digits.reverse
  refine ⟨k, ?_⟩
  have := congrArg List.reverse hk
  simpa [BigNumber.removeLeadingZeros] using this

theorem removeLeadingZeros_mag (a : BigNumber) : a.removeLeadingZeros.mag = a.mag := by
  obtain ⟨k, hk⟩ := removeLeadingZeros_decomp a
  unfold BigNumber.mag
  rw [hk, evalDigits_append, evalDigits_replicate_zero]
  simp

theorem removeLeadingZeros_length_le (a : BigNumber) :
    a.removeLeadingZeros.digits.length ≤ a.digits.length := by
  obtain ⟨k, hk⟩ := removeLeadingZeros_decomp a
  have := congrArg List.length hk
  simp at this; omega

theorem removeLeadingZeros_isNegative (a : BigNumber) :
    a.removeLeadingZeros.isNegative =
      (if a.removeLeadingZeros.digits = [0] then false else a.isNegative) := rfl

theorem removeLeadingZeros_wellFormed {a : BigNumber} (hne : a.digits ≠ [])
    (hok : DigitsOk a.digits) : a.removeLeadingZeros.WellFormed := by
  obtain ⟨k, hk⟩ := removeLeadingZeros_decomp a
  refine ⟨?_, ?_, ?_, ?_⟩
  · intro h
    have : popZeros a.digits.reverse ≠ [] := popZeros_ne_nil (by simpa using hne)
    apply this
    simpa [BigNumber.removeLeadingZeros] using h
  · rw [hk, digitsOk_append] at hok; exact hok.1
  · rcases popZeros_head a.digits.reverse with h | h
    · left
      simpa [BigNumber.removeLeadingZeros, List.getLast?_reverse] using h
    · right
      simp [BigNumber.removeLeadingZeros, h]
  · intro h
    rw [removeLeadingZeros_isNegative, if_pos h]

theorem removeLeadingZeros_value (a : BigNumber) : a.removeLeadingZeros.value = a.value := by
  unfold BigNumber.value
  rw [removeLeadingZeros_mag, removeLeadingZeros_isNegative]
  by_cases h : a.removeLeadingZeros.digits = [0]
  · have h0 : a.mag = 0 := by
      rw [← removeLeadingZeros_mag]; simp [BigNumber.mag, h, evalDigits]
    simp [h, h0]
  · simp [h]

/-- Normalising a well-formed number changes nothing. -/
theorem removeLeadingZeros_of_wellFormed {a : BigNumber} (h : a.WellFormed) :
    a.removeLeadingZeros = a := by
  have hw := removeLeadingZeros_wellFormed h.1 h.2.1
  obtain ⟨k, hk⟩ := removeLeadingZeros_decomp a
  have hd : a.removeLeadingZeros.digits = a.digits := by
    cases k with
    | zero => simpa using hk.symm
    | succ k =>
      rcases h.2.2.1 with h1 | h1
      · exfalso; apply h1
        rw [hk, List.replicate_succ', ← List.append_assoc, List.getLast?_append]
        simp
      · rw [h1] at hk
        have hl := congrArg List.length hk
        simp at hl
        have : a.removeLeadingZeros.digits = [] := List.length_eq_zero.1 (by omega)
        exact absurd this hw.1
  have hn : a.removeLeadingZeros.isNegative = a.isNegative := by
    rw [removeLeadingZeros_isNegative, hd]
    by_cases h0 : a.digits = [0]
    · simp [h0, h.2.2.2 h0]
    · simp [h0]
  cases a with
  | mk ds n =>
    cases hr : BigNumber.removeLeadingZeros ⟨ds, n⟩ with
    | mk ds2 n2 =>
      rw [hr] at hd hn
      simp at hd hn
      rw [hd, hn]

theorem neg_wellFormed {a : BigNumber} (h : a.WellFormed) : a.neg.WellFormed := by
  unfold BigNumber.neg
  by_cases hz : a.isZero = true
  · simpa [hz] using h
  · simp only [hz, Bool.false_eq_true, if_false]
    refine ⟨h.1, h.2.1, h.2.2.1, ?_⟩
    intro h0
    exfalso; apply hz
    simpa [BigNumber.isZero] using h0

theorem neg_mag (a : BigNumber) : a.neg.mag = a.mag := by
  unfold BigNumber.neg BigNumber.mag
  by_cases hz : a.isZero = true <;> simp [hz]

theorem neg_digits (a : BigNumber) : a.neg.digits = a.digits := by
  unfold BigNumber.neg
  by_cases hz : a.isZero = true <;> simp [hz]

theorem neg_value {a : BigNumber} (h : a.WellFormed) : a.neg.value = - a.value := by
  unfold BigNumber.neg
  by_cases hz : a.isZero = true
  · have h0 : a.mag = 0 := (isZero_iff_mag h).1 hz
    simp [hz, BigNumber.value, h0]
  · simp only [hz, Bool.false_eq_true, if_false]
    unfold BigNumber.value BigNumber.mag
    cases hn : a.isNegative <;> simp

theorem neg_isNegative_of_not_isZero {a : BigNumber} (hz : a.isZero = false) :
    a.neg.isNegative = !a.isNegative := by
  simp [BigNumber.neg, hz]

theorem neg_of_isZero {a : BigNumber} (hz : a.isZero = true) : a.neg = a := by
  simp [BigNumber.neg, hz]

/-! ## The digit loops of addition and subtraction -/

theorem flushCarry_eval : ∀ (k : Nat) (c : Int), c.natAbs ≤ k → evalDigits (flushCarry k c) = c
  | 0, c, h => by
    have : c = 0 := by omega
    simp [flushCarry, evalDigits, this]
  | k + 1, c, h => by
    unfold flushCarry
    by_cases hc : c = 0
    · simp [hc, evalDigits]
    · simp only [hc, if_false, evalDigits]
      have hlt : (Int.tdiv c 10).natAbs ≤ k := by
        rw [Int.natAbs_tdiv]
        have : c.natAbs ≠ 0 := by simpa using hc
        show c.natAbs / 10 ≤ k
        omega
      rw [flushCarry_eval k _ hlt]
      exact Int.tmod_add_tdiv c 10

/-- The addition loop denotes the sum of its operands and the incoming carry. -/
theorem addLoop_eval : ∀ (xs ys : List Int) (c : Int),
    evalDigits (addLoop xs ys c) = evalDigits xs + evalDigits ys + c
  | [], [], c => by simp [addLoop, evalDigits, flushCarry_eval _ c (le_refl _)]
  | x :: xs, [], c => by
    simp only [addLoop, evalDigits, addLoop_eval xs [] _]
    have := Int.tmod_add_tdiv (c + x + 0) 10
    linarith
  | [], y :: ys, c => by
    simp only [addLoop, evalDigits, addLoop_eval [] ys _]
    have := Int.tmod_add_tdiv (c + 0 + y) 10
    linarith
  | x :: xs, y :: ys, c => by
    simp only [addLoop, evalDigits, addLoop_eval xs ys _]
    have := Int.tmod_add_tdiv (c + x + y) 10
    linarith

theorem subLoop_length : ∀ (xs ys : List Int) (bw : Int), (subLoop xs ys bw).1.length = xs.length
  | [], _, _ => rfl
  | x :: xs, ys, bw => by simp [subLoop, subLoop_length xs]

theorem subLoop_eval : ∀ (xs ys : List Int) (bw : Int),
    evalDigits (subLoop xs ys bw).1 - 10 ^ xs.length * (subLoop xs ys bw).2 =
      evalDigits xs - evalDigits (ys.take xs.length) - bw
  | [], ys, bw => by simp [subLoop, evalDigits]
  | x :: xs, ys, bw => by
    have ih := subLoop_eval xs ys.tail (if x - bw - ys.headD 0 < 0 then 1 else 0)
    have hy : evalDigits (ys.take (xs.length + 1)) =
        ys.headD 0 + 10 * evalDigits (ys.tail.take xs.length) := by
      cases ys <;> simp [evalDigits]
    simp only [subLoop, evalDigits, List.length_cons, hy, pow_succ]
    by_cases hd : x - bw - ys.headD 0 < 0
    · simp only [hd, if_true] at ih ⊢
      linarith
    · simp only [hd, if_false] at ih ⊢
      linarith

theorem subLoop_digitsOk : ∀ (xs ys : List Int) (bw : Int), DigitsOk xs → DigitsOk ys →
    0 ≤ bw → bw ≤ 1 →
    DigitsOk (subLoop xs ys bw).1 ∧ 0 ≤ (subLoop xs ys bw).2 ∧ (subLoop xs ys bw).2 ≤ 1
  | [], _, bw, _, _, h0, h1 => by simp [subLoop, DigitsOk, h0, h1]
  | x :: xs, ys, bw, hx, hy, h0, h1 => by
    rw [digitsOk_cons] at hx
    have hyt : DigitsOk ys.tail := fun d hd => hy d (List.mem_of_mem_tail hd)
    have hyh : 0 ≤ ys.headD 0 ∧ ys.headD 0 ≤ 9 := by
      cases ys with
      | nil => simp
      | cons y ys => simpa using hy y (List.mem_cons_self _ _)
    have ih := subLoop_digitsOk xs ys.tail (if x - bw - ys.headD 0 < 0 then 1 else 0) hx.2 hyt
      (by split <;> simp) (by split <;> simp)
    simp only [subLoop]
    refine ⟨?_, ih.2.1, ih.2.2⟩
    rw [digitsOk_cons]
    refine ⟨?_, ih.1⟩
    split <;> omega

/-- When the left operand is at least the right one, the subtraction loop ends without a
borrow and its digits denote the difference of the magnitudes. -/
theorem subLoop_correct {xs ys : List Int} (hx : DigitsOk xs) (hy : DigitsOk ys)
    (hlen : ys.length ≤ xs.length) (hle : evalDigits ys ≤ evalDigits xs) :
    (subLoop xs ys 0).2 = 0 ∧ evalDigits (subLoop xs ys 0).1 = evalDigits xs - evalDigits ys ∧
      DigitsOk (subLoop xs ys 0).1 := by
  have he := subLoop_eval xs ys 0
  have hd := subLoop_digitsOk xs ys 0 hx hy (le_refl _) (by norm_num)
  rw [List.take_of_length_le hlen] at he
  have h1 := evalDigits_lt hd.1
  have h2 := evalDigits_nonneg hd.1
  have h3 := evalDigits_lt hx
  rw [subLoop_length] at h1
  have hb : (subLoop xs ys 0).2 = 0 := by
    by_contra hne
    have : (subLoop xs ys 0).2 = 1 := by omega
    rw [this] at he
    linarith
  refine ⟨hb, ?_, hd.1⟩
  rw [hb] at he
  linarith

/-! ## Sizes stored in an `int` -/

theorem toInt32_of_range {z : Int} (h0 : -2147483648 ≤ z) (h1 : z < 2147483648) :
    toInt32 z = z := by
  unfold toInt32; omega

/-- A vector of fewer than `2 ^ 31` entries is read in full by a loop bounded by its size
stored in an `int`. -/
theorem take_toInt32_length {α : Type} (l : List α) (h : l.length < 2147483648) :
    l.take (toInt32 l.length).toNat = l := by
  rw [toInt32_of_range (by omega) (by omega)]
  simp

/-- A vector of at most `2 ^ 31` entries is read in full by a loop that starts at its last
index stored in an `int`. -/
theorem take_toInt32_pred {α : Type} (l : List α) (h : l.length ≤ 2147483648) :
    l.take (toInt32 ((l.length : Int) - 1) + 1).toNat = l := by
  rw [toInt32_of_range (by omega) (by omega)]
  have : ((l.length : Int) - 1 + 1).toNat = l.length := by omega
  rw [this]
  simp

/-! ## Shape of the result of the addition loop -/

theorem flushCarry_bit (c : Int) (h0 : 0 ≤ c) (h1 : c ≤ 1) :
    flushCarry c.natAbs c = if c = 1 then [1] else [] := by
  have hc : c = 0 ∨ c = 1 := by omega
  rcases hc with rfl | rfl <;> decide

/-- Carry, digits and length of the addition loop on digit vectors with a carry bit. -/
theorem addLoop_shape : ∀ (xs ys : List Int) (c : Int), DigitsOk xs → DigitsOk ys →
    0 ≤ c → c ≤ 1 →
    (0 ≤ addCarry xs ys c ∧ addCarry xs ys c ≤ 1) ∧ DigitsOk (addLoop xs ys c) ∧
      (addLoop xs ys c).length =
        max xs.length ys.length + (if addCarry xs ys c = 1 then 1 else 0) ∧
      (addCarry xs ys c = 1 ↔
        10 ^ (max xs.length ys.length) ≤ evalDigits xs + evalDigits ys + c)
  | [], [], c, _, _, h0, h1 => by
    rw [addLoop, addCarry, flushCarry_bit c h0 h1]
    have hc : c = 0 ∨ c = 1 := by omega
    rcases hc with rfl | rfl <;> simp [DigitsOk, evalDigits]
  | x :: xs, [], c, hx, hy, h0, h1 => by
    rw [digitsOk_cons] at hx
    have hs : 0 ≤ c + x + 0 := by omega
    have hd : Int.tdiv (c + x + 0) 10 = (c + x + 0) / 10 := Int.tdiv_eq_ediv hs (by norm_num)
    have hm : Int.tmod (c + x + 0) 10 = (c + x + 0) % 10 := Int.tmod_eq_emod hs (by norm_num)
    obtain ⟨i1, i2, i3, i4⟩ := addLoop_shape xs [] ((c + x + 0) / 10) hx.2 hy (by omega) (by omega)
    rw [addLoop, addCarry, hd, hm]
    refine ⟨i1, ?_, ?_, ?_⟩
    · rw [digitsOk_cons]; exact ⟨by omega, i2⟩
    · simp only [List.length_cons, i3, List.length_nil]; omega
    · rw [i4]
      simp only [List.length_cons, List.length_nil, evalDigits, Nat.max_zero] at *
      rw [pow_succ]
      generalize (10 : Int) ^ xs.length = P
      generalize evalDigits xs = A
      omega
  | [], y :: ys, c, hx, hy, h0, h1 => by
    rw [digitsOk_cons] at hy
    have hs : 0 ≤ c + 0 + y := by omega
    have hd : Int.tdiv (c + 0 + y) 10 = (c + 0 + y) / 10 := Int.tdiv_eq_ediv hs (by norm_num)
    have hm : Int.tmod (c + 0 + y) 10 = (c + 0 + y) % 10 := Int.tmod_eq_emod hs (by norm_num)
    obtain ⟨i1, i2, i3, i4⟩ := addLoop_shape [] ys ((c + 0 + y) / 10) hx hy.2 (by omega) (by omega)
    rw [addLoop, addCarry, hd, hm]
    refine ⟨i1, ?_, ?_, ?_⟩
    · rw [digitsOk_cons]; exact ⟨by omega, i2⟩
    · simp only [List.length_cons, i3, List.length_nil]; omega
    · rw [i4]
      simp only [List.length_cons, List.length_nil, evalDigits, Nat.zero_max] at *
      rw [pow_succ]
      generalize (10 : Int) ^ ys.length = P
      generalize evalDigits ys = B
      omega
  | x :: xs, y :: ys, c, hx, hy, h0, h1 => by
    rw [digitsOk_cons] at hx hy
    have hs : 0 ≤ c + x + y := by omega
    have hd : Int.tdiv (c + x + y) 10 = (c + x + y) / 10 := Int.tdiv_eq_ediv hs (by norm_num)
    have hm : Int.tmod (c + x + y) 10 = (c + x + y) % 10 := Int.tmod_eq_emod hs (by norm_num)
    obtain ⟨i1, i2, i3, i4⟩ := addLoop_shape xs ys ((c + x + y) / 10) hx.2 hy.2 (by omega)
      (by omega)
    rw [addLoop, addCarry, hd, hm]
    refine ⟨i1, ?_, ?_, ?_⟩
    · rw [digitsOk_cons]; exact ⟨by omega, i2⟩
    · simp only [List.length_cons, i3]; omega
    · rw [i4]
      simp only [List.length_cons, evalDigits, Nat.succ_max_succ]
      rw [pow_succ]
      generalize (10 : Int) ^ (max xs.length ys.length) = P
      generalize evalDigits xs = A
      generalize evalDigits ys = B
      omega

theorem addLoop_length_le {xs ys : List Int} (hx : DigitsOk xs) (hy : DigitsOk ys) :
    (addLoop xs ys 0).length ≤ max xs.length ys.length + 1 := by
  obtain ⟨_, _, hlen, _⟩ := addLoop_shape xs ys 0 hx hy (le_refl _) (by norm_num)
  rw [hlen]
  split <;> omega

/-! ## Addition and subtraction -/

/-- The zero value: the single digit 0 with the sign flag clear. -/
theorem ofULL_zero : BigNumber.ofULL 0 = ⟨[0], false⟩ := by decide

theorem add_succ (fuel : Nat) (a b : BigNumber) :
    BigNumber.add (fuel + 1) a b =
      if a.isNegative ≠ b.isNegative then BigNumber.sub fuel a b.neg
      else if (addLoop (a.digits.take (toInt32 a.digits.length).toNat)
          (b.digits.take (toInt32 b.digits.length).toNat) 0).length ≤ 2147483647 then
        some ⟨addLoop (a.digits.take (toInt32 a.digits.length).toNat)
          (b.digits.take (toInt32 b.digits.length).toNat) 0, a.isNegative⟩
      else none := by
  rw [BigNumber.add]

theorem sub_succ (fuel : Nat) (a b : BigNumber) :
    BigNumber.sub (fuel + 1) a b =
      if a.isNegative ≠ b.isNegative then BigNumber.add fuel a b.neg
      else if a.isNegative then BigNumber.sub fuel b.neg a.neg
      else if a.absLess b then (BigNumber.sub fuel b a).map BigNumber.neg
      else some (BigNumber.removeLeadingZeros ⟨(subLoop a.digits b.digits 0).1, false⟩) := by
  rw [BigNumber.sub]

/-- A negative left operand and the zero value as right operand: `operator+` calls
`operator-` on the same operands, which calls `operator+` on the same operands, so no
amount of fuel yields a result. -/
theorem add_sub_negative_zero (a : BigNumber) (ha : a.isNegative = true) :
    ∀ fuel, BigNumber.add fuel a ⟨[0], false⟩ = none ∧ BigNumber.sub fuel a ⟨[0], false⟩ = none
  | 0 => by simp [BigNumber.add, BigNumber.sub]
  | fuel + 1 => by
    have ih := add_sub_negative_zero a ha fuel
    have hz : BigNumber.neg ⟨[0], false⟩ = ⟨[0], false⟩ := by decide
    rw [add_succ, sub_succ, hz]
    simp [ha, ih.1, ih.2]

theorem length_le_of_mag_le {a b : BigNumber} (ha : a.WellFormed) (hb : b.WellFormed)
    (hle : b.mag ≤ a.mag) : b.digits.length ≤ a.digits.length := by
  by_contra hlt
  have h1 := mag_lt_pow ha
  have h2 := pow_le_mag hb (by have := List.length_pos.2 ha.1; omega)
  have h3 : (10 : Int) ^ a.digits.length ≤ 10 ^ (b.digits.length - 1) :=
    pow_le_pow_right₀ (by norm_num) (by omega)
  linarith

/-- Digit-wise path of `operator-`: both operands non-negative, left magnitude at least the
right one. -/
theorem sub_nonneg_ge {a b : BigNumber} (ha : a.WellFormed) (hb : b.WellFormed)
    (hna : a.isNegative = false) (hnb : b.isNegative = false) (hle : b.mag ≤ a.mag)
    (fuel : Nat) :
    ∃ r, BigNumber.sub (fuel + 1) a b = some r ∧ r.WellFormed ∧ r.isNegative = false ∧
      r.mag = a.mag - b.mag := by
  have hal : a.absLess b = false := by
    rw [Bool.eq_false_iff, Ne, absLess_iff ha hb]; omega
  have hc := subLoop_correct ha.2.1 hb.2.1 (length_le_of_mag_le ha hb hle) hle
  refine ⟨_, by rw [sub_succ]; simp [hna, hnb, hal]; rfl, ?_, ?_, ?_⟩
  · apply removeLeadingZeros_wellFormed
    · intro h
      have := congrArg List.length h
      simp only [subLoop_length, List.length_nil] at this
      exact ha.1 (List.length_eq_zero.1 this)
    · exact hc.2.2
  · rw [removeLeadingZeros_isNegative]; simp
  · rw [removeLeadingZeros_mag]; exact hc.2.1

theorem value_of_nonneg {a : BigNumber} (h : a.isNegative = false) : a.value = a.mag := by
  simp [BigNumber.value, h]

theorem value_of_neg {a : BigNumber} (h : a.isNegative = true) : a.value = - a.mag := by
  simp [BigNumber.value, h]

/-- Both operands non-negative: `operator-` returns the exact difference. -/
theorem sub_nonneg {a b : BigNumber} (ha : a.WellFormed) (hb : b.WellFormed)
    (hna : a.isNegative = false) (hnb : b.isNegative = false) (fuel : Nat) :
    ∃ r, BigNumber.sub (fuel + 2) a b = some r ∧ r.WellFormed ∧ r.value = a.value - b.value := by
  by_cases hlt : a.mag < b.mag
  · obtain ⟨r, hr, hw, hn, hm⟩ := sub_nonneg_ge hb ha hnb hna hlt.le fuel
    have hal : a.absLess b = true := (absLess_iff ha hb).2 hlt
    refine ⟨r.neg, ?_, neg_wellFormed hw, ?_⟩
    · rw [sub_succ]; simp [hna, hnb, hal, hr]
    · rw [neg_value hw, value_of_nonneg hn, value_of_nonneg hna, value_of_nonneg hnb, hm]; ring
  · obtain ⟨r, hr, hw, hn, hm⟩ := sub_nonneg_ge ha hb hna hnb (not_lt.1 hlt) (fuel + 1)
    exact ⟨r, hr, hw, by rw [value_of_nonneg hn, value_of_nonneg hna, value_of_nonneg hnb, hm]⟩

theorem not_isZero_of_negative {a : BigNumber} (ha : a.WellFormed) (hn : a.isNegative = true) :
    a.isZero = false := by
  rw [Bool.eq_false_iff]
  intro hz
  have := ha.2.2.2 (by simpa [BigNumber.isZero] using hz)
  rw [this] at hn; exact absurd hn (by decide)

/-- Same-sign path of `operator+` when the sizes of the operands fit `int` and the sum has
at most `INT_MAX` digits, so that the counter stays in range. -/
theorem add_same_sign {a b : BigNumber} (hs : a.isNegative = b.isNegative)
    (hla : a.digits.length ≤ 2147483647) (hlb : b.digits.length ≤ 2147483647)
    (hcnt : (addLoop a.digits b.digits 0).length ≤ 2147483647) (fuel : Nat) :
    BigNumber.add (fuel + 1) a b = some ⟨addLoop a.digits b.digits 0, a.isNegative⟩ ∧
      (BigNumber.mk (addLoop a.digits b.digits 0) a.isNegative).value = a.value + b.value := by
  refine ⟨by
    rw [add_succ, take_toInt32_length _ (by omega), take_toInt32_length _ (by omega),
      if_neg (by simp [hs]), if_pos hcnt], ?_⟩
  unfold BigNumber.value BigNumber.mag
  rw [← hs]
  simp only [addLoop_eval]
  cases a.isNegative
  · simp
  · simp; ring

/-- Binary `operator-` returns the exact difference, except when the left operand is
negative and the right operand is the zero value.  When the signs differ the digits are
added: the sizes and the size of the sum must fit `int`. -/
theorem sub_value {a b : BigNumber} (ha : a.WellFormed) (hb : b.WellFormed)
    (hdef : ¬ (a.isNegative = true ∧ b.isZero = true))
    (hlen : a.isNegative ≠ b.isNegative →
      a.digits.length ≤ 2147483647 ∧ b.digits.length ≤ 2147483647 ∧
        (addLoop a.digits b.digits 0).length ≤ 2147483647) (fuel : Nat) :
    ∃ r, BigNumber.sub (fuel + 3) a b = some r ∧ r.value = a.value - b.value := by
  by_cases hs : a.isNegative = b.isNegative
  · cases hna : a.isNegative
    · have hnb : b.isNegative = false := by rw [← hs, hna]
      obtain ⟨r, hr, _, hv⟩ := sub_nonneg ha hb hna hnb (fuel + 1)
      exact ⟨r, hr, hv⟩
    · have hnb : b.isNegative = true := by rw [← hs, hna]
      have hza := not_isZero_of_negative ha hna
      have hzb := not_isZero_of_negative hb hnb
      obtain ⟨r, hr, _, hv⟩ := sub_nonneg (neg_wellFormed hb) (neg_wellFormed ha)
        (by rw [neg_isNegative_of_not_isZero hzb, hnb]; rfl)
        (by rw [neg_isNegative_of_not_isZero hza, hna]; rfl) fuel
      refine ⟨r, ?_, ?_⟩
      · rw [sub_succ]; simp [hna, hnb, hr]
      · rw [hv, neg_value hb, neg_value ha]; ring
  · have hzb : b.isZero = false := by
      cases hnb : b.isNegative
      · have hna : a.isNegative = true := by
          cases h : a.isNegative
          · rw [h, hnb] at hs; exact absurd rfl hs
          · rfl
        cases hz : b.isZero
        · rfl
        · exact absurd ⟨hna, hz⟩ hdef
      · exact not_isZero_of_negative hb hnb
    have hsn : a.isNegative = b.neg.isNegative := by
      rw [neg_isNegative_of_not_isZero hzb]
      cases h1 : a.isNegative <;> cases h2 : b.isNegative <;> simp_all
    obtain ⟨h1, h2⟩ := add_same_sign hsn (hlen hs).1
      (by rw [neg_digits]; exact (hlen hs).2.1) (by rw [neg_digits]; exact (hlen hs).2.2)
      (fuel + 1)
    refine ⟨⟨addLoop a.digits b.neg.digits 0, a.isNegative⟩, ?_, ?_⟩
    · rw [sub_succ, if_pos hs]; exact h1
    · rw [h2, neg_value hb]; ring

/-- `operator+` returns the exact sum, except when the left operand is negative and the
right operand is the zero value.  When the signs agree the digits are added: the sizes and
the size of the sum must fit `int`. -/
theorem add_value {a b : BigNumber} (ha : a.WellFormed) (hb : b.WellFormed)
    (hdef : ¬ (a.isNegative = true ∧ b.isZero = true))
    (hlen : a.isNegative = b.isNegative →
      a.digits.length ≤ 2147483647 ∧ b.digits.length ≤ 2147483647 ∧
        (addLoop a.digits b.digits 0).length ≤ 2147483647) (fuel : Nat) :
    ∃ r, BigNumber.add (fuel + 4) a b = some r ∧ r.value = a.value + b.value := by
  by_cases hs : a.isNegative = b.isNegative
  · obtain ⟨h1, h2⟩ := add_same_sign hs (hlen hs).1 (hlen hs).2.1 (hlen hs).2.2 (fuel + 3)
    exact ⟨_, h1, h2⟩
  · have hdef2 : ¬ (a.isNegative = true ∧ b.neg.isZero = true) := by
      rintro ⟨h1, h2⟩
      apply hdef
      refine ⟨h1, ?_⟩
      simpa [BigNumber.isZero, neg_digits] using h2
    have hzb : b.isZero = false := by
      cases hnb : b.isNegative
      · have hna : a.isNegative = true := by
          cases h : a.isNegative
          · rw [h, hnb] at hs; exact absurd rfl hs
          · rfl
        cases hz : b.isZero
        · rfl
        · exact absurd ⟨hna, hz⟩ hdef
      · exact not_isZero_of_negative hb hnb
    have hsn : a.isNegative = b.neg.isNegative := by
      rw [neg_isNegative_of_not_isZero hzb]
      cases h1 : a.isNegative <;> cases h2 : b.isNegative <;> simp_all
    obtain ⟨r, hr, hv⟩ := sub_value ha (neg_wellFormed hb) hdef2
      (fun h => absurd hsn h) fuel
    refine ⟨r, ?_, ?_⟩
    · rw [add_succ, if_pos hs]; exact hr
    · rw [hv, neg_value hb]; ring

/-! ## Multiplication -/

theorem evalDigits_modify (v : Int) : ∀ (res : List Int) (k : Nat), k < res.length →
    evalDigits (res.modify (fun t => t + v) k) = evalDigits res + v * 10 ^ k
  | [], _, h => by simp at h
  | d :: ds, 0, _ => by simp [evalDigits]; ring
  | d :: ds, k + 1, h => by
    have ih := evalDigits_modify v ds k (by simpa using h)
    rw [List.modify_succ_cons]
    show d + 10 * evalDigits (List.modify (fun t => t + v) k ds) = _
    rw [ih]
    simp only [evalDigits, pow_succ]; ring

theorem nonneg_modify (v : Int) (hv : 0 ≤ v) (res : List Int) (k : Nat)
    (h : ∀ d ∈ res, 0 ≤ d) : ∀ d ∈ res.modify (fun t => t + v) k, 0 ≤ d := by
  induction res generalizing k with
  | nil => simp
  | cons e es ih =>
    have he := h e (List.mem_cons_self _ _)
    have hes : ∀ d ∈ es, 0 ≤ d := fun d hd => h d (List.mem_cons_of_mem _ hd)
    cases k with
    | zero =>
      intro d hd
      simp only [List.modify_zero_cons, List.mem_cons] at hd
      rcases hd with rfl | hd
      · omega
      · exact hes d hd
    | succ k =>
      intro d hd
      simp only [List.modify_succ_cons, List.mem_cons] at hd
      rcases hd with rfl | hd
      · exact he
      · exact ih k hes d hd

theorem mulInner_length (x : Int) (i : Nat) : ∀ (ys : List Int) (j : Nat) (res : List Int),
    (mulInner x i ys j res).length = res.length
  | [], _, _ => rfl
  | y :: ys, j, res => by simp [mulInner, mulInner_length x i ys]

theorem mulInner_eval (x : Int) (i : Nat) : ∀ (ys : List Int) (j : Nat) (res : List Int),
    i + j + ys.length ≤ res.length →
    evalDigits (mulInner x i ys j res) = evalDigits res + x * 10 ^ (i + j) * evalDigits ys
  | [], _, _, _ => by simp [mulInner, evalDigits]
  | y :: ys, j, res, h => by
    simp only [List.length_cons] at h
    have ih := mulInner_eval x i ys (j + 1) (res.modify (fun t => t + x * y) (i + j))
      (by simp; omega)
    rw [mulInner, ih, evalDigits_modify _ _ _ (by omega)]
    simp only [evalDigits, ← add_assoc, pow_succ]; ring

theorem mulInner_nonneg (x : Int) (hx : 0 ≤ x) (i : Nat) : ∀ (ys : List Int) (j : Nat)
    (res : List Int), (∀ y ∈ ys, 0 ≤ y) → (∀ d ∈ res, 0 ≤ d) →
    ∀ d ∈ mulInner x i ys j res, 0 ≤ d
  | [], _, _, _, hr => by simpa [mulInner] using hr
  | y :: ys, j, res, hy, hr => by
    rw [mulInner]
    apply mulInner_nonneg x hx i ys (j + 1) _ (fun e he => hy e (List.mem_cons_of_mem _ he))
    exact nonneg_modify _ (mul_nonneg hx (hy y (List.mem_cons_self _ _))) _ _ hr

theorem mulOuter_length (bs : List Int) : ∀ (xs : List Int) (i : Nat) (res : List Int),
    (mulOuter bs xs i res).length = res.length
  | [], _, _ => rfl
  | x :: xs, i, res => by simp [mulOuter, mulOuter_length bs xs, mulInner_length]

theorem mulOuter_eval (bs : List Int) : ∀ (xs : List Int) (i : Nat) (res : List Int),
    i + xs.length + bs.length ≤ res.length + 1 →
    evalDigits (mulOuter bs xs i res) = evalDigits res + 10 ^ i * evalDigits xs * evalDigits bs
  | [], _, _, _ => by simp [mulOuter, evalDigits]
  | x :: xs, i, res, h => by
    simp only [List.length_cons] at h
    have ih := mulOuter_eval bs xs (i + 1) (mulInner x i bs 0 res)
      (by rw [mulInner_length]; omega)
    rw [mulOuter, ih, mulInner_eval x i bs 0 res (by omega)]
    simp only [evalDigits, add_zero, pow_succ]; ring

theorem mulOuter_nonneg (bs : List Int) (hb : ∀ y ∈ bs, 0 ≤ y) : ∀ (xs : List Int) (i : Nat)
    (res : List Int), (∀ x ∈ xs, 0 ≤ x) → (∀ d ∈ res, 0 ≤ d) →
    ∀ d ∈ mulOuter bs xs i res, 0 ≤ d
  | [], _, _, _, hr => by simpa [mulOuter] using hr
  | x :: xs, i, res, hx, hr => by
    rw [mulOuter]
    apply mulOuter_nonneg bs hb xs (i + 1) _ (fun e he => hx e (List.mem_cons_of_mem _ he))
    exact mulInner_nonneg x (hx x (List.mem_cons_self _ _)) i bs 0 res hb hr

theorem carryPass_length : ∀ (ds : List Int) (c : Int), (carryPass ds c).1.length = ds.length
  | [], _ => rfl
  | d :: ds, c => by simp [carryPass, carryPass_length ds]

/-- The carry pass keeps the denoted number: digits plus the outgoing carry at the top. -/
theorem carryPass_eval : ∀ (ds : List Int) (c : Int),
    evalDigits (carryPass ds c).1 + 10 ^ ds.length * (carryPass ds c).2 = evalDigits ds + c
  | [], c => by simp [carryPass, evalDigits]
  | d :: ds, c => by
    have ih := carryPass_eval ds (Int.tdiv (d + c) 10)
    have hdm := Int.tmod_add_tdiv (d + c) 10
    simp only [carryPass, evalDigits, List.length_cons, pow_succ]
    linarith

theorem carryPass_digitsOk : ∀ (ds : List Int) (c : Int), (∀ d ∈ ds, 0 ≤ d) → 0 ≤ c →
    DigitsOk (carryPass ds c).1 ∧ 0 ≤ (carryPass ds c).2
  | [], c, _, hc => by simp [carryPass, DigitsOk, hc]
  | d :: ds, c, hd, hc => by
    have hd0 := hd d (List.mem_cons_self _ _)
    have hs : 0 ≤ d + c := by omega
    have ih := carryPass_digitsOk ds (Int.tdiv (d + c) 10)
      (fun e he => hd e (List.mem_cons_of_mem _ he)) (Int.tdiv_nonneg hs (by norm_num))
    simp only [carryPass]
    refine ⟨?_, ih.2⟩
    rw [digitsOk_cons]
    refine ⟨⟨Int.tmod_nonneg _ hs, ?_⟩, ih.1⟩
    have := Int.tmod_lt_of_pos (d + c) (show (0 : Int) < 10 by norm_num)
    omega

/-- The accumulator of `operator*` after the two nested loops denotes the product of the
magnitudes, and its entries are non-negative. -/
theorem mulOuter_product {a b : BigNumber} (ha : DigitsOk a.digits) (hb : DigitsOk b.digits) :
    evalDigits (mulOuter b.digits a.digits 0
        (List.replicate (a.digits.length + b.digits.length) 0)) = a.mag * b.mag ∧
      ∀ d ∈ mulOuter b.digits a.digits 0
        (List.replicate (a.digits.length + b.digits.length) 0), 0 ≤ d := by
  constructor
  · rw [mulOuter_eval _ _ _ _ (by simp), evalDigits_replicate_zero]
    simp [BigNumber.mag]
  · apply mulOuter_nonneg _ (fun y hy => (hb y hy).1) _ _ _ (fun x hx => (ha x hx).1)
    intro d hd
    rw [List.mem_replicate] at hd
    omega

/-- The single carry pass of `operator*` leaves no carry after the last slot, and its
digits denote the product of the magnitudes. -/
theorem carryPass_product {a b : BigNumber} (ha : DigitsOk a.digits) (hb : DigitsOk b.digits) :
    (carryPass (mulOuter b.digits a.digits 0
        (List.replicate (a.digits.length + b.digits.length) 0)) 0).2 = 0 ∧
      evalDigits (carryPass (mulOuter b.digits a.digits 0
        (List.replicate (a.digits.length + b.digits.length) 0)) 0).1 = a.mag * b.mag ∧
      DigitsOk (carryPass (mulOuter b.digits a.digits 0
        (List.replicate (a.digits.length + b.digits.length) 0)) 0).1 := by
  obtain ⟨hev, hnn⟩ := mulOuter_product ha hb
  have hcp := carryPass_eval (mulOuter b.digits a.digits 0
        (List.replicate (a.digits.length + b.digits.length) 0)) 0
  have hok := carryPass_digitsOk _ 0 hnn (le_refl _)
  rw [mulOuter_length, List.length_replicate, hev, add_zero] at hcp
  have h1 := evalDigits_nonneg hok.1
  have hA := evalDigits_lt ha
  have hB := evalDigits_lt hb
  have hA0 := evalDigits_nonneg ha
  have hB0 := evalDigits_nonneg hb
  have hprod : a.mag * b.mag < 10 ^ (a.digits.length + b.digits.length) := by
    rw [pow_add]
    unfold BigNumber.mag
    have hpb : (0 : Int) < 10 ^ b.digits.length := by positivity
    calc evalDigits a.digits * evalDigits b.digits
        ≤ evalDigits a.digits * 10 ^ b.digits.length :=
          mul_le_mul_of_nonneg_left hB.le hA0
      _ < 10 ^ a.digits.length * 10 ^ b.digits.length :=
          mul_lt_mul_of_pos_right hA hpb
  have hc0 : (carryPass (mulOuter b.digits a.digits 0
        (List.replicate (a.digits.length + b.digits.length) 0)) 0).2 = 0 := by
    by_contra hne
    have h2 : 1 ≤ (carryPass (mulOuter b.digits a.digits 0
        (List.replicate (a.digits.length + b.digits.length) 0)) 0).2 := by
      have := hok.2; omega
    have hp : (0 : Int) < 10 ^ (a.digits.length + b.digits.length) := by positivity
    have := mul_le_mul_of_nonneg_left h2 hp.le
    linarith
  refine ⟨hc0, ?_, hok.1⟩
  rw [hc0] at hcp
  linarith

theorem mul_wellFormed {a b : BigNumber} (ha : a.WellFormed) (hb : b.WellFormed) :
    (a.mul b).WellFormed := by
  unfold BigNumber.mul
  apply removeLeadingZeros_wellFormed
  · intro h
    have := congrArg List.length h
    simp only [carryPass_length, mulOuter_length, List.length_replicate, List.length_nil] at this
    have := List.length_pos.2 ha.1
    omega
  · exact (carryPass_product ha.2.1 hb.2.1).2.2

theorem mul_mag {a b : BigNumber} (ha : a.WellFormed) (hb : b.WellFormed) :
    (a.mul b).mag = a.mag * b.mag := by
  unfold BigNumber.mul
  rw [removeLeadingZeros_mag]
  exact (carryPass_product ha.2.1 hb.2.1).2.1

theorem mul_value {a b : BigNumber} (ha : a.WellFormed) (hb : b.WellFormed) :
    (a.mul b).value = a.value * b.value := by
  unfold BigNumber.mul
  rw [removeLeadingZeros_value]
  unfold BigNumber.value
  have := (carryPass_product ha.2.1 hb.2.1).2.1
  simp only [BigNumber.mag] at this ⊢
  rw [this]
  cases a.isNegative <;> cases b.isNegative <;> simp

theorem mul_isNegative (a b : BigNumber) :
    (a.mul b).isNegative = ((a.isNegative != b.isNegative) && !(a.mul b).isZero) := by
  have h : (a.mul b).isNegative =
      (if (a.mul b).digits = [0] then false else (a.isNegative != b.isNegative)) := rfl
  rw [h]
  by_cases h0 : (a.mul b).digits = [0] <;> simp [h0, BigNumber.isZero]

/-! ## Multiplication within the range of `int` -/

theorem inInt_iff (z : Int) : inInt z = true ↔ -2147483648 ≤ z ∧ z ≤ 2147483647 := by
  simp [inInt]

theorem getD_nonneg {res : List Int} (h : ∀ d ∈ res, 0 ≤ d) (k : Nat) : 0 ≤ res.getD k 0 := by
  rw [List.getD_eq_getElem?_getD]
  by_cases hk : k < res.length
  · rw [List.getElem?_eq_getElem hk]
    exact h _ (List.getElem_mem hk)
  · rw [List.getElem?_eq_none (by omega)]
    simp

/-- Row `i` of `operator*` when, before the row, slot `k` holds at most 81 times the number
of earlier rows that reach it (the rows `i2 < i` with `i2 <= k < i2 + L`, where `L` is the
size of the right operand): every `int` of the row fits, and afterwards the bound holds
with row `i` counted. -/
theorem mulInner_window (x : Int) (hx : 0 ≤ x ∧ x ≤ 9) (i N L : Nat) (hi : i < N)
    (hN : 81 * min N L ≤ 2147483647) :
    ∀ (ys : List Int) (j : Nat) (res : List Int), DigitsOk ys → j + ys.length = L →
      (∀ d ∈ res, 0 ≤ d) →
      (∀ (k : Nat) (hk : k < res.length), res[k] ≤
        81 * ((min i (k + 1) - (k + 1 - L) + (if i ≤ k ∧ k < i + j then 1 else 0) : Nat) :
          Int)) →
      mulInnerOk x i ys j res = true ∧
        ∀ (k : Nat) (hk : k < (mulInner x i ys j res).length),
          (mulInner x i ys j res)[k] ≤ 81 * ((min (i + 1) (k + 1) - (k + 1 - L) : Nat) : Int)
  | [], j, res, _, hj, _, h => by
    refine ⟨rfl, ?_⟩
    intro k hk
    have hk' : k < res.length := by simpa [mulInner] using hk
    have hr := h k hk'
    simp only [mulInner, List.length_nil, Nat.add_zero] at hj ⊢
    split at hr <;> omega
  | y :: ys, j, res, hy, hj, hnn, h => by
    rw [digitsOk_cons] at hy
    simp only [List.length_cons] at hj
    have hxy0 : 0 ≤ x * y := mul_nonneg hx.1 hy.1.1
    have hxy : x * y ≤ 81 := by nlinarith [hx.1, hx.2, hy.1.1, hy.1.2]
    have hg0 := getD_nonneg hnn (i + j)
    have hgM : res.getD (i + j) 0 ≤ 81 * ((min i (i + j + 1) - (i + j + 1 - L) : Nat) : Int) := by
      rw [List.getD_eq_getElem?_getD]
      by_cases hk : i + j < res.length
      · rw [List.getElem?_eq_getElem hk]
        have := h (i + j) hk
        rw [if_neg (by omega)] at this
        simpa using this
      · rw [List.getElem?_eq_none (by omega)]
        simp only [Option.getD_none]
        omega
    have ih := mulInner_window x hx i N L hi hN ys (j + 1)
      (res.modify (fun t => t + x * y) (i + j)) hy.2 (by omega) (nonneg_modify _ hxy0 _ _ hnn)
      (by
        intro k hk
        have hk' : k < res.length := by simpa using hk
        have hr := h k hk'
        rw [List.getElem_modify]
        by_cases hkj : i + j = k
        · subst hkj
          rw [if_pos rfl]
          rw [if_neg (by omega)] at hr
          rw [if_pos (by omega)]
          push_cast at hr ⊢
          omega
        · rw [if_neg hkj]
          by_cases hlt : i ≤ k ∧ k < i + j
          · rw [if_pos hlt] at hr
            rw [if_pos (by omega)]
            exact hr
          · rw [if_neg hlt] at hr
            rw [if_neg (by omega)]
            exact hr)
    refine ⟨?_, ?_⟩
    · rw [mulInnerOk, ih.1]
      simp only [Bool.and_true, Bool.and_eq_true, inInt_iff]
      refine ⟨⟨by omega, by omega⟩, ⟨by omega, ?_⟩⟩
      omega
    · intro k hk
      simp only [mulInner] at hk ⊢
      exact ih.2 k hk

/-- The rows `i, i + 1, ...` of `operator*`: with digits in 0..9 and
`81 * min(len a, len b)` within `INT_MAX`, every `int` of the nested loops fits, and at the
end slot `k` holds at most 81 times the number of rows that reach it. -/
theorem mulOuter_window (bs : List Int) (hb : DigitsOk bs) (N : Nat)
    (hN : 81 * min N bs.length ≤ 2147483647) :
    ∀ (xs : List Int) (i : Nat) (res : List Int), DigitsOk xs → i + xs.length = N →
      (∀ d ∈ res, 0 ≤ d) →
      (∀ (k : Nat) (hk : k < res.length), res[k] ≤
        81 * ((min i (k + 1) - (k + 1 - bs.length) : Nat) : Int)) →
      mulOuterOk bs xs i res = true ∧
        ∀ (k : Nat) (hk : k < (mulOuter bs xs i res).length),
          (mulOuter bs xs i res)[k] ≤ 81 * ((min N (k + 1) - (k + 1 - bs.length) : Nat) : Int)
  | [], i, res, _, hi, _, h => by
    refine ⟨rfl, ?_⟩
    simp only [List.length_nil, Nat.add_zero] at hi
    subst hi
    intro k hk
    simp only [mulOuter] at hk ⊢
    exact h k hk
  | x :: xs, i, res, hx, hi, hnn, h => by
    rw [digitsOk_cons] at hx
    simp only [List.length_cons] at hi
    have h1 := mulInner_window x hx.1 i N bs.length (by omega) hN bs 0 res hb (by omega) hnn (by
      intro k hk
      have := h k hk
      rw [if_neg (by omega)]
      simpa using this)
    have h3 := mulInner_nonneg x hx.1.1 i bs 0 res (fun y hy => (hb y hy).1) hnn
    have ih := mulOuter_window bs hb N hN xs (i + 1) (mulInner x i bs 0 res) hx.2 (by omega)
      h3 h1.2
    refine ⟨?_, ?_⟩
    · rw [mulOuterOk, h1.1, ih.1]
      rfl
    · intro k hk
      simp only [mulOuter] at hk ⊢
      exact ih.2 k hk

theorem carryPassOk_of_bound (M : Int) (hM : 10 * M ≤ 9 * 2147483647) :
    ∀ (ds : List Int) (c : Int), (∀ d ∈ ds, 0 ≤ d ∧ d ≤ M) → 0 ≤ c → 9 * c ≤ M →
      carryPassOk ds c = true
  | [], _, _, _, _ => rfl
  | d :: ds, c, hd, hc0, hc => by
    have hd0 := hd d (List.mem_cons_self _ _)
    have hs : 0 ≤ d + c := by omega
    have hdiv : Int.tdiv (d + c) 10 = (d + c) / 10 := Int.tdiv_eq_ediv hs (by norm_num)
    have ih := carryPassOk_of_bound M hM ds (Int.tdiv (d + c) 10)
      (fun e he => hd e (List.mem_cons_of_mem _ he)) (by rw [hdiv]; omega) (by rw [hdiv]; omega)
    rw [carryPassOk, ih]
    simp only [Bool.and_true, inInt_iff]
    omega

/-- When the shorter operand has at most `INT_MAX / 90` digits and the two sizes together
fit `int`, no `int` of `operator*` leaves its range. -/
theorem mulInt_of_small {a b : BigNumber} (ha : DigitsOk a.digits) (hb : DigitsOk b.digits)
    (hlen : a.digits.length + b.digits.length ≤ 2147483647)
    (hsmall : 90 * min a.digits.length b.digits.length ≤ 2147483647) :
    a.mulInt b = some (a.mul b) := by
  have hacc := (mulOuter_product ha hb).2
  have hw := mulOuter_window b.digits hb a.digits.length (by omega) a.digits 0
    (List.replicate (a.digits.length + b.digits.length) 0) ha (by omega)
    (by
      intro d hd
      rw [List.mem_replicate] at hd
      omega)
    (by
      intro k hk
      simp only [List.getElem_replicate]
      omega)
  have h2 : carryPassOk (mulOuter b.digits a.digits 0
      (List.replicate (a.digits.length + b.digits.length) 0)) 0 = true := by
    apply carryPassOk_of_bound (81 * (min a.digits.length b.digits.length : Nat)) (by omega) _ 0 _
      (le_refl _) (by omega)
    intro d hd
    obtain ⟨k, hk, rfl⟩ := List.getElem_of_mem hd
    have := hw.2 k hk
    exact ⟨hacc _ (List.getElem_mem hk), by omega⟩
  unfold BigNumber.mulInt
  rw [hw.1, h2]
  simp [hlen]

theorem le_modify (v M : Int) : ∀ (res : List Int) (k : Nat), (∀ d ∈ res, d ≤ M) →
    res.getD k 0 + v ≤ M → ∀ d ∈ res.modify (fun t => t + v) k, d ≤ M
  | [], _, _, _ => by simp
  | e :: es, 0, h, hv => by
    intro d hd
    simp only [List.modify_zero_cons, List.mem_cons] at hd
    rcases hd with rfl | hd
    · simpa using hv
    · exact h d (List.mem_cons_of_mem _ hd)
  | e :: es, k + 1, h, hv => by
    intro d hd
    simp only [List.modify_succ_cons, List.mem_cons] at hd
    rcases hd with rfl | hd
    · exact h d (List.mem_cons_self _ _)
    · exact le_modify v M es k (fun d hd => h d (List.mem_cons_of_mem _ hd))
        (by simpa using hv) d hd

/-- When every `int` of the inner loop fits, the slots stay at most `INT_MAX`. -/
theorem mulInnerOk_le (x : Int) (i : Nat) : ∀ (ys : List Int) (j : Nat) (res : List Int),
    mulInnerOk x i ys j res = true → (∀ d ∈ res, d ≤ 2147483647) →
    ∀ d ∈ mulInner x i ys j res, d ≤ 2147483647
  | [], _, _, _, h => by simpa [mulInner] using h
  | y :: ys, j, res, hok, h => by
    rw [mulInnerOk] at hok
    simp only [Bool.and_eq_true, inInt_iff] at hok
    rw [mulInner]
    exact mulInnerOk_le x i ys (j + 1) _ hok.2 (le_modify _ _ res (i + j) h hok.1.2.2)

theorem mulOuterOk_le (bs : List Int) : ∀ (xs : List Int) (i : Nat) (res : List Int),
    mulOuterOk bs xs i res = true → (∀ d ∈ res, d ≤ 2147483647) →
    ∀ d ∈ mulOuter bs xs i res, d ≤ 2147483647
  | [], _, _, _, h => by simpa [mulOuter] using h
  | x :: xs, i, res, hok, h => by
    rw [mulOuterOk] at hok
    simp only [Bool.and_eq_true] at hok
    rw [mulOuter]
    exact mulOuterOk_le bs xs (i + 1) _ hok.2 (mulInnerOk_le x i bs 0 res hok.1 h)

theorem sum_modify (v : Int) : ∀ (res : List Int) (k : Nat), k < res.length →
    (res.modify (fun t => t + v) k).sum = res.sum + v
  | [], _, h => by simp at h
  | d :: ds, 0, _ => by simp; ring
  | d :: ds, k + 1, h => by
    have ih := sum_modify v ds k (by simpa using h)
    rw [List.modify_succ_cons, List.sum_cons, List.sum_cons, ih]; ring

theorem mulInner_sum (x : Int) (i : Nat) : ∀ (ys : List Int) (j : Nat) (res : List Int),
    i + j + ys.length ≤ res.length → (mulInner x i ys j res).sum = res.sum + x * ys.sum
  | [], _, _, _ => by simp [mulInner]
  | y :: ys, j, res, h => by
    simp only [List.length_cons] at h
    rw [mulInner, mulInner_sum x i ys (j + 1) _ (by simp; omega),
      sum_modify _ _ _ (by omega), List.sum_cons]
    ring

theorem mulOuter_sum (bs : List Int) : ∀ (xs : List Int) (i : Nat) (res : List Int),
    i + xs.length + bs.length ≤ res.length + 1 →
    (mulOuter bs xs i res).sum = res.sum + xs.sum * bs.sum
  | [], _, _, _ => by simp [mulOuter]
  | x :: xs, i, res, h => by
    simp only [List.length_cons] at h
    rw [mulOuter, mulOuter_sum bs xs (i + 1) _ (by rw [mulInner_length]; omega),
      mulInner_sum x i bs 0 res (by omega), List.sum_cons]
    ring

theorem sum_le_of_slots (M : Int) : ∀ (l : List Int), (∀ d ∈ l, d ≤ M) →
    l.sum ≤ l.length * M
  | [], _ => by simp
  | d :: ds, h => by
    have h1 := h d (List.mem_cons_self _ _)
    have h2 := sum_le_of_slots M ds (fun e he => h e (List.mem_cons_of_mem _ he))
    rw [List.sum_cons, List.length_cons]
    push_cast
    linarith

theorem sum_replicate_int (n : Nat) (v : Int) : (List.replicate n v).sum = n * v := by
  induction n with
  | zero => simp
  | succ n ih => rw [List.replicate_succ, List.sum_cons, ih]; push_cast; ring

theorem replicate_nine_wellFormed (n : Nat) (hn : 0 < n) :
    (BigNumber.mk (List.replicate n 9) false).WellFormed := by
  obtain ⟨m, rfl⟩ : ∃ m, n = m + 1 := ⟨n - 1, by omega⟩
  refine ⟨by simp [List.replicate_succ], ?_, ?_, ?_⟩
  · intro d hd
    rw [List.mem_replicate] at hd
    omega
  · left
    show (List.replicate (m + 1) (9 : Int)).getLast? ≠ some 0
    rw [List.replicate_succ', List.getLast?_concat]
    simp
  · intro h
    have h9 : (9 : Int) ∈ List.replicate (m + 1) (9 : Int) := by
      rw [List.mem_replicate]; exact ⟨by omega, rfl⟩
    have h' : List.replicate (m + 1) (9 : Int) = [0] := h
    have h10 : (9 : Int) ∈ ([0] : List Int) := h' ▸ h9
    exact absurd h10 (by decide)

/-- Squaring the number written with `n` nines: as soon as `81 * n` exceeds twice
`INT_MAX`, some slot of the accumulator has to hold more than `INT_MAX`, so the product is
not defined on 32-bit `int` slots. -/
theorem mulInt_nines (n : Nat) (hn : 2 * 2147483647 < 81 * n) :
    BigNumber.mulInt ⟨List.replicate n 9, false⟩ ⟨List.replicate n 9, false⟩ = none := by
  unfold BigNumber.mulInt
  simp only [List.length_replicate]
  by_cases hok : mulOuterOk (List.replicate n 9) (List.replicate n 9) 0
      (List.replicate (n + n) 0) = true
  · exfalso
    have hle := mulOuterOk_le _ _ 0 _ hok (by
      intro d hd
      rw [List.mem_replicate] at hd
      omega)
    have hsum := mulOuter_sum (List.replicate n (9 : Int)) (List.replicate n 9) 0
      (List.replicate (n + n) 0) (by simp)
    have hbound := sum_le_of_slots 2147483647 _ hle
    rw [hsum, mulOuter_length] at hbound
    simp only [sum_replicate_int, List.length_replicate, mul_zero, zero_add] at hbound
    push_cast at hbound
    have hn' : (2 * 2147483647 : Int) < 81 * n := by exact_mod_cast hn
    have hpos : (0 : Int) < n := by omega
    nlinarith
  · simp [hok]

/-- What `operator*` returns, when every `int` stays in range, is the product of `mul`. -/
theorem mulInt_eq_some {a b r : BigNumber} (h : a.mulInt b = some r) : r = a.mul b := by
  unfold BigNumber.mulInt at h
  split at h
  · exact (Option.some.inj h).symm
  · exact absurd h (by simp)

/-! ## Division -/

theorem ofULL_digit (x : Int) (h0 : 0 ≤ x) (h9 : x ≤ 9) :
    BigNumber.ofULL (intToULL x) = ⟨[x], false⟩ := by
  interval_cases x <;> decide

theorem digit_wellFormed (x : Int) (h0 : 0 ≤ x) (h9 : x ≤ 9) :
    (BigNumber.mk [x] false).WellFormed := by
  interval_cases x <;> decide

theorem mul_digit {b : BigNumber} (hb : b.WellFormed) (hn : b.isNegative = false)
    (x : Int) (h0 : 0 ≤ x) (h9 : x ≤ 9) :
    (b.mul (BigNumber.ofULL (intToULL x))).WellFormed ∧
      (b.mul (BigNumber.ofULL (intToULL x))).isNegative = false ∧
      (b.mul (BigNumber.ofULL (intToULL x))).mag = b.mag * x := by
  rw [ofULL_digit x h0 h9]
  have hx := digit_wellFormed x h0 h9
  refine ⟨mul_wellFormed hb hx, ?_, ?_⟩
  · rw [mul_isNegative]; simp [hn]
  · rw [mul_mag hb hx]; simp [BigNumber.mag, evalDigits]

theorem gt_iff {p c : BigNumber} (hp : p.WellFormed) (hc : c.WellFormed)
    (hpn : p.isNegative = false) (hcn : c.isNegative = false) :
    p.gt c = true ↔ c.mag < p.mag := by
  unfold BigNumber.gt BigNumber.lt
  simp only [hpn, hcn, ne_eq, not_true_eq_false, if_false, Bool.false_eq_true]
  exact absLess_iff hc hp

theorem searchDigit_succ (divisor current : BigNumber) (fuel : Nat) (l r x : Int) :
    searchDigit divisor current (fuel + 1) l r x =
      if l ≤ r then
        if !((divisor.mul (BigNumber.ofULL (intToULL (Int.tdiv (l + r) 2)))).gt current) then
          searchDigit divisor current fuel (Int.tdiv (l + r) 2 + 1) r (Int.tdiv (l + r) 2)
        else searchDigit divisor current fuel l (Int.tdiv (l + r) 2 - 1) x
      else some x := by
  rw [searchDigit]

/-- The binary search returns the largest digit `x` in 0..9 with `divisor * x <= current`. -/
theorem searchDigit_spec {divisor cur : BigNumber} (hd : divisor.WellFormed)
    (hdn : divisor.isNegative = false) (hc : cur.WellFormed) (hcn : cur.isNegative = false) :
    ∀ (fuel : Nat) (l r x : Int), (r + 1 - l).toNat < fuel → 0 ≤ l → r ≤ 9 → l ≤ r + 1 →
      ((l = 0 ∧ x = 0) ∨ (1 ≤ l ∧ x = l - 1)) →
      (∀ t, 0 ≤ t → t < l → divisor.mag * t ≤ cur.mag) →
      (∀ t, r < t → t ≤ 9 → cur.mag < divisor.mag * t) →
      ∃ x', searchDigit divisor cur fuel l r x = some x' ∧ 0 ≤ x' ∧ x' ≤ 9 ∧
        divisor.mag * x' ≤ cur.mag ∧ ∀ t, 0 ≤ t → t ≤ 9 → divisor.mag * t ≤ cur.mag → t ≤ x'
  | 0, l, r, x, hf, _, _, _, _, _, _ => by omega
  | fuel + 1, l, r, x, hf, hl, hr, hlr, hx, hlo, hhi => by
    have hB := mag_nonneg hd
    have hC := mag_nonneg hc
    rw [searchDigit_succ]
    by_cases hle : l ≤ r
    · rw [if_pos hle]
      have hmid : Int.tdiv (l + r) 2 = (l + r) / 2 :=
        Int.tdiv_eq_ediv (by omega) (by norm_num)
      rw [hmid]
      have hm1 : l ≤ (l + r) / 2 := by omega
      have hm2 : (l + r) / 2 ≤ r := by omega
      obtain ⟨pw, pn, pm⟩ := mul_digit hd hdn ((l + r) / 2) (by omega) (by omega)
      have hgt := gt_iff pw hc pn hcn
      rw [pm] at hgt
      by_cases hcmp : cur.mag < divisor.mag * ((l + r) / 2)
      · have hg : (divisor.mul (BigNumber.ofULL (intToULL ((l + r) / 2)))).gt cur = true :=
          hgt.2 hcmp
        rw [hg]
        simp only [Bool.not_true, Bool.false_eq_true, if_false]
        apply searchDigit_spec hd hdn hc hcn fuel l ((l + r) / 2 - 1) x (by omega) hl
          (by omega) (by omega) hx hlo
        intro t ht1 ht2
        have : divisor.mag * ((l + r) / 2) ≤ divisor.mag * t :=
          mul_le_mul_of_nonneg_left (by omega) hB
        linarith
      · have hg : (divisor.mul (BigNumber.ofULL (intToULL ((l + r) / 2)))).gt cur = false := by
          rw [Bool.eq_false_iff, Ne, hgt]; exact hcmp
        rw [hg]
        simp only [Bool.not_false, if_true]
        apply searchDigit_spec hd hdn hc hcn fuel ((l + r) / 2 + 1) r ((l + r) / 2) (by omega)
          (by omega) hr (by omega) (Or.inr ⟨by omega, by omega⟩) _ hhi
        intro t ht1 ht2
        have : divisor.mag * t ≤ divisor.mag * ((l + r) / 2) :=
          mul_le_mul_of_nonneg_left (by omega) hB
        linarith
    · rw [if_neg hle]
      refine ⟨x, rfl, ?_⟩
      rcases hx with ⟨h1, h2⟩ | ⟨h1, h2⟩
      · subst h2
        refine ⟨le_refl _, by norm_num, by simpa using hC, ?_⟩
        intro t ht0 ht9 htp
        have := hhi t (by omega) ht9
        omega
      · refine ⟨by omega, by omega, hlo x (by omega) (by omega), ?_⟩
        intro t ht0 ht9 htp
        by_contra hgt
        have := hhi t (by omega) ht9
        omega

/-- One step of the long division: with the running remainder below the divisor, the digit
found is the largest one whose product does not exceed the extended remainder, and the new
remainder is again below the divisor. -/
theorem div_step {divisor current : BigNumber} (hd : divisor.WellFormed)
    (hdn : divisor.isNegative = false) (hc : current.WellFormed)
    (hcn : current.isNegative = false) (hlt : current.mag < divisor.mag)
    (d : Int) (hd0 : 0 ≤ d) (hd9 : d ≤ 9) (fuel : Nat) (hf : 11 ≤ fuel) :
    ∃ x next,
      searchDigit divisor
        (BigNumber.removeLeadingZeros ⟨d :: current.digits, current.isNegative⟩) fuel 0 9 0
        = some x ∧
      0 ≤ x ∧ x ≤ 9 ∧ divisor.mag * x ≤ d + 10 * current.mag ∧
      (∀ t, 0 ≤ t → t ≤ 9 → divisor.mag * t ≤ d + 10 * current.mag → t ≤ x) ∧
      BigNumber.sub fuel
        (BigNumber.removeLeadingZeros ⟨d :: current.digits, current.isNegative⟩)
        (divisor.mul (BigNumber.ofULL (intToULL x))) = some next ∧
      next.WellFormed ∧ next.isNegative = false ∧
      next.mag = d + 10 * current.mag - divisor.mag * x ∧ next.mag < divisor.mag := by
  have hcw : (BigNumber.removeLeadingZeros ⟨d :: current.digits, current.isNegative⟩).WellFormed :=
    removeLeadingZeros_wellFormed (by simp) (digitsOk_cons.2 ⟨⟨hd0, hd9⟩, hc.2.1⟩)
  have hcn2 : (BigNumber.removeLeadingZeros
      ⟨d :: current.digits, current.isNegative⟩).isNegative = false := by
    rw [removeLeadingZeros_isNegative]; simp [hcn]
  have hcm : (BigNumber.removeLeadingZeros ⟨d :: current.digits, current.isNegative⟩).mag =
      d + 10 * current.mag := by
    rw [removeLeadingZeros_mag]; rfl
  obtain ⟨x, hx, hx0, hx9, hxle, hxmax⟩ := searchDigit_spec hd hdn hcw hcn2 fuel 0 9 0
    (by simp; omega) (le_refl _) (le_refl _) (by norm_num) (Or.inl ⟨rfl, rfl⟩)
    (fun t h1 h2 => by omega) (fun t h1 h2 => by omega)
  rw [hcm] at hxle hxmax
  obtain ⟨pw, pn, pm⟩ := mul_digit hd hdn x hx0 hx9
  obtain ⟨f, rfl⟩ : ∃ f, fuel = f + 1 := ⟨fuel - 1, by omega⟩
  obtain ⟨next, hnext, hnw, hnn, hnm⟩ := sub_nonneg_ge hcw pw hcn2 pn (by rw [pm, hcm]; exact hxle) f
  rw [pm, hcm] at hnm
  refine ⟨x, next, hx, hx0, hx9, hxle, hxmax, hnext, hnw, hnn, hnm, ?_⟩
  rw [hnm]
  by_cases h9 : x = 9
  · subst h9; linarith
  · have := hxmax (x + 1) (by omega) (by omega)
    by_contra hge
    have h2 := this (by linarith)
    omega

theorem set_replicate_append (k : Nat) (x : Int) (qs : List Int) :
    (List.replicate (k + 1) 0 ++ qs).set k x = List.replicate k 0 ++ x :: qs := by
  induction k with
  | zero => rfl
  | succ k ih =>
    rw [List.replicate_succ, List.cons_append, List.set_cons_succ, ih]
    rfl

/-- Invariant of the long-division loop: quotient digits found so far times the divisor, plus
the running remainder, account for the dividend digits read so far. -/
theorem divLoop_spec {divisor : BigNumber} (hd : divisor.WellFormed)
    (hdn : divisor.isNegative = false) (fuel : Nat) (hf : 11 ≤ fuel) :
    ∀ (ds : List Int) (current : BigNumber) (qs : List Int), DigitsOk ds →
      current.WellFormed → current.isNegative = false → current.mag < divisor.mag →
      DigitsOk qs →
      ∃ cf qf, divLoop fuel divisor ds current (List.replicate ds.length 0 ++ qs) = some (cf, qf) ∧
        DigitsOk qf ∧ qf.length = ds.length + qs.length ∧ cf.WellFormed ∧
        cf.isNegative = false ∧ cf.mag < divisor.mag ∧
        evalDigits qf * divisor.mag + cf.mag =
          (evalDigits qs * divisor.mag + current.mag) * 10 ^ ds.length + evalDigits ds.reverse
  | [], current, qs, _, hc, hcn, hlt, hq => by
    refine ⟨current, qs, by simp [divLoop], hq, by simp, hc, hcn, hlt, ?_⟩
    simp [evalDigits]
  | d :: ds, current, qs, hds, hc, hcn, hlt, hq => by
    rw [digitsOk_cons] at hds
    obtain ⟨x, next, hx, hx0, hx9, _, _, hsub, hnw, hnn, hnm, hnlt⟩ :=
      div_step hd hdn hc hcn hlt d hds.1.1 hds.1.2 fuel hf
    obtain ⟨cf, qf, h1, h2, h3, h4, h5, h6, h7⟩ := divLoop_spec hd hdn fuel hf ds next (x :: qs)
      hds.2 hnw hnn hnlt (digitsOk_cons.2 ⟨⟨hx0, hx9⟩, hq⟩)
    refine ⟨cf, qf, ?_, h2, by rw [h3]; simp; omega, h4, h5, h6, ?_⟩
    · rw [divLoop]
      simp only [hx, hsub, List.length_cons, set_replicate_append]
      exact h1
    · rw [h7, hnm]
      simp only [evalDigits, List.length_cons, List.reverse_cons, evalDigits_append,
        List.length_reverse, pow_succ]
      ring

theorem abs_wellFormed {a : BigNumber} (ha : a.WellFormed) :
    (BigNumber.mk a.digits false).WellFormed :=
  ⟨ha.1, ha.2.1, ha.2.2.1, fun _ => rfl⟩

theorem tdiv_signed (A B : Int) (hA : 0 ≤ A) (hB : 0 ≤ B) (sa sb : Bool) :
    Int.tdiv (if sa then -A else A) (if sb then -B else B) =
      (if (sa != sb) then -(A / B) else A / B) := by
  have h := Int.tdiv_eq_ediv hA hB
  cases sa <;> cases sb <;> simp [h]

/-- Result of `operator/` on well-formed operands with a non-zero divisor. -/
theorem div_spec {a b : BigNumber} (ha : a.WellFormed) (hb : b.WellFormed)
    (hz : b.isZero = false) (fuel : Nat) (hf : 11 ≤ fuel) :
    ∃ q, BigNumber.div fuel a b = some (.ok q) ∧ q.WellFormed ∧ q.mag = a.mag / b.mag ∧
      q.isNegative = ((a.isNegative != b.isNegative) && !q.isZero) ∧
      q.value = Int.tdiv a.value b.value := by
  have hA := mag_nonneg ha
  have hB0 := mag_nonneg hb
  have hBne : b.mag ≠ 0 := by
    intro h
    rw [← isZero_iff_mag hb, hz] at h
    exact absurd h (by decide)
  have hB : 0 < b.mag := lt_of_le_of_ne hB0 (Ne.symm hBne)
  have hda := abs_wellFormed ha
  have hdb := abs_wellFormed hb
  have hval : Int.tdiv a.value b.value =
      (if (a.isNegative != b.isNegative) then -(a.mag / b.mag) else a.mag / b.mag) := by
    unfold BigNumber.value
    exact tdiv_signed a.mag b.mag hA hB0 a.isNegative b.isNegative
  unfold BigNumber.div
  simp only [hz, Bool.false_eq_true, if_false]
  by_cases hal : (BigNumber.mk a.digits false).absLess ⟨b.digits, false⟩ = true
  · have hlt : a.mag < b.mag := (absLess_iff hda hdb).1 hal
    have hq0 : a.mag / b.mag = 0 := Int.ediv_eq_zero_of_lt hA hlt
    refine ⟨BigNumber.ofULL 0, by simp [hal], ?_, ?_, ?_, ?_⟩
    · rw [ofULL_zero]; decide
    · rw [ofULL_zero, hq0]; rfl
    · rw [ofULL_zero]; simp [BigNumber.isZero]
    · rw [hval, hq0, ofULL_zero]; simp [BigNumber.value, BigNumber.mag, evalDigits]
  · have hge : b.mag ≤ a.mag := by
      by_contra h
      exact hal ((absLess_iff hda hdb).2 (not_le.1 h))
    obtain ⟨cf, qf, h1, h2, h3, h4, h5, h6, h7⟩ := divLoop_spec hdb rfl fuel hf a.digits.reverse
      (BigNumber.ofULL 0) [] (digitsOk_reverse.2 ha.2.1) (by rw [ofULL_zero]; decide)
      (by rw [ofULL_zero]) (by rw [ofULL_zero]; exact hB) (by intro d hd; simp at hd)
    simp only [List.length_reverse, List.append_nil, List.reverse_reverse, evalDigits, zero_mul,
      ofULL_zero, List.length_nil, add_zero] at h1 h3 h7
    have hm0 : (BigNumber.mk [0] false).mag = 0 := rfl
    rw [hm0] at h7
    simp only [add_zero, zero_mul, zero_add] at h7
    have hcf0 := mag_nonneg h4
    have hq : a.mag / b.mag = evalDigits qf := by
      have := (Int.ediv_emod_unique (a := a.mag) (r := cf.mag) (q := evalDigits qf) hB).2
        ⟨by
          show cf.mag + (BigNumber.mk b.digits false).mag * evalDigits qf = evalDigits a.digits
          linarith, hcf0, h6⟩
      exact this.1
    have hqpos : 1 ≤ a.mag / b.mag := by
      have : 1 * b.mag ≤ a.mag := by linarith
      exact (Int.le_ediv_iff_mul_le hB).2 this
    have hqw : (BigNumber.removeLeadingZeros ⟨qf, a.isNegative != b.isNegative⟩).WellFormed :=
      removeLeadingZeros_wellFormed (by
        intro h
        have := congrArg List.length h
        simp only [List.length_nil] at this
        have := List.length_pos.2 ha.1
        omega) h2
    have hqm : (BigNumber.removeLeadingZeros ⟨qf, a.isNegative != b.isNegative⟩).mag =
        a.mag / b.mag := by
      rw [removeLeadingZeros_mag, hq]; rfl
    refine ⟨BigNumber.removeLeadingZeros ⟨qf, a.isNegative != b.isNegative⟩, ?_, hqw, hqm, ?_, ?_⟩
    · simp only [hal, Bool.false_eq_true, if_false, ofULL_zero]
      rw [h1]
    · rw [removeLeadingZeros_isNegative]
      by_cases h0 : (BigNumber.removeLeadingZeros ⟨qf, a.isNegative != b.isNegative⟩).digits = [0]
        <;> simp [h0, BigNumber.isZero]
    · rw [removeLeadingZeros_value, hval, hq]
      rfl

/-! ## Construction from text -/

theorem isDigit_range (c : Char) (h : c.isDigit = true) : 48 ≤ c.toNat ∧ c.toNat ≤ 57 := by
  simp only [Char.isDigit, Bool.and_eq_true, decide_eq_true_eq] at h
  exact ⟨h.1, h.2⟩

theorem parseLoop_error : ∀ (cs : List Char) (acc : List Int),
    (∃ c ∈ cs, c.isDigit = false) → parseLoop cs acc = .error "Invalid number"
  | [], _, h => by simp at h
  | c :: cs, acc, h => by
    rw [parseLoop]
    by_cases hc : c.isDigit = true
    · rw [if_pos hc]
      apply parseLoop_error cs
      obtain ⟨c', hm, hd⟩ := h
      rcases List.mem_cons.1 hm with rfl | hm
      · rw [hc] at hd; exact absurd hd (by decide)
      · exact ⟨c', hm, hd⟩
    · rw [if_neg hc]

theorem parseLoop_ok : ∀ (cs : List Char) (acc : List Int),
    (∀ c ∈ cs, c.isDigit = true) →
    parseLoop cs acc = .ok (acc ++ cs.map (fun c => (c.toNat : Int) - 48))
  | [], acc, _ => by simp [parseLoop]
  | c :: cs, acc, h => by
    rw [parseLoop, if_pos (h c (List.mem_cons_self _ _)),
      parseLoop_ok cs _ (fun d hd => h d (List.mem_cons_of_mem _ hd))]
    simp

theorem parseLoop_cases (cs : List Char) (acc : List Int) :
    (parseLoop cs acc = .error "Invalid number" ∧ ∃ c ∈ cs, c.isDigit = false) ∨
      (parseLoop cs acc = .ok (acc ++ cs.map (fun c => (c.toNat : Int) - 48)) ∧
        ∀ c ∈ cs, c.isDigit = true) := by
  by_cases h : ∀ c ∈ cs, c.isDigit = true
  · exact Or.inr ⟨parseLoop_ok cs acc h, h⟩
  · left
    have h' : ∃ c ∈ cs, c.isDigit = false := by
      by_contra hn
      apply h
      intro c hc
      cases hd : c.isDigit
      · exact absurd ⟨c, hc, hd⟩ hn
      · rfl
    exact ⟨parseLoop_error cs acc h', h'⟩

/-- On a text of at most `2 ^ 31` characters the loop of the constructor visits every
character after the optional sign. -/
theorem ofString_of_length_le (s : String) (hlen : s.data.length ≤ 2147483648) :
    BigNumber.ofString s =
      (let neg : Bool := decide (s.data.length > 0) && decide (s.data.head? = some '-')
       let start : Nat := if neg then 1 else 0
       match parseLoop (s.data.drop start).reverse [] with
       | .error e => .error e
       | .ok ds => .ok (BigNumber.removeLeadingZeros ⟨ds, neg⟩)) := by
  unfold BigNumber.ofString
  simp only
  rw [take_toInt32_pred _ hlen]

/-- On a text whose last index, stored in an `int`, is negative, the loop of the
constructor visits no character: nothing is thrown and the digit vector stays empty. -/
theorem ofString_of_index_neg (s : String) (h : toInt32 ((s.data.length : Int) - 1) < 0) :
    BigNumber.ofString s =
      .ok ⟨[], decide (s.data.length > 0) && decide (s.data.head? = some '-')⟩ := by
  unfold BigNumber.ofString
  simp only
  have h0 : (toInt32 ((s.data.length : Int) - 1) + 1).toNat = 0 := by omega
  rw [h0]
  simp only [List.take_zero, List.drop_nil, List.reverse_nil, parseLoop]
  cases (decide (s.data.length > 0) && decide (s.data.head? = some '-')) <;> rfl

/-- A text of at most `2 ^ 31` characters with at least one character after the optional
sign, all of them decimal digits, yields a well-formed number. -/
theorem ofString_wellFormed {s : String} {v : BigNumber} (h : BigNumber.ofString s = .ok v)
    (hlen : s.data.length ≤ 2147483648)
    (hne : s.data ≠ [] ∧ s.data ≠ ['-']) : v.WellFormed := by
  rw [ofString_of_length_le s hlen] at h
  simp only at h
  rcases parseLoop_cases (List.drop (if (decide (s.data.length > 0) &&
      decide (s.data.head? = some '-')) = true then 1 else 0) s.data).reverse [] with ⟨he, _⟩ | ⟨ho, hd⟩
  · rw [he] at h; simp at h
  · rw [ho] at h
    simp only [List.nil_append, Except.ok.injEq] at h
    rw [← h]
    apply removeLeadingZeros_wellFormed
    · simp only [ne_eq, List.map_eq_nil_iff, List.reverse_eq_nil_iff]
      intro hnil
      cases hs : s.data with
      | nil => exact hne.1 hs
      | cons c cs =>
        rw [hs] at hnil
        by_cases hc : c = '-'
        · subst hc
          simp at hnil
          rw [hnil] at hs
          exact hne.2 hs
        · simp [hc] at hnil
    · intro d hd'
      simp only [List.mem_map, List.mem_reverse] at hd'
      obtain ⟨c, hc, rfl⟩ := hd'
      have := isDigit_range c (hd c (by simpa using hc))
      omega

theorem mem_drop_sign : ∀ (l : List Char) (i : Nat) (hi : i < l.length),
    ¬ (i = 0 ∧ l.get ⟨i, hi⟩ = '-') →
    l.get ⟨i, hi⟩ ∈ List.drop (if (decide (l.length > 0) &&
      decide (l.head? = some '-')) = true then 1 else 0) l
  | [], _, hi, _ => by simp at hi
  | c :: cs, 0, _, hsign => by
    have hc : c ≠ '-' := fun h => hsign ⟨rfl, h⟩
    simp [hc]
  | c :: cs, j + 1, hi, _ => by
    by_cases hc : c = '-'
    · subst hc
      simp only [List.length_cons, gt_iff_lt, Nat.zero_lt_succ, decide_True, List.head?_cons,
        Bool.and_self, if_true, List.drop_succ_cons, List.drop_zero, List.get_cons_succ]
      exact List.get_mem _ _ _
    · simp only [List.length_cons, gt_iff_lt, Nat.zero_lt_succ, decide_True, List.head?_cons,
        Option.some.injEq, hc, decide_False, Bool.and_false, Bool.false_eq_true, if_false,
        List.drop_zero]
      exact List.get_mem _ _ _

/-! ## The numeric constructor and uniqueness of the representation -/

theorem getLast?_cons_ne_nil (d : Int) {t : List Int} (h : t ≠ []) :
    (d :: t).getLast? = t.getLast? := by
  cases t with
  | nil => exact absurd rfl h
  | cons y ys => exact List.getLast?_cons_cons

theorem pushDigits_spec : ∀ (k n : Nat), n < 10 ^ k → 0 < k →
    evalDigits (pushDigits k n) = n ∧ DigitsOk (pushDigits k n) ∧ pushDigits k n ≠ [] ∧
      ((pushDigits k n).getLast? ≠ some 0 ∨ pushDigits k n = [0])
  | 0, _, _, hk => by omega
  | k + 1, n, hn, _ => by
    rw [pushDigits]
    by_cases h0 : n / 10 = 0
    · rw [if_pos h0]
      have hn9 : n < 10 := by omega
      have hmod : n % 10 = n := Nat.mod_eq_of_lt hn9
      refine ⟨by simp [evalDigits, hmod], ?_, by simp, ?_⟩
      · intro d hd
        simp only [List.mem_singleton] at hd
        subst hd
        omega
      · by_cases hz : n = 0
        · right; subst hz; rfl
        · left
          simp only [List.getLast?_singleton, ne_eq, Option.some.injEq]
          omega
    · rw [if_neg h0]
      have hlt : n / 10 < 10 ^ k := by
        rw [pow_succ] at hn
        omega
      have hk : 0 < k := by
        rcases Nat.eq_zero_or_pos k with h | h
        · subst h; simp at hlt; omega
        · exact h
      obtain ⟨h1, h2, h3, h4⟩ := pushDigits_spec k (n / 10) hlt hk
      refine ⟨?_, ?_, by simp, ?_⟩
      · simp only [evalDigits, h1]; omega
      · rw [digitsOk_cons]
        exact ⟨by omega, h2⟩
      · left
        rw [getLast?_cons_ne_nil _ h3]
        rcases h4 with h4 | h4
        · exact h4
        · exfalso
          rw [h4] at h1
          simp [evalDigits] at h1
          omega

/-- The numeric constructor yields the well-formed non-negative number whose magnitude is
its argument reduced modulo `2 ^ 64`. -/
theorem ofULL_spec (n : Nat) :
    (BigNumber.ofULL n).WellFormed ∧ (BigNumber.ofULL n).isNegative = false ∧
      (BigNumber.ofULL n).mag = ((n % 2 ^ 64 : Nat) : Int) := by
  have hlt : n % 2 ^ 64 < 10 ^ 20 := by
    have : n % 2 ^ 64 < 2 ^ 64 := Nat.mod_lt _ (by norm_num)
    have : (2 : Nat) ^ 64 < 10 ^ 20 := by norm_num
    omega
  obtain ⟨h1, h2, h3, h4⟩ := pushDigits_spec 20 (n % 2 ^ 64) hlt (by norm_num)
  refine ⟨⟨h3, h2, h4, fun _ => rfl⟩, rfl, h1⟩

theorem ofULL_value (n : Nat) (h : n < 2 ^ 64) : (BigNumber.ofULL n).value = n := by
  rw [value_of_nonneg (ofULL_spec n).2.1, (ofULL_spec n).2.2, Nat.mod_eq_of_lt h]

theorem intToULL_natCast (i : Nat) (h : i < 2 ^ 64) : intToULL (i : Int) = i := by
  unfold intToULL
  have : ((i : Int) % (2 : Int) ^ 64) = (i : Int) := Int.emod_eq_of_lt (by omega) (by exact_mod_cast h)
  rw [this]; simp

theorem digits_eq_of_eval_eq : ∀ (xs ys : List Int), xs.length = ys.length → DigitsOk xs →
    DigitsOk ys → evalDigits xs = evalDigits ys → xs = ys
  | [], [], _, _, _, _ => rfl
  | [], _ :: _, h, _, _, _ => by simp at h
  | _ :: _, [], h, _, _, _ => by simp at h
  | x :: xs, y :: ys, h, hx, hy, he => by
    rw [digitsOk_cons] at hx hy
    simp only [evalDigits] at he
    have hxy : x = y := by omega
    subst hxy
    have := digits_eq_of_eval_eq xs ys (by simpa using h) hx.2 hy.2 (by omega)
    rw [this]

/-- Two well-formed numbers with the same magnitude have the same digit vector. -/
theorem digits_eq_of_mag_eq {a b : BigNumber} (ha : a.WellFormed) (hb : b.WellFormed)
    (h : a.mag = b.mag) : a.digits = b.digits :=
  digits_eq_of_eval_eq _ _
    (le_antisymm (length_le_of_mag_le hb ha (le_of_eq h))
      (length_le_of_mag_le ha hb (le_of_eq h.symm))) ha.2.1 hb.2.1 h

theorem value_neg_of_negative {a : BigNumber} (ha : a.WellFormed) (hn : a.isNegative = true) :
    a.value < 0 := by
  have h0 := mag_nonneg ha
  have hz := not_isZero_of_negative ha hn
  have hm : a.mag ≠ 0 := by
    intro h
    rw [← isZero_iff_mag ha, hz] at h
    exact absurd h (by decide)
  rw [value_of_neg hn]; omega

/-- A well-formed number is determined by its value. -/
theorem eq_of_value_eq {a b : BigNumber} (ha : a.WellFormed) (hb : b.WellFormed)
    (h : a.value = b.value) : a = b := by
  have hs : a.isNegative = b.isNegative := by
    cases hna : a.isNegative <;> cases hnb : b.isNegative
    · rfl
    · have := value_neg_of_negative hb hnb
      rw [value_of_nonneg hna] at h
      have := mag_nonneg ha
      omega
    · have := value_neg_of_negative ha hna
      rw [value_of_nonneg hnb] at h
      have := mag_nonneg hb
      omega
    · rfl
  have hm : a.mag = b.mag := by
    unfold BigNumber.value at h
    rw [hs] at h
    by_cases hn : b.isNegative = true
    · simp only [hn, if_true] at h; omega
    · simp only [hn, if_false] at h; exact h
  have hd := digits_eq_of_mag_eq ha hb hm
  cases a; cases b
  simp only at hd hs
  rw [hd, hs]

/-- On well-formed numbers `operator<` is the order of the values. -/
theorem lt_iff {a b : BigNumber} (ha : a.WellFormed) (hb : b.WellFormed) :
    a.lt b = true ↔ a.value < b.value := by
  have hA := mag_nonneg ha
  have hB := mag_nonneg hb
  unfold BigNumber.lt
  cases hna : a.isNegative <;> cases hnb : b.isNegative
  · simp only [ne_eq, not_true_eq_false, if_false, Bool.false_eq_true]
    rw [absLess_iff ha hb, value_of_nonneg hna, value_of_nonneg hnb]
  · have := value_neg_of_negative hb hnb
    rw [value_of_nonneg hna]
    simp; omega
  · have := value_neg_of_negative ha hna
    rw [value_of_nonneg hnb]
    simp; omega
  · simp only [ne_eq, not_true_eq_false, if_false, if_true]
    rw [absLess_iff hb ha, value_of_neg hna, value_of_neg hnb]
    omega

/-! ## Well-formed results of addition and subtraction -/

theorem getLast_ne_zero_of_pow_le {ds : List Int} (hok : DigitsOk ds) (hne : ds ≠ [])
    (h : 10 ^ (ds.length - 1) ≤ evalDigits ds) : ds.getLast? ≠ some 0 := by
  obtain ⟨init, l, rfl⟩ : ∃ init l, ds = init ++ [l] :=
    ⟨ds.dropLast, ds.getLast hne, (List.dropLast_append_getLast hne).symm⟩
  rw [digitsOk_append] at hok
  have hi := evalDigits_lt hok.1
  rw [evalDigits_append] at h
  simp only [List.length_append, List.length_singleton, Nat.add_sub_cancel, evalDigits, mul_zero,
    add_zero] at h
  intro hl
  have hl2 : (init ++ [l]).getLast? = some l := by simp
  rw [hl2] at hl
  simp only [Option.some.injEq] at hl
  subst hl
  simp only [mul_zero, add_zero] at h
  omega

/-- The same-sign path of `operator+` returns a well-formed number although it does not
call `removeLeadingZeros`. -/
theorem addLoop_wellFormed {a b : BigNumber} (ha : a.WellFormed) (hb : b.WellFormed) :
    (BigNumber.mk (addLoop a.digits b.digits 0) a.isNegative).WellFormed := by
  obtain ⟨hc, hok, hlen, hiff⟩ := addLoop_shape a.digits b.digits 0 ha.2.1 hb.2.1 (le_refl _)
    (by norm_num)
  have hev := addLoop_eval a.digits b.digits 0
  have la := List.length_pos.2 ha.1
  have lb := List.length_pos.2 hb.1
  have hA := mag_nonneg ha
  have hB := mag_nonneg hb
  have hne : addLoop a.digits b.digits 0 ≠ [] := by
    intro h
    rw [h] at hlen
    simp only [List.length_nil] at hlen
    omega
  by_cases hbig : 10 ^ ((addLoop a.digits b.digits 0).length - 1) ≤
      evalDigits (addLoop a.digits b.digits 0)
  · refine ⟨hne, hok, Or.inl (getLast_ne_zero_of_pow_le hok hne hbig), ?_⟩
    intro h0
    have h0' : addLoop a.digits b.digits 0 = [0] := h0
    rw [h0'] at hbig
    simp [evalDigits] at hbig
  · have hcar : addCarry a.digits b.digits 0 ≠ 1 := by
      intro h1
      apply hbig
      rw [hlen, if_pos h1, hev]
      simp only [Nat.add_sub_cancel]
      exact hiff.1 h1
    rw [if_neg hcar, Nat.add_zero] at hlen
    have hmax1 : max a.digits.length b.digits.length = 1 := by
      by_contra hm
      apply hbig
      rw [hev, hlen, add_zero]
      rcases Nat.le_total a.digits.length b.digits.length with h | h
      · rw [Nat.max_eq_right h] at hm ⊢
        have := pow_le_mag hb (by omega)
        unfold BigNumber.mag at this hA
        omega
      · rw [Nat.max_eq_left h] at hm ⊢
        have := pow_le_mag ha (by omega)
        unfold BigNumber.mag at this hB
        omega
    rw [hmax1] at hlen
    obtain ⟨r, hr⟩ : ∃ r, addLoop a.digits b.digits 0 = [r] := by
      match hl : addLoop a.digits b.digits 0, hlen with
      | [r], _ => exact ⟨r, rfl⟩
    rw [hr] at hbig hev
    simp only [List.length_singleton, Nat.sub_self, pow_zero, evalDigits, mul_zero, add_zero,
      not_le] at hbig hev
    have hr0 := (hok r (by rw [hr]; simp)).1
    have hrz : r = 0 := by omega
    subst hrz
    refine ⟨hne, hok, Or.inr hr, ?_⟩
    intro _
    have hA0 : a.mag = 0 := by
      unfold BigNumber.mag at hA hB ⊢
      omega
    exact ha.2.2.2 ((mag_eq_zero_iff ha).1 hA0)

/-- Every value returned by `operator+` or binary `operator-` on well-formed operands
whose sizes fit `int` is well-formed, whatever the fuel. -/
theorem add_sub_wellFormed : ∀ (fuel : Nat) (a b r : BigNumber), a.WellFormed → b.WellFormed →
    a.digits.length ≤ 2147483647 → b.digits.length ≤ 2147483647 →
    (BigNumber.add fuel a b = some r → r.WellFormed) ∧
      (BigNumber.sub fuel a b = some r → r.WellFormed)
  | 0, a, b, r, _, _, _, _ => by simp [BigNumber.add, BigNumber.sub]
  | fuel + 1, a, b, r, ha, hb, la, lb => by
    have lnb : b.neg.digits.length ≤ 2147483647 := by rw [neg_digits]; exact lb
    have lna : a.neg.digits.length ≤ 2147483647 := by rw [neg_digits]; exact la
    constructor
    · rw [add_succ]
      by_cases hs : a.isNegative ≠ b.isNegative
      · rw [if_pos hs]
        exact (add_sub_wellFormed fuel a b.neg r ha (neg_wellFormed hb) la lnb).2
      · rw [if_neg hs, take_toInt32_length _ (by omega), take_toInt32_length _ (by omega)]
        intro h
        split at h
        · simp only [Option.some.injEq] at h
          rw [← h]
          exact addLoop_wellFormed ha hb
        · exact absurd h (by simp)
    · rw [sub_succ]
      by_cases hs : a.isNegative ≠ b.isNegative
      · rw [if_pos hs]
        exact (add_sub_wellFormed fuel a b.neg r ha (neg_wellFormed hb) la lnb).1
      · rw [if_neg hs]
        by_cases hn : a.isNegative = true
        · rw [if_pos hn]
          exact (add_sub_wellFormed fuel b.neg a.neg r (neg_wellFormed hb) (neg_wellFormed ha)
            lnb lna).2
        · rw [if_neg hn]
          by_cases hl : a.absLess b = true
          · rw [if_pos hl]
            intro h
            cases hsub : BigNumber.sub fuel b a with
            | none => rw [hsub] at h; simp at h
            | some r2 =>
              rw [hsub] at h
              simp only [Option.map_some', Option.some.injEq] at h
              rw [← h]
              exact neg_wellFormed ((add_sub_wellFormed fuel b a r2 hb ha lb la).2 hsub)
          · rw [if_neg hl]
            intro h
            simp only [Option.some.injEq] at h
            rw [← h]
            apply removeLeadingZeros_wellFormed
            · intro h0
              have := congrArg List.length h0
              simp only [subLoop_length, List.length_nil] at this
              exact ha.1 (List.length_eq_zero.1 this)
            · exact (subLoop_digitsOk _ _ 0 ha.2.1 hb.2.1 (le_refl _) (by norm_num)).1

/-- Operands with the same sign flag: binary `operator-` returns the well-formed exact
difference, whatever their sizes (only the subtraction loop runs). -/
theorem sub_same_sign {a b : BigNumber} (ha : a.WellFormed) (hb : b.WellFormed)
    (hs : a.isNegative = b.isNegative) (fuel : Nat) :
    ∃ r, BigNumber.sub (fuel + 3) a b = some r ∧ r.WellFormed ∧
      r.value = a.value - b.value := by
  cases hna : a.isNegative
  · have hnb : b.isNegative = false := by rw [← hs, hna]
    exact sub_nonneg ha hb hna hnb (fuel + 1)
  · have hnb : b.isNegative = true := by rw [← hs, hna]
    have hza := not_isZero_of_negative ha hna
    have hzb := not_isZero_of_negative hb hnb
    obtain ⟨r, hr, hw, hv⟩ := sub_nonneg (neg_wellFormed hb) (neg_wellFormed ha)
      (by rw [neg_isNegative_of_not_isZero hzb, hnb]; rfl)
      (by rw [neg_isNegative_of_not_isZero hza, hna]; rfl) fuel
    refine ⟨r, ?_, hw, ?_⟩
    · rw [sub_succ]; simp [hna, hnb, hr]
    · rw [hv, neg_value hb, neg_value ha]; ring

/-! ## Well-formedness of every quotient returned -/

theorem searchDigit_range (divisor cur : BigNumber) : ∀ (fuel : Nat) (l r x x2 : Int),
    0 ≤ l → r ≤ 9 → 0 ≤ x → x ≤ 9 → searchDigit divisor cur fuel l r x = some x2 →
    0 ≤ x2 ∧ x2 ≤ 9
  | 0, _, _, _, _, _, _, _, _, h => by simp [searchDigit] at h
  | fuel + 1, l, r, x, x2, hl, hr, hx0, hx9, h => by
    rw [searchDigit_succ] at h
    by_cases hle : l ≤ r
    · rw [if_pos hle] at h
      have hmid : Int.tdiv (l + r) 2 = (l + r) / 2 :=
        Int.tdiv_eq_ediv (by omega) (by norm_num)
      rw [hmid] at h
      split at h
      · exact searchDigit_range divisor cur fuel _ r _ x2 (by omega) hr (by omega) (by omega) h
      · exact searchDigit_range divisor cur fuel l _ x x2 hl (by omega) hx0 hx9 h
    · rw [if_neg hle] at h
      simp only [Option.some.injEq] at h
      subst h
      exact ⟨hx0, hx9⟩

theorem divLoop_digitsOk (fuel : Nat) (divisor : BigNumber) :
    ∀ (ds : List Int) (cur : BigNumber) (q : List Int) (cf : BigNumber) (qf : List Int),
      DigitsOk q → divLoop fuel divisor ds cur q = some (cf, qf) →
      DigitsOk qf ∧ qf.length = q.length
  | [], cur, q, cf, qf, hq, h => by
    simp only [divLoop, Option.some.injEq, Prod.mk.injEq] at h
    rw [← h.2]
    exact ⟨hq, rfl⟩
  | d :: ds, cur, q, cf, qf, hq, h => by
    rw [divLoop] at h
    split at h
    · simp at h
    · rename_i x hx
      split at h
      · simp at h
      · rename_i next hnext
        have hxr := searchDigit_range divisor _ fuel 0 9 0 x (le_refl _) (le_refl _) (le_refl _)
          (by norm_num) hx
        have hq2 : DigitsOk (q.set ds.length x) := by
          intro e he
          rcases List.mem_or_eq_of_mem_set he with h1 | h1
          · exact hq e h1
          · subst h1; exact hxr
        have := divLoop_digitsOk fuel divisor ds next (q.set ds.length x) cf qf hq2 h
        exact ⟨this.1, by rw [this.2, List.length_set]⟩

/-- Every value returned by `operator/` on a dividend with digits in 0..9 is well-formed,
whatever the fuel. -/
theorem div_wellFormed_of_ok {a b q : BigNumber} (ha : a.WellFormed) (fuel : Nat)
    (h : BigNumber.div fuel a b = some (.ok q)) : q.WellFormed := by
  unfold BigNumber.div at h
  split at h
  · simp at h
  · simp only at h
    split at h
    · simp only [Option.some.injEq, Except.ok.injEq] at h
      rw [← h]
      exact (ofULL_spec 0).1
    · split at h
      · simp at h
      · rename_i cf qf hloop
        simp only [Option.some.injEq, Except.ok.injEq] at h
        rw [← h]
        have := divLoop_digitsOk fuel _ _ _ _ cf qf (digitsOk_replicate_zero _) hloop
        apply removeLeadingZeros_wellFormed
        · intro h0
          have hl := congrArg List.length h0
          simp only [List.length_nil] at hl
          have h2 := this.2
          simp only [List.length_replicate] at h2
          have := List.length_pos.2 ha.1
          omega
        · exact this.1

/-! ## Serialisation -/

theorem toString_digit (d : Int) (h0 : 0 ≤ d) (h9 : d ≤ 9) :
    (toString d).data = [Char.ofNat (48 + d.toNat)] := by
  interval_cases d <;> rfl

theorem digit_char (c : Char) (h : c.isDigit = true) :
    Char.ofNat (48 + ((c.toNat : Int) - 48).toNat) = c := by
  have hr := isDigit_range c h
  have h1 : 48 + ((c.toNat : Int) - 48).toNat = c.toNat := by omega
  rw [h1]
  exact Char.ofNat_toNat c

theorem digit_ne_minus (c : Char) (h : c.isDigit = true) : c ≠ '-' := by
  intro hc
  subst hc
  exact absurd h (by decide)

theorem flatten_digits : ∀ (cs : List Char), (∀ c ∈ cs, c.isDigit = true) →
    ((cs.map (fun c => (c.toNat : Int) - 48)).map (fun d => (toString d).data)).flatten = cs
  | [], _ => rfl
  | c :: cs, h => by
    have hc := h c (List.mem_cons_self _ _)
    have hr := isDigit_range c hc
    simp only [List.map_cons, List.flatten_cons]
    rw [flatten_digits cs (fun e he => h e (List.mem_cons_of_mem _ he)),
      toString_digit _ (by omega) (by omega), digit_char c hc]
    rfl

theorem digit_val_zero (c : Char) (h : c.isDigit = true) (h0 : (c.toNat : Int) - 48 = 0) :
    c = '0' := by
  have := digit_char c h
  rw [h0] at this
  exact this.symm

/-- Construction from a normalised decimal text: the digits are the characters read from the
end, nothing is stripped, and the sign flag is the presence of the sign character. -/
theorem ofString_normalised (s : String) (neg : Bool) (ds : List Char)
    (hlen : s.data.length ≤ 2147483648)
    (hs : s.data = (if neg then ['-'] else []) ++ ds) (hne : ds ≠ [])
    (hdig : ∀ c ∈ ds, c.isDigit = true) (hlead : ds.head? ≠ some '0' ∨ ds = ['0'])
    (hnz : ¬ (neg = true ∧ ds = ['0'])) :
    BigNumber.ofString s = .ok ⟨(ds.map (fun c => (c.toNat : Int) - 48)).reverse, neg⟩ ∧
      (BigNumber.mk (ds.map (fun c => (c.toNat : Int) - 48)).reverse neg).WellFormed := by
  obtain ⟨c0, cs, rfl⟩ : ∃ c0 cs, ds = c0 :: cs := by
    cases ds with
    | nil => exact absurd rfl hne
    | cons c0 cs => exact ⟨c0, cs, rfl⟩
  have hc0 := hdig c0 (List.mem_cons_self _ _)
  have hwf : (BigNumber.mk ((c0 :: cs).map (fun c => (c.toNat : Int) - 48)).reverse neg).WellFormed := by
    refine ⟨by simp, ?_, ?_, ?_⟩
    · show DigitsOk _
      rw [digitsOk_reverse]
      intro d hd
      simp only [List.mem_map] at hd
      obtain ⟨c, hc, rfl⟩ := hd
      have := isDigit_range c (hdig c hc)
      omega
    · simp only [List.map_cons, List.reverse_cons]
      rcases hlead with h | h
      · left
        intro hl
        have hl2 : ((List.map (fun c : Char => (c.toNat : Int) - 48) cs).reverse ++
            [(c0.toNat : Int) - 48]).getLast? = some ((c0.toNat : Int) - 48) := by simp
        rw [hl2] at hl
        simp only [Option.some.injEq] at hl
        apply h
        simp [digit_val_zero c0 hc0 hl]
      · right
        simp only [List.cons.injEq] at h
        rw [h.1, h.2]
        rfl
    · intro h0
      simp only [List.map_cons, List.reverse_cons] at h0
      have hlen := congrArg List.length h0
      simp only [List.length_append, List.length_reverse, List.length_map, List.length_singleton,
        add_left_eq_self] at hlen
      have hcs : cs = [] := List.length_eq_zero.1 hlen
      subst hcs
      simp only [List.map_nil, List.reverse_nil, List.nil_append, List.cons.injEq, and_true] at h0
      have := digit_val_zero c0 hc0 h0
      subst this
      cases neg with
      | false => rfl
      | true => exact absurd ⟨rfl, rfl⟩ hnz
  refine ⟨?_, hwf⟩
  rw [ofString_of_length_le s hlen]
  simp only
  have hneg : (decide (s.data.length > 0) && decide (s.data.head? = some '-')) = neg := by
    rw [hs]
    cases neg with
    | true => simp
    | false => simp [digit_ne_minus c0 hc0]
  rw [hneg]
  have hdrop : List.drop (if neg = true then 1 else 0) s.data = c0 :: cs := by
    rw [hs]
    cases neg <;> simp
  rw [hdrop, parseLoop_ok _ [] (fun c hc => hdig c (List.mem_reverse.1 hc))]
  simp only [List.nil_append, List.map_reverse]
  rw [removeLeadingZeros_of_wellFormed (by simpa [List.map_reverse] using hwf)]

/-- Text written for a number with at most `2 ^ 31` digits, each in 0..9. -/
theorem toText_data {v : BigNumber} (hok : DigitsOk v.digits)
    (hlen : v.digits.length ≤ 2147483648) :
    v.toText.data = (if v.isNegative && !v.isZero then ['-'] else []) ++
      v.digits.reverse.map (fun d => Char.ofNat (48 + d.toNat)) := by
  unfold BigNumber.toText
  rw [take_toInt32_pred _ hlen]
  simp only
  congr 1
  have : ∀ (l : List Int), DigitsOk l →
      (l.map (fun d => (toString d).data)).flatten =
        l.map (fun d => Char.ofNat (48 + d.toNat)) := by
    intro l
    induction l with
    | nil => intro _; rfl
    | cons d l ih =>
      intro h
      rw [digitsOk_cons] at h
      simp only [List.map_cons, List.flatten_cons, ih h.2, toString_digit d h.1.1 h.1.2]
      rfl
  exact this _ (digitsOk_reverse.2 hok)

/-- The text written starts with `-` exactly when the sign flag is set and the number is
not the zero value. -/
theorem toText_head {v : BigNumber} (hw : v.WellFormed)
    (hlen : v.digits.length ≤ 2147483648) :
    v.toText.data.head? = some '-' ↔ (v.isNegative = true ∧ v.isZero = false) := by
  rw [toText_data hw.2.1 hlen]
  by_cases hs : (v.isNegative && !v.isZero) = true
  · rw [if_pos hs]
    simp only [List.singleton_append, List.head?_cons, true_iff]
    simpa using hs
  · rw [if_neg hs]
    have hne : v.digits.reverse ≠ [] := by simpa using hw.1
    obtain ⟨d, ds, hd⟩ : ∃ d ds, v.digits.reverse = d :: ds := by
      cases h : v.digits.reverse with
      | nil => exact absurd h hne
      | cons d ds => exact ⟨d, ds, rfl⟩
    have hdr := hw.2.1 d (by rw [← List.mem_reverse, hd]; simp)
    rw [hd]
    simp only [List.nil_append, List.map_cons, List.head?_cons, Option.some.injEq]
    constructor
    · intro h
      exfalso
      have h1 : d.toNat ≤ 9 := by omega
      generalize d.toNat = n at h h1
      interval_cases n <;> simp at h
    · intro h
      exfalso
      apply hs
      simp [h.1, h.2]

/-! ## The memoised sequences -/

theorem seqOk_nil (f : Nat → Int) : SeqOk f [] := by
  intro i v h
  simp at h

theorem seqOk_concat {f : Nat → Int} {l : List BigNumber} {v : BigNumber} (hc : SeqOk f l)
    (hw : v.WellFormed) (hv : v.value = f l.length) : SeqOk f (l ++ [v]) := by
  intro i w h
  rw [List.getElem?_append] at h
  by_cases hi : i < l.length
  · rw [if_pos hi] at h
    exact hc i w h
  · rw [if_neg hi] at h
    have hi2 : i - l.length = 0 := by
      by_contra hne
      have : ([v] : List BigNumber)[i - l.length]? = none := by
        apply List.getElem?_eq_none
        simp only [List.length_singleton]; omega
      rw [this] at h
      exact absurd h (by simp)
    rw [hi2] at h
    simp only [List.getElem?_cons_zero, Option.some.injEq] at h
    subst h
    have : i = l.length := by omega
    subst this
    exact ⟨hw, hv⟩

theorem seqOk_getD {f : Nat → Int} {l : List BigNumber} (hc : SeqOk f l) (n : Nat)
    (hn : n < l.length) (d : BigNumber) :
    (l.getD n d).WellFormed ∧ (l.getD n d).value = f n := by
  have h : l[n]? = some l[n] := List.getElem?_eq_getElem hn
  rw [List.getD_eq_getElem?_getD, h]
  exact hc n _ h

theorem seqOk_getLastD {f : Nat → Int} {l : List BigNumber} (hc : SeqOk f l) (hne : l ≠ [])
    (d : BigNumber) :
    (l.getLastD d).WellFormed ∧ (l.getLastD d).value = f (l.length - 1) := by
  have hl := List.length_pos.2 hne
  have h : l[l.length - 1]? = some l[l.length - 1] := List.getElem?_eq_getElem (by omega)
  rw [List.getLastD_eq_getLast?, List.getLast?_eq_getElem?, h]
  exact hc _ _ h

/-- The loop of `factorial` appends the next factorials and changes no entry. -/
theorem factorialLoop_spec : ∀ (k i : Nat) (l : List BigNumber),
    SeqOk (fun i => (i.factorial : Int)) l → l ≠ [] → i = l.length →
    (k ≠ 0 → i + k ≤ 2 ^ 64) →
    SeqOk (fun i => (i.factorial : Int)) (factorialLoop k i l) ∧
      (factorialLoop k i l).length = l.length + k ∧ l <+: factorialLoop k i l
  | 0, i, l, hc, _, _, _ => by
    simp only [factorialLoop]
    exact ⟨hc, rfl, List.prefix_refl l⟩
  | k + 1, i, l, hc, hne, hi, hb => by
    have hb2 := hb (by omega)
    have hl := List.length_pos.2 hne
    obtain ⟨lw, lv⟩ := seqOk_getLastD hc hne (BigNumber.ofULL 0)
    have hm : (BigNumber.ofULL (intToULL (i : Int))).WellFormed ∧
        (BigNumber.ofULL (intToULL (i : Int))).value = i := by
      rw [intToULL_natCast i (by omega)]
      exact ⟨(ofULL_spec i).1, ofULL_value i (by omega)⟩
    have hnew : SeqOk (fun i => (i.factorial : Int))
        (l ++ [(l.getLastD (BigNumber.ofULL 0)).mul (BigNumber.ofULL (intToULL i))]) := by
      apply seqOk_concat hc (mul_wellFormed lw hm.1)
      rw [mul_value lw hm.1, lv, hm.2]
      obtain ⟨j, hj⟩ : ∃ j, l.length = j + 1 := ⟨l.length - 1, by omega⟩
      rw [hi, hj, Nat.add_sub_cancel, Nat.factorial_succ]
      push_cast
      ring
    obtain ⟨h1, h2, h3⟩ := factorialLoop_spec k (i + 1) _ hnew (by simp)
      (by simp only [List.length_append, List.length_singleton]; omega) (fun _ => by omega)
    rw [factorialLoop]
    refine ⟨h1, ?_, ?_⟩
    · rw [h2]; simp only [List.length_append, List.length_singleton]; omega
    · exact List.IsPrefix.trans (List.prefix_append l _) h3

/-- Result of `factorial` on caches whose factorial cache is right so far. -/
theorem factorial_spec (n : Nat) (hn : n < 2147483647) (s : Caches)
    (hs : SeqOk (fun i => (i.factorial : Int)) s.factorialCache) :
    (BigNumber.factorial n s).1.WellFormed ∧
      (BigNumber.factorial n s).1.value = (n.factorial : Int) ∧
      SeqOk (fun i => (i.factorial : Int)) (BigNumber.factorial n s).2.factorialCache ∧
      (BigNumber.factorial n s).2.factorialCache.length = max s.factorialCache.length (n + 1) ∧
      s.factorialCache <+: (BigNumber.factorial n s).2.factorialCache ∧
      (BigNumber.factorial n s).2.fibonacciCache = s.fibonacciCache ∧
      (BigNumber.factorial n s).2.catalanCache = s.catalanCache := by
  have h64 : (2147483647 : Nat) < 2 ^ 64 := by norm_num
  unfold BigNumber.factorial
  simp only
  by_cases he : s.factorialCache = []
  · rw [he] at hs ⊢
    simp only [List.isEmpty_nil, if_true, List.nil_append, List.length_singleton,
      Nat.add_sub_cancel, List.length_nil]
    have h1 : SeqOk (fun i => (i.factorial : Int)) [BigNumber.ofULL 1] := by
      have := seqOk_concat (seqOk_nil (fun i => (i.factorial : Int))) (ofULL_spec 1).1
        (by rw [ofULL_value 1 (by norm_num)]; rfl)
      simpa using this
    obtain ⟨g1, g2, g3⟩ := factorialLoop_spec n 1 [BigNumber.ofULL 1] h1 (by simp) rfl
      (fun _ => by omega)
    simp only [List.length_singleton] at g2
    obtain ⟨w1, w2⟩ := seqOk_getD g1 n (by omega) (BigNumber.ofULL 0)
    exact ⟨w1, w2, g1, by rw [g2]; omega, List.nil_prefix, trivial, trivial⟩
  · have hemp : s.factorialCache.isEmpty = false := by
      cases h : s.factorialCache with
      | nil => exact absurd h he
      | cons x xs => rfl
    rw [hemp]
    simp only [Bool.false_eq_true, if_false]
    obtain ⟨g1, g2, g3⟩ := factorialLoop_spec (n + 1 - s.factorialCache.length)
      s.factorialCache.length s.factorialCache hs he rfl (fun _ => by omega)
    obtain ⟨w1, w2⟩ := seqOk_getD g1 n (by omega) (BigNumber.ofULL 0)
    exact ⟨w1, w2, g1, by rw [g2]; omega, g3, trivial, trivial⟩

/-! ## Results do not depend on the fuel -/

theorem add_sub_mono : ∀ (fuel : Nat) (a b r : BigNumber),
    (BigNumber.add fuel a b = some r → BigNumber.add (fuel + 1) a b = some r) ∧
      (BigNumber.sub fuel a b = some r → BigNumber.sub (fuel + 1) a b = some r)
  | 0, a, b, r => by simp [BigNumber.add, BigNumber.sub]
  | fuel + 1, a, b, r => by
    constructor
    · rw [add_succ fuel, add_succ (fuel + 1)]
      by_cases hs : a.isNegative ≠ b.isNegative
      · rw [if_pos hs, if_pos hs]
        exact (add_sub_mono fuel a b.neg r).2
      · rw [if_neg hs, if_neg hs]
        exact id
    · rw [sub_succ fuel, sub_succ (fuel + 1)]
      by_cases hs : a.isNegative ≠ b.isNegative
      · rw [if_pos hs, if_pos hs]
        exact (add_sub_mono fuel a b.neg r).1
      · rw [if_neg hs, if_neg hs]
        by_cases hn : a.isNegative = true
        · rw [if_pos hn, if_pos hn]
          exact (add_sub_mono fuel b.neg a.neg r).2
        · rw [if_neg hn, if_neg hn]
          by_cases hl : a.absLess b = true
          · rw [if_pos hl, if_pos hl]
            intro h
            cases hsub : BigNumber.sub fuel b a with
            | none => rw [hsub] at h; simp at h
            | some r2 =>
              rw [hsub] at h
              rw [(add_sub_mono fuel b a r2).2 hsub]
              exact h
          · rw [if_neg hl, if_neg hl]
            exact id

theorem searchDigit_mono (divisor cur : BigNumber) : ∀ (fuel : Nat) (l r x x2 : Int),
    searchDigit divisor cur fuel l r x = some x2 →
    searchDigit divisor cur (fuel + 1) l r x = some x2
  | 0, _, _, _, _, h => by simp [searchDigit] at h
  | fuel + 1, l, r, x, x2, h => by
    rw [searchDigit_succ] at h ⊢
    by_cases hle : l ≤ r
    · rw [if_pos hle] at h ⊢
      split at h
      · rename_i hc
        rw [if_pos hc]
        exact searchDigit_mono divisor cur fuel _ _ _ _ h
      · rename_i hc
        rw [if_neg hc]
        exact searchDigit_mono divisor cur fuel _ _ _ _ h
    · rw [if_neg hle] at h ⊢
      exact h

theorem divLoop_mono (fuel : Nat) (divisor : BigNumber) :
    ∀ (ds : List Int) (cur : BigNumber) (q : List Int) (res : BigNumber × List Int),
      divLoop fuel divisor ds cur q = some res → divLoop (fuel + 1) divisor ds cur q = some res
  | [], cur, q, res, h => by
    simpa [divLoop] using h
  | d :: ds, cur, q, res, h => by
    rw [divLoop] at h ⊢
    split at h
    · simp at h
    · rename_i x hx
      split at h
      · simp at h
      · rename_i next hnext
        simp only [searchDigit_mono _ _ _ _ _ _ _ hx, (add_sub_mono _ _ _ _).2 hnext]
        exact divLoop_mono fuel divisor ds next _ res h

theorem div_mono (fuel : Nat) (a b : BigNumber) (res : Except String BigNumber)
    (h : BigNumber.div fuel a b = some res) : BigNumber.div (fuel + 1) a b = some res := by
  unfold BigNumber.div at h ⊢
  split
  · rename_i hz
    rw [if_pos hz] at h
    exact h
  · rename_i hz
    rw [if_neg hz] at h
    simp only at h ⊢
    split
    · rename_i hl
      rw [if_pos hl] at h
      exact h
    · rename_i hl
      rw [if_neg hl] at h
      split at h
      · simp at h
      · rename_i cf qf hloop
        rw [divLoop_mono _ _ _ _ _ _ hloop]
        exact h

theorem div_mono_le (a b : BigNumber) (res : Except String BigNumber) :
    ∀ (k fuel : Nat), BigNumber.div fuel a b = some res →
      BigNumber.div (fuel + k) a b = some res
  | 0, _, h => h
  | k + 1, fuel, h => div_mono (fuel + k) a b res (div_mono_le a b res k fuel h)

/-- Whatever fuel makes `operator/` return, the value returned is the truncated quotient. -/
theorem div_value_of_ok {a b q : BigNumber} (ha : a.WellFormed) (hb : b.WellFormed)
    (hz : b.isZero = false) (fuel : Nat) (h : BigNumber.div fuel a b = some (.ok q)) :
    q.WellFormed ∧ q.mag = a.mag / b.mag ∧
      q.isNegative = ((a.isNegative != b.isNegative) && !q.isZero) ∧
      q.value = Int.tdiv a.value b.value := by
  have h2 := div_mono_le a b _ 11 fuel h
  obtain ⟨q2, hq2, p1, p2, p3, p4⟩ := div_spec ha hb hz (fuel + 11) (by omega)
  rw [h2] at hq2
  simp only [Option.some.injEq, Except.ok.injEq] at hq2
  subst hq2
  exact ⟨p1, p2, p3, p4⟩

/-! ## Fibonacci -/

theorem isNegative_false_of_value_nonneg {v : BigNumber} (hw : v.WellFormed)
    (hv : 0 ≤ v.value) : v.isNegative = false := by
  cases hn : v.isNegative
  · rfl
  · have := value_neg_of_negative hw hn
    omega

/-- A well-formed number with magnitude below `10 ^ k` has at most `k` digits. -/
theorem length_le_of_mag_lt_pow {v : BigNumber} (hw : v.WellFormed) {k : Nat} (hk : 1 ≤ k)
    (h : v.mag < 10 ^ k) : v.digits.length ≤ k := by
  by_contra hlt
  have h2 := pow_le_mag hw (by omega)
  have h3 : (10 : Int) ^ k ≤ 10 ^ (v.digits.length - 1) :=
    pow_le_pow_right₀ (by norm_num) (by omega)
  linarith

theorem fib_lt_two_pow : ∀ n : Nat, Nat.fib n < 2 ^ n ∧ Nat.fib (n + 1) < 2 ^ (n + 1)
  | 0 => by decide
  | n + 1 => by
    obtain ⟨h1, h2⟩ := fib_lt_two_pow n
    refine ⟨h2, ?_⟩
    rw [Nat.fib_add_two, pow_succ, pow_succ] at *
    omega

/-- The cache entry holding the `n`-th Fibonacci number has at most `max n 1` digits. -/
theorem fib_entry_length {v : BigNumber} {n : Nat} (hw : v.WellFormed)
    (hv : v.value = (Nat.fib n : Int)) : v.digits.length ≤ n + 1 := by
  have hn : v.isNegative = false := by
    cases hn : v.isNegative
    · rfl
    · have h0 := mag_nonneg hw
      rw [value_of_neg hn] at hv
      have hz : v.mag = 0 := by
        have : (0 : Int) ≤ (Nat.fib n : Int) := by positivity
        omega
      have := (mag_eq_zero_iff hw).1 hz
      rw [hw.2.2.2 this] at hn
      exact absurd hn (by decide)
  rw [value_of_nonneg hn] at hv
  apply length_le_of_mag_lt_pow hw (by omega)
  rw [hv]
  have h1 := (fib_lt_two_pow n).1
  have h2 : (2 : Nat) ^ n ≤ 10 ^ (n + 1) :=
    le_trans (Nat.pow_le_pow_left (by norm_num) n) (Nat.pow_le_pow_right (by norm_num) (by omega))
  have h3 : Nat.fib n < 10 ^ (n + 1) := lt_of_lt_of_le h1 h2
  exact_mod_cast h3

/-- One iteration of the loop of `fibonacci`: the sum of two cache entries. -/
theorem fib_step {a b : BigNumber} {i : Nat} (ha : a.WellFormed) (hb : b.WellFormed)
    (hva : a.value = (Nat.fib (i + 1) : Int)) (hvb : b.value = (Nat.fib i : Int))
    (hi : i + 2 < 2147483647) (fuel : Nat) :
    (∀ v, BigNumber.add fuel a b = some v →
      v.WellFormed ∧ v.value = (Nat.fib (i + 2) : Int)) ∧
    (1 ≤ fuel → ∃ v, BigNumber.add fuel a b = some v) := by
  have hna := isNegative_false_of_value_nonneg ha (by rw [hva]; positivity)
  have hnb := isNegative_false_of_value_nonneg hb (by rw [hvb]; positivity)
  have hs : a.isNegative = b.isNegative := by rw [hna, hnb]
  cases fuel with
  | zero => exact ⟨fun v h => by simp [BigNumber.add] at h, fun h => by omega⟩
  | succ f =>
    have la := fib_entry_length ha hva
    have lb := fib_entry_length hb hvb
    have hl := addLoop_length_le ha.2.1 hb.2.1
    obtain ⟨h1, h2⟩ := add_same_sign hs (by omega) (by omega) (by omega) f
    refine ⟨?_, fun _ => ⟨_, h1⟩⟩
    intro v hv
    rw [h1] at hv
    simp only [Option.some.injEq] at hv
    rw [← hv]
    refine ⟨addLoop_wellFormed ha hb, ?_⟩
    rw [h2, hva, hvb, Nat.fib_add_two]
    push_cast
    ring

/-- The loop of `fibonacci` appends the next Fibonacci numbers and changes no entry. -/
theorem fibonacciLoop_spec (fuel : Nat) : ∀ (k i : Nat) (l : List BigNumber),
    SeqOk (fun i => (Nat.fib i : Int)) l → 2 ≤ l.length → i = l.length →
    (k ≠ 0 → i + k ≤ 2147483647) →
    (∀ l2, fibonacciLoop fuel k i l = some l2 →
      SeqOk (fun i => (Nat.fib i : Int)) l2 ∧ l2.length = l.length + k ∧ l <+: l2) ∧
    (1 ≤ fuel → ∃ l2, fibonacciLoop fuel k i l = some l2)
  | 0, i, l, hc, _, _, _ => by
    simp only [fibonacciLoop, Option.some.injEq]
    exact ⟨fun l2 h => by subst h; exact ⟨hc, rfl, List.prefix_refl _⟩, fun _ => ⟨l, rfl⟩⟩
  | k + 1, i, l, hc, hl, hi, hb => by
    have hb2 := hb (by omega)
    obtain ⟨j, hj⟩ : ∃ j, i = j + 2 := ⟨i - 2, by omega⟩
    obtain ⟨aw, av⟩ := seqOk_getD hc (i - 1) (by omega) (BigNumber.ofULL 0)
    obtain ⟨bw, bv⟩ := seqOk_getD hc (i - 2) (by omega) (BigNumber.ofULL 0)
    have e1 : i - 1 = j + 1 := by omega
    have e2 : i - 2 = j := by omega
    simp only [e1, e2] at av bv aw bw
    obtain ⟨s1, s2⟩ := fib_step aw bw av bv (by omega) fuel
    rw [fibonacciLoop, e1, e2]
    refine ⟨?_, ?_⟩
    · intro l2 h
      split at h
      · simp at h
      · rename_i v hv
        obtain ⟨vw, vv⟩ := s1 v hv
        have hnew : SeqOk (fun i => (Nat.fib i : Int)) (l ++ [v]) :=
          seqOk_concat hc vw (by rw [vv, ← hi, hj])
        obtain ⟨g1, g2, g3⟩ := (fibonacciLoop_spec fuel k (i + 1) (l ++ [v]) hnew
          (by simp only [List.length_append, List.length_singleton]; omega)
          (by simp only [List.length_append, List.length_singleton]; omega)
          (fun _ => by omega)).1 l2 h
        refine ⟨g1, ?_, List.IsPrefix.trans (List.prefix_append l _) g3⟩
        rw [g2]; simp only [List.length_append, List.length_singleton]; omega
    · intro hf
      obtain ⟨v, hv⟩ := s2 hf
      obtain ⟨vw, vv⟩ := s1 v hv
      have hnew : SeqOk (fun i => (Nat.fib i : Int)) (l ++ [v]) :=
        seqOk_concat hc vw (by rw [vv, ← hi, hj])
      rw [hv]
      exact (fibonacciLoop_spec fuel k (i + 1) (l ++ [v]) hnew
        (by simp only [List.length_append, List.length_singleton]; omega)
        (by simp only [List.length_append, List.length_singleton]; omega)
        (fun _ => by omega)).2 hf

theorem seqOk_fib_init : SeqOk (fun i => (Nat.fib i : Int))
    [BigNumber.ofULL 0, BigNumber.ofULL 1] := by
  have h0 := seqOk_concat (seqOk_nil (fun i => (Nat.fib i : Int))) (ofULL_spec 0).1
    (by rw [ofULL_value 0 (by norm_num)]; rfl)
  have h1 := seqOk_concat h0 (ofULL_spec 1).1 (by rw [ofULL_value 1 (by norm_num)]; rfl)
  simpa using h1

/-- Result of `fibonacci` on caches whose Fibonacci cache is right so far. -/
theorem fibonacci_spec (fuel n : Nat) (hn : n < 2147483647) (s : Caches)
    (hs : SeqOk (fun i => (Nat.fib i : Int)) s.fibonacciCache)
    (hl : s.fibonacciCache.length ≠ 1) :
    (∀ v s2, BigNumber.fibonacci fuel n s = some (v, s2) →
      v.WellFormed ∧ v.value = (Nat.fib n : Int) ∧
      SeqOk (fun i => (Nat.fib i : Int)) s2.fibonacciCache ∧ s2.fibonacciCache.length ≠ 1 ∧
      s.fibonacciCache <+: s2.fibonacciCache ∧
      s2.factorialCache = s.factorialCache ∧ s2.catalanCache = s.catalanCache) ∧
    (1 ≤ fuel → ∃ v s2, BigNumber.fibonacci fuel n s = some (v, s2)) := by
  have key : ∀ (c1 : List BigNumber), SeqOk (fun i => (Nat.fib i : Int)) c1 → 2 ≤ c1.length →
      s.fibonacciCache <+: c1 →
      (∀ v s2, (match fibonacciLoop fuel (n + 1 - c1.length) c1.length c1 with
          | none => none
          | some c2 => some (c2.getD n (BigNumber.ofULL 0),
              ({ s with fibonacciCache := c2 } : Caches))) = some (v, s2) →
        v.WellFormed ∧ v.value = (Nat.fib n : Int) ∧
        SeqOk (fun i => (Nat.fib i : Int)) s2.fibonacciCache ∧ s2.fibonacciCache.length ≠ 1 ∧
        s.fibonacciCache <+: s2.fibonacciCache ∧
        s2.factorialCache = s.factorialCache ∧ s2.catalanCache = s.catalanCache) ∧
      (1 ≤ fuel → ∃ v s2, (match fibonacciLoop fuel (n + 1 - c1.length) c1.length c1 with
          | none => none
          | some c2 => some (c2.getD n (BigNumber.ofULL 0),
              ({ s with fibonacciCache := c2 } : Caches))) = some (v, s2)) := by
    intro c1 h1 h2 hpre
    obtain ⟨g1, g2⟩ := fibonacciLoop_spec fuel (n + 1 - c1.length) c1.length c1 h1 h2 rfl
      (fun _ => by omega)
    refine ⟨?_, ?_⟩
    · intro v s2 h
      split at h
      · simp at h
      · rename_i c2 hc2
        obtain ⟨p1, p2, p3⟩ := g1 c2 hc2
        simp only [Option.some.injEq, Prod.mk.injEq] at h
        obtain ⟨w1, w2⟩ := seqOk_getD p1 n (by omega) (BigNumber.ofULL 0)
        rw [← h.1, ← h.2]
        exact ⟨w1, w2, p1, by show c2.length ≠ 1; omega, List.IsPrefix.trans hpre p3, rfl, rfl⟩
    · intro hf
      obtain ⟨c2, hc2⟩ := g2 hf
      rw [hc2]
      exact ⟨_, _, rfl⟩
  unfold BigNumber.fibonacci
  simp only
  by_cases he : s.fibonacciCache = []
  · rw [he]
    simp only [List.isEmpty_nil, if_true, List.nil_append, List.singleton_append]
    have := key [BigNumber.ofULL 0, BigNumber.ofULL 1] seqOk_fib_init (by simp)
      (by rw [he]; exact List.nil_prefix)
    rw [he] at this
    exact this
  · have hemp : s.fibonacciCache.isEmpty = false := by
      cases h : s.fibonacciCache with
      | nil => exact absurd h he
      | cons x xs => rfl
    rw [hemp]
    simp only [Bool.false_eq_true, if_false]
    have hlen : 2 ≤ s.fibonacciCache.length := by
      have := List.length_pos.2 he
      omega
    exact key s.fibonacciCache hs hlen (List.prefix_refl _)

/-! ## Catalan -/

theorem factorial_two_mul (i : Nat) :
    (2 * i).factorial = catalan i * ((i + 1).factorial * i.factorial) := by
  have h1 := Nat.choose_mul_factorial_mul_factorial (show i ≤ 2 * i by omega)
  have h2 : 2 * i - i = i := by omega
  rw [h2, ← Nat.centralBinom_eq_two_mul_choose] at h1
  have h3 : catalan i * (i + 1) = i.centralBinom := by
    rw [catalan_eq_centralBinom_div]
    exact Nat.div_mul_cancel (Nat.succ_dvd_centralBinom i)
  rw [← h1, ← h3, Nat.factorial_succ]
  ring

theorem div_ne_error {a b : BigNumber} (hz : b.isZero = false) (fuel : Nat) (e : String) :
    BigNumber.div fuel a b ≠ some (.error e) := by
  unfold BigNumber.div
  simp only [hz, Bool.false_eq_true, if_false]
  split
  · simp
  · split <;> simp

/-- One iteration of the loop of `catalan`: three calls of `factorial` and one exact
division. -/
theorem catalan_step (fuel i : Nat) (hi : i < 1073741824) (s : Caches)
    (hs : SeqOk (fun i => (i.factorial : Int)) s.factorialCache) :
    (∀ q, BigNumber.div fuel (BigNumber.factorial (2 * i) s).1
        ((BigNumber.factorial (i + 1) (BigNumber.factorial (2 * i) s).2).1.mul
          (BigNumber.factorial i (BigNumber.factorial (i + 1)
            (BigNumber.factorial (2 * i) s).2).2).1) = some (.ok q) →
      q.WellFormed ∧ q.value = (catalan i : Int)) ∧
    (11 ≤ fuel → ∃ q, BigNumber.div fuel (BigNumber.factorial (2 * i) s).1
        ((BigNumber.factorial (i + 1) (BigNumber.factorial (2 * i) s).2).1.mul
          (BigNumber.factorial i (BigNumber.factorial (i + 1)
            (BigNumber.factorial (2 * i) s).2).2).1) = some (.ok q)) ∧
    (∀ e, BigNumber.div fuel (BigNumber.factorial (2 * i) s).1
        ((BigNumber.factorial (i + 1) (BigNumber.factorial (2 * i) s).2).1.mul
          (BigNumber.factorial i (BigNumber.factorial (i + 1)
            (BigNumber.factorial (2 * i) s).2).2).1) ≠ some (.error e)) ∧
    ((BigNumber.factorial (i + 1) (BigNumber.factorial (2 * i) s).2).1.mul
        (BigNumber.factorial i (BigNumber.factorial (i + 1)
          (BigNumber.factorial (2 * i) s).2).2).1).value ∣
      (BigNumber.factorial (2 * i) s).1.value ∧
    SeqOk (fun i => (i.factorial : Int)) (BigNumber.factorial i (BigNumber.factorial (i + 1)
      (BigNumber.factorial (2 * i) s).2).2).2.factorialCache ∧
    s.factorialCache <+: (BigNumber.factorial i (BigNumber.factorial (i + 1)
      (BigNumber.factorial (2 * i) s).2).2).2.factorialCache ∧
    (BigNumber.factorial i (BigNumber.factorial (i + 1)
      (BigNumber.factorial (2 * i) s).2).2).2.fibonacciCache = s.fibonacciCache ∧
    (BigNumber.factorial i (BigNumber.factorial (i + 1)
      (BigNumber.factorial (2 * i) s).2).2).2.catalanCache = s.catalanCache := by
  obtain ⟨a1, a2, a3, _, a5, a6, a7⟩ := factorial_spec (2 * i) (by omega) s hs
  obtain ⟨b1, b2, b3, _, b5, b6, b7⟩ := factorial_spec (i + 1) (by omega) _ a3
  obtain ⟨c1, c2, c3, _, c5, c6, c7⟩ := factorial_spec i (by omega) _ b3
  generalize BigNumber.factorial (2 * i) s = f1 at *
  generalize BigNumber.factorial (i + 1) f1.2 = f2 at *
  generalize BigNumber.factorial i f2.2 = f3 at *
  have hbw := mul_wellFormed b1 c1
  have hbv : (f2.1.mul f3.1).value = (((i + 1).factorial * i.factorial : Nat) : Int) := by
    rw [mul_value b1 c1, b2, c2]; push_cast; ring
  have hpos : 0 < (i + 1).factorial * i.factorial :=
    Nat.mul_pos (Nat.factorial_pos _) (Nat.factorial_pos _)
  have hbn := isNegative_false_of_value_nonneg hbw (by rw [hbv]; positivity)
  have hbz : (f2.1.mul f3.1).isZero = false := by
    rw [Bool.eq_false_iff, Ne, isZero_iff_mag hbw, ← value_of_nonneg hbn, hbv]
    exact_mod_cast hpos.ne'
  have hav : f1.1.value = ((catalan i : Nat) : Int) * (f2.1.mul f3.1).value := by
    rw [a2, hbv, factorial_two_mul]; push_cast; ring
  have hq : Int.tdiv f1.1.value (f2.1.mul f3.1).value = (catalan i : Int) := by
    rw [Int.tdiv_eq_ediv (by rw [a2]; positivity) (by rw [hbv]; positivity), hav]
    exact Int.mul_ediv_cancel _ (by rw [hbv]; exact_mod_cast hpos.ne')
  refine ⟨?_, ?_, fun e => div_ne_error hbz fuel e, ⟨_, by rw [hav]; ring⟩, c3,
    List.IsPrefix.trans a5 (List.IsPrefix.trans b5 c5), by rw [c6, b6, a6], by rw [c7, b7, a7]⟩
  · intro q h
    obtain ⟨p1, _, _, p4⟩ := div_value_of_ok a1 hbw hbz fuel h
    exact ⟨p1, by rw [p4, hq]⟩
  · intro hf
    obtain ⟨q, h, _⟩ := div_spec a1 hbw hbz fuel hf
    exact ⟨q, h⟩

/-- The loop of `catalan` appends the next Catalan numbers, changes no earlier entry of the
Catalan and factorial caches, and never fails. -/
theorem catalanLoop_spec (fuel : Nat) : ∀ (k i : Nat) (s : Caches), s.Ok →
    i = s.catalanCache.length → (k ≠ 0 → i + k ≤ 1073741824) →
    (∀ s2, catalanLoop fuel k i s = some (.ok s2) →
      s2.Ok ∧ s2.catalanCache.length = s.catalanCache.length + k ∧
      s.catalanCache <+: s2.catalanCache ∧ s.factorialCache <+: s2.factorialCache ∧
      s2.fibonacciCache = s.fibonacciCache) ∧
    (11 ≤ fuel → ∃ s2, catalanLoop fuel k i s = some (.ok s2)) ∧
    (∀ e, catalanLoop fuel k i s ≠ some (.error e))
  | 0, i, s, hs, _, _ => by
    simp only [catalanLoop, Option.some.injEq, Except.ok.injEq]
    exact ⟨fun s2 h => by subst h; exact ⟨hs, rfl, List.prefix_refl _, List.prefix_refl _, rfl⟩,
      fun _ => ⟨s, rfl⟩, fun e h => by simp at h⟩
  | k + 1, i, s, hs, hi, hb => by
    have hb2 := hb (by omega)
    obtain ⟨t1, t2, t3, _, t5, t6, t7, t8⟩ := catalan_step fuel i (by omega) s hs.1
    have hnext : ∀ q, q.WellFormed → q.value = (catalan i : Int) →
        (Caches.mk (BigNumber.factorial i (BigNumber.factorial (i + 1)
            (BigNumber.factorial (2 * i) s).2).2).2.factorialCache
          (BigNumber.factorial i (BigNumber.factorial (i + 1)
            (BigNumber.factorial (2 * i) s).2).2).2.fibonacciCache
          ((BigNumber.factorial i (BigNumber.factorial (i + 1)
            (BigNumber.factorial (2 * i) s).2).2).2.catalanCache ++ [q])).Ok := by
      intro q qw qv
      refine ⟨t5, ?_, ?_⟩
      · show SeqOk _ (BigNumber.factorial i (BigNumber.factorial (i + 1)
            (BigNumber.factorial (2 * i) s).2).2).2.fibonacciCache ∧ _
        rw [t7]; exact hs.2.1
      · show SeqOk _ ((BigNumber.factorial i (BigNumber.factorial (i + 1)
            (BigNumber.factorial (2 * i) s).2).2).2.catalanCache ++ [q])
        rw [t8]
        exact seqOk_concat hs.2.2 qw (by rw [qv, hi])
    rw [catalanLoop]
    simp only
    refine ⟨?_, ?_, ?_⟩
    · intro s2 h
      split at h
      · simp at h
      · simp at h
      · rename_i q hq
        obtain ⟨qw, qv⟩ := t1 q hq
        obtain ⟨g1, g2, g3, g4, g5⟩ := (catalanLoop_spec fuel k (i + 1) _ (hnext q qw qv)
          (by simp only [List.length_append, List.length_singleton, t8]; omega)
          (fun _ => by omega)).1 s2 h
        simp only [t8, List.length_append, List.length_singleton, t7] at g2 g3 g5
        exact ⟨g1, by rw [g2]; omega, List.IsPrefix.trans (List.prefix_append _ _) g3,
          List.IsPrefix.trans t6 g4, g5⟩
    · intro hf
      obtain ⟨q, hq⟩ := t2 hf
      obtain ⟨qw, qv⟩ := t1 q hq
      rw [hq]
      exact (catalanLoop_spec fuel k (i + 1) _ (hnext q qw qv)
        (by simp only [List.length_append, List.length_singleton, t8]; omega)
        (fun _ => by omega)).2.1 hf
    · intro e h
      split at h
      · simp at h
      · rename_i e2 he2
        exact t3 e2 he2
      · rename_i q hq
        obtain ⟨qw, qv⟩ := t1 q hq
        exact (catalanLoop_spec fuel k (i + 1) _ (hnext q qw qv)
          (by simp only [List.length_append, List.length_singleton, t8]; omega)
          (fun _ => by omega)).2.2 e h

/-- Result of `catalan` on caches that are right so far. -/
theorem catalan_spec (fuel n : Nat) (hn : n < 1073741824) (s : Caches) (hs : s.Ok) :
    (∀ v s2, BigNumber.catalan fuel n s = some (.ok (v, s2)) →
      v.WellFormed ∧ v.value = (catalan n : Int) ∧ s2.Ok ∧
      s.catalanCache <+: s2.catalanCache ∧ s.factorialCache <+: s2.factorialCache ∧
      s2.fibonacciCache = s.fibonacciCache) ∧
    (11 ≤ fuel → ∃ v s2, BigNumber.catalan fuel n s = some (.ok (v, s2))) ∧
    (∀ e, BigNumber.catalan fuel n s ≠ some (.error e)) := by
  have key : ∀ (s1 : Caches), s1.Ok → s1.catalanCache ≠ [] →
      s.catalanCache <+: s1.catalanCache → s1.factorialCache = s.factorialCache →
      s1.fibonacciCache = s.fibonacciCache →
      (∀ v s2, ((match catalanLoop fuel (n + 1 - s1.catalanCache.length)
            s1.catalanCache.length s1 with
          | none => none
          | some (.error e) => some (.error e)
          | some (.ok s2) => some (.ok (s2.catalanCache.getD n (BigNumber.ofULL 0), s2))) :
          Option (Except String (BigNumber × Caches))) =
          some (.ok (v, s2)) →
        v.WellFormed ∧ v.value = (catalan n : Int) ∧ s2.Ok ∧
        s.catalanCache <+: s2.catalanCache ∧ s.factorialCache <+: s2.factorialCache ∧
        s2.fibonacciCache = s.fibonacciCache) ∧
      (11 ≤ fuel → ∃ v s2, ((match catalanLoop fuel (n + 1 - s1.catalanCache.length)
            s1.catalanCache.length s1 with
          | none => none
          | some (.error e) => some (.error e)
          | some (.ok s2) => some (.ok (s2.catalanCache.getD n (BigNumber.ofULL 0), s2))) :
          Option (Except String (BigNumber × Caches))) =
          some (.ok (v, s2))) ∧
      (∀ e, ((match catalanLoop fuel (n + 1 - s1.catalanCache.length)
            s1.catalanCache.length s1 with
          | none => none
          | some (.error e) => some (.error e)
          | some (.ok s2) => some (.ok (s2.catalanCache.getD n (BigNumber.ofULL 0), s2))) :
          Option (Except String (BigNumber × Caches))) ≠
          some (.error e)) := by
    intro s1 h1 hne hpre hfc hfb
    have hl := List.length_pos.2 hne
    obtain ⟨g1, g2, g3⟩ := catalanLoop_spec fuel (n + 1 - s1.catalanCache.length)
      s1.catalanCache.length s1 h1 rfl (fun _ => by omega)
    refine ⟨?_, ?_, ?_⟩
    · intro v s2 h
      split at h
      · simp at h
      · simp at h
      · rename_i s3 hs3
        obtain ⟨p1, p2, p3, p4, p5⟩ := g1 s3 hs3
        simp only [Option.some.injEq, Except.ok.injEq, Prod.mk.injEq] at h
        obtain ⟨w1, w2⟩ := seqOk_getD p1.2.2 n (by omega) (BigNumber.ofULL 0)
        rw [← h.1, ← h.2]
        exact ⟨w1, w2, p1, List.IsPrefix.trans hpre p3, by rw [← hfc]; exact p4,
          by rw [p5, hfb]⟩
    · intro hf
      obtain ⟨s3, hs3⟩ := g2 hf
      rw [hs3]
      exact ⟨_, _, rfl⟩
    · intro e h
      split at h
      · simp at h
      · rename_i e2 he2
        exact g3 e2 he2
      · simp at h
  unfold BigNumber.catalan
  simp only
  by_cases he : s.catalanCache = []
  · have hemp : s.catalanCache.isEmpty = true := by rw [he]; rfl
    rw [hemp]
    simp only [if_true]
    refine key (Caches.mk s.factorialCache s.fibonacciCache
      (s.catalanCache ++ [BigNumber.ofULL 1])) ?_ ?_ ?_ ?_ ?_
    · refine ⟨hs.1, hs.2.1, ?_⟩
      show SeqOk _ (s.catalanCache ++ [BigNumber.ofULL 1])
      rw [he]
      have := seqOk_concat (seqOk_nil (fun i => (catalan i : Int))) (ofULL_spec 1).1
        (by rw [ofULL_value 1 (by norm_num)]; simp)
      simpa using this
    · simp
    · exact List.prefix_append _ _
    · rfl
    · rfl
  · have hemp : s.catalanCache.isEmpty = false := by
      cases h : s.catalanCache with
      | nil => exact absurd h he
      | cons x xs => rfl
    rw [hemp]
    simp only [Bool.false_eq_true, if_false]
    exact key s hs he (List.prefix_refl _) rfl rfl

/-- Every state of the caches that the sequence functions can produce is right. -/
theorem reachable_ok {s : Caches} (h : s.Reachable) : s.Ok := by
  induction h with
  | init => exact ⟨seqOk_nil _, ⟨seqOk_nil _, by simp⟩, seqOk_nil _⟩
  | factorial n s hn _ ih =>
    obtain ⟨_, _, p3, _, _, p6, p7⟩ := factorial_spec n hn s ih.1
    exact ⟨p3, by rw [p6]; exact ih.2.1, by rw [p7]; exact ih.2.2⟩
  | fibonacci fuel n s v s2 hn _ hcall ih =>
    obtain ⟨_, _, p3, p4, _, p6, p7⟩ :=
      (fibonacci_spec fuel n hn s ih.2.1.1 ih.2.1.2).1 v s2 hcall
    exact ⟨by rw [p6]; exact ih.1, ⟨p3, p4⟩, by rw [p7]; exact ih.2.2⟩
  | catalan fuel n s v s2 hn _ hcall ih =>
    exact ((catalan_spec fuel n hn s ih).1 v s2 hcall).2.2.1

/-! ## Helpers for the order and the zero value -/

theorem eq_iff (a b : BigNumber) : a.eq b = true ↔ a = b := by
  unfold BigNumber.eq
  cases a; cases b
  simp

theorem negative_iff_value_neg {v : BigNumber} (hw : v.WellFormed) :
    (v.isNegative = true ∧ v.isZero = false) ↔ v.value < 0 := by
  constructor
  · intro h
    exact value_neg_of_negative hw h.1
  · intro h
    have hn : v.isNegative = true := by
      cases hn : v.isNegative
      · rw [value_of_nonneg hn] at h
        have := mag_nonneg hw
        omega
      · rfl
    exact ⟨hn, not_isZero_of_negative hw hn⟩

theorem neg_neg_of_not_isZero {a : BigNumber} (hz : a.isZero = false) : a.neg.neg = a := by
  have h1 : a.neg = ⟨a.digits, !a.isNegative⟩ := by simp [BigNumber.neg, hz]
  have h2 : (BigNumber.mk a.digits (!a.isNegative)).isZero = false := by
    simpa [BigNumber.isZero] using hz
  rw [h1]
  simp [BigNumber.neg, h2]

/-- The sum of a well-formed number and its negation is the zero value. -/
theorem add_neg_eq_zero {a : BigNumber} (ha : a.WellFormed) (fuel : Nat) :
    BigNumber.add (fuel + 4) a a.neg = some ⟨[0], false⟩ := by
  cases hz : a.isZero
  · have hs : a.isNegative ≠ a.neg.isNegative := by
      rw [neg_isNegative_of_not_isZero hz]
      cases a.isNegative <;> simp
    obtain ⟨r, hr, hw, hv⟩ := sub_same_sign ha ha rfl fuel
    have hr0 : r = ⟨[0], false⟩ := by
      apply eq_of_value_eq hw (by decide)
      rw [hv]
      simp [BigNumber.value, BigNumber.mag, evalDigits]
    rw [add_succ, if_pos hs, neg_neg_of_not_isZero hz, hr, hr0]
  · have hd : a.digits = [0] := by simpa [BigNumber.isZero] using hz
    have hn := ha.2.2.2 hd
    have ha0 : a = ⟨[0], false⟩ := by
      cases a
      simp only at hd hn
      rw [hd, hn]
    subst ha0
    have hl : addLoop [0] [0] 0 = [0] := by decide!
    rw [add_succ]
    simp only [BigNumber.neg, BigNumber.isZero, decide_True, if_true, ne_eq, not_true_eq_false,
      if_false, List.length_singleton, Nat.cast_one]
    rw [show (List.take (toInt32 1).toNat ([0] : List Int)) = [0] by decide, hl]
    rfl

/-! ## Operands and texts whose size does not fit `int` -/

/-- A text of `n` equal characters other than `-`, with `n - 1` negative as an `int`: the
constructor visits no character and returns the empty digit vector. -/
theorem ofString_replicate (n : Nat) (ch : Char) (hc : ch ≠ '-')
    (h : toInt32 ((n : Int) - 1) < 0) :
    BigNumber.ofString ⟨List.replicate n ch⟩ = .ok ⟨[], false⟩ := by
  rw [ofString_of_index_neg _ (by simpa using h)]
  have hneg : (decide ((String.mk (List.replicate n ch)).data.length > 0) &&
      decide ((String.mk (List.replicate n ch)).data.head? = some '-')) = false := by
    rw [Bool.and_eq_false_iff]
    right
    rw [decide_eq_false_iff_not]
    intro hh
    cases n with
    | zero => simp at hh
    | succ m =>
      simp only [List.replicate_succ, List.head?_cons, Option.some.injEq] at hh
      exact hc hh
  rw [hneg]

theorem text_ne_empty (n : Nat) (ch : Char) (hn : 0 < n) :
    ("" : String) ≠ ⟨List.replicate n ch⟩ := by
  intro h
  have h1 : (List.replicate n ch).length = 0 := by
    rw [← show ("" : String).data = List.replicate n ch from congrArg String.data h]
    rfl
  rw [List.length_replicate] at h1
  omega

theorem replicate_one_wellFormed (n : Nat) (hn : 0 < n) (sign : Bool) :
    (BigNumber.mk (List.replicate n 1) sign).WellFormed := by
  obtain ⟨m, rfl⟩ : ∃ m, n = m + 1 := ⟨n - 1, by omega⟩
  refine ⟨by simp [List.replicate_succ], ?_, ?_, ?_⟩
  · intro d hd
    rw [List.mem_replicate] at hd
    omega
  · left
    show (List.replicate (m + 1) (1 : Int)).getLast? ≠ some 0
    rw [List.replicate_succ', List.getLast?_concat]
    simp
  · intro h
    have h1 : (1 : Int) ∈ List.replicate (m + 1) (1 : Int) := by
      rw [List.mem_replicate]; exact ⟨by omega, rfl⟩
    have h' : List.replicate (m + 1) (1 : Int) = [0] := h
    have h2 : (1 : Int) ∈ ([0] : List Int) := h' ▸ h1
    exact absurd h2 (by decide)

/-- Same-sign `operator+` when the size of the left operand is not positive as an `int`:
none of its digits is read. -/
theorem add_left_size_wrapped {a b : BigNumber} (hs : a.isNegative = b.isNegative)
    (hla : toInt32 a.digits.length ≤ 0) (fuel : Nat) :
    BigNumber.add (fuel + 1) a b =
      if (addLoop [] (b.digits.take (toInt32 b.digits.length).toNat) 0).length ≤
          2147483647 then
        some ⟨addLoop [] (b.digits.take (toInt32 b.digits.length).toNat) 0, a.isNegative⟩
      else none := by
  have h0 : (toInt32 a.digits.length).toNat = 0 := by omega
  rw [add_succ, h0, if_neg (by simp [hs]), List.take_zero]

theorem mag_pos_of_not_isZero {a : BigNumber} (ha : a.WellFormed) (hz : a.isZero = false) :
    0 < a.mag := by
  have h0 := mag_nonneg ha
  have hne : a.mag ≠ 0 := by
    intro h
    rw [← isZero_iff_mag ha, hz] at h
    exact absurd h (by decide)
  omega

/-! ## The claims -/

/-- C1 (failing input): `BigNumber("-5") + BigNumber("0")`.  Both operands are well-formed
values of the string constructor.  The sign flags differ, so `operator+` returns
`*this - (-b)`; unary minus leaves the zero value unchanged, the sign flags still differ, so
`operator-` returns `*this + (-b)`, the call it came from.  No amount of fuel yields a
value: the sum `-5` is never returned. -/
theorem add_negative_zero_never_returns :
    BigNumber.ofString "-5" = .ok ⟨[5], true⟩ ∧ BigNumber.ofString "0" = .ok ⟨[0], false⟩ ∧
      (BigNumber.mk [5] true).WellFormed ∧ (BigNumber.mk [0] false).WellFormed ∧
      ∀ fuel, BigNumber.add fuel ⟨[5], true⟩ ⟨[0], false⟩ = none :=
  ⟨rfl, rfl, by decide, by decide, fun fuel => (add_sub_negative_zero ⟨[5], true⟩ rfl fuel).1⟩

/-- C2 (failing input): `BigNumber("-12") - BigNumber("0")`.  Both operands are well-formed
values of the string constructor.  The sign flags differ, so `operator-` returns
`*this + (-b)` with `-b` the unchanged zero value, and `operator+` returns `*this - (-b)`,
the call it came from.  No amount of fuel yields a value: the difference `-12` is never
returned. -/
theorem sub_negative_zero_never_returns :
    BigNumber.ofString "-12" = .ok ⟨[2, 1], true⟩ ∧
      BigNumber.ofString "0" = .ok ⟨[0], false⟩ ∧
      (BigNumber.mk [2, 1] true).WellFormed ∧ (BigNumber.mk [0] false).WellFormed ∧
      ∀ fuel, BigNumber.sub fuel ⟨[2, 1], true⟩ ⟨[0], false⟩ = none :=
  ⟨rfl, rfl, by decide, by decide, fun fuel => (add_sub_negative_zero ⟨[2, 1], true⟩ rfl fuel).2⟩

/-- C3 (counterexample): `a = b =` the well-formed number of 60000000 digits 9.  The slots
of the accumulator are `int`; the sixty million products `9 * 9` that fall on the middle
slot add up to 4860000000, more than `INT_MAX = 2147483647`.  Were every slot in range, the
120000000 slots would sum to at most `120000000 * INT_MAX`; they sum to
`(9 * 60000000)^2`, which is larger.  So some addition leaves the range of `int`, and
`operator*` has no defined result. -/
theorem mul_slot_overflows :
    (BigNumber.mk (List.replicate 60000000 9) false).WellFormed ∧
      BigNumber.mulInt ⟨List.replicate 60000000 9, false⟩
        ⟨List.replicate 60000000 9, false⟩ = none :=
  ⟨replicate_nine_wellFormed 60000000 (by decide), mulInt_nines 60000000 (by decide)⟩

/-- C3 (amended): for well-formed `a` and `b`: whenever every `int` slot and loop counter of
`operator*` stays in the range of `int`, it returns a well-formed value whose signed value
is `value a * value b`; the carry pass over the `len a + len b` slots ends with carry 0;
the sign flag is the XOR of the operand flags unless the product is the zero value, which
is the non-negative single digit 0.  Every `int` does stay in range when
`len a + len b <= 2147483647` and `90 * min(len a, len b) <= 2147483647`. -/
theorem mul_exact (a b : BigNumber) (ha : a.WellFormed) (hb : b.WellFormed) :
    (∀ r, a.mulInt b = some r →
      r.value = a.value * b.value ∧
        (mulOuter b.digits a.digits 0
          (List.replicate (a.digits.length + b.digits.length) 0)).length =
          a.digits.length + b.digits.length ∧
        (carryPass (mulOuter b.digits a.digits 0
          (List.replicate (a.digits.length + b.digits.length) 0)) 0).2 = 0 ∧
        r.isNegative = ((a.isNegative != b.isNegative) && !r.isZero) ∧
        (r.value = 0 → r = ⟨[0], false⟩) ∧
        r.WellFormed) ∧
      (a.digits.length + b.digits.length ≤ 2147483647 →
        90 * min a.digits.length b.digits.length ≤ 2147483647 →
        a.mulInt b = some (a.mul b)) := by
  refine ⟨?_, fun hlen hsmall => mulInt_of_small ha.2.1 hb.2.1 hlen hsmall⟩
  intro r hr
  rw [mulInt_eq_some hr]
  have hw := mul_wellFormed ha hb
  refine ⟨mul_value ha hb, by rw [mulOuter_length, List.length_replicate],
    (carryPass_product ha.2.1 hb.2.1).1, mul_isNegative a b, ?_, hw⟩
  intro h0
  have hm : (a.mul b).mag = 0 := by
    unfold BigNumber.value at h0
    by_cases hn : (a.mul b).isNegative = true
    · rw [if_pos hn] at h0; omega
    · rw [if_neg hn] at h0; exact h0
  have hd := (mag_eq_zero_iff hw).1 hm
  have hn := hw.2.2.2 hd
  cases hr2 : a.mul b with
  | mk ds n =>
    rw [hr2] at hd hn
    simp only at hd hn
    rw [hd, hn]

/-- Witness for C3 at `-99 * 7`: no `int` leaves its range and the product is `-693`. -/
theorem mul_exact_witness :
    (BigNumber.mk [9, 9] true).WellFormed ∧ (BigNumber.mk [7] false).WellFormed ∧
      (BigNumber.mk [9, 9] true).mulInt ⟨[7], false⟩ = some ⟨[3, 9, 6], true⟩ ∧
      (BigNumber.mk [3, 9, 6] true).value =
        (BigNumber.mk [9, 9] true).value * (BigNumber.mk [7] false).value :=
  ⟨by decide, by decide, by decide,
    ((mul_exact ⟨[9, 9], true⟩ ⟨[7], false⟩ (by decide) (by decide)).1 ⟨[3, 9, 6], true⟩
      (by decide)).1⟩

/-- C4: for well-formed `a` and `b` with `b` not the zero value, `operator/` returns (given
fuel for the inner `while` loop and the call of `operator-`) a well-formed quotient whose
magnitude is `floor(|a| / |b|)`, whose sign flag is the XOR of the operand flags unless the
quotient is zero, and whose value is the quotient truncated toward zero.  Moreover every
step of the long-division loop, started with a running remainder below `|b|`, finds with
the binary search the largest digit `x` in 0..9 with `|b| * x <= 10 * remainder + digit`,
and leaves a running remainder that is again below `|b|`. -/
theorem div_truncates (a b : BigNumber) (ha : a.WellFormed) (hb : b.WellFormed)
    (hz : b.isZero = false) (fuel : Nat) (hf : 11 ≤ fuel) :
    (∃ q, BigNumber.div fuel a b = some (.ok q) ∧ q.WellFormed ∧ q.mag = a.mag / b.mag ∧
      q.isNegative = ((a.isNegative != b.isNegative) && !q.isZero) ∧
      q.value = Int.tdiv a.value b.value) ∧
    (BigNumber.ofULL 0).mag < b.mag ∧
    ∀ (current : BigNumber) (d : Int), current.WellFormed → current.isNegative = false →
      current.mag < b.mag → 0 ≤ d → d ≤ 9 →
      ∃ x next,
        searchDigit ⟨b.digits, false⟩
          (BigNumber.removeLeadingZeros ⟨d :: current.digits, current.isNegative⟩) fuel 0 9 0
          = some x ∧
        0 ≤ x ∧ x ≤ 9 ∧ b.mag * x ≤ d + 10 * current.mag ∧
        (∀ t, 0 ≤ t → t ≤ 9 → b.mag * t ≤ d + 10 * current.mag → t ≤ x) ∧
        BigNumber.sub fuel
          (BigNumber.removeLeadingZeros ⟨d :: current.digits, current.isNegative⟩)
          ((BigNumber.mk b.digits false).mul (BigNumber.ofULL (intToULL x))) = some next ∧
        next.WellFormed ∧ next.isNegative = false ∧
        next.mag = d + 10 * current.mag - b.mag * x ∧ next.mag < b.mag := by
  refine ⟨div_spec ha hb hz fuel hf, ?_, ?_⟩
  · have h0 := mag_nonneg hb
    have hne : b.mag ≠ 0 := by
      intro h
      rw [← isZero_iff_mag hb, hz] at h
      exact absurd h (by decide)
    rw [ofULL_zero]
    show (0 : Int) < b.mag
    omega
  · intro current d hc hcn hlt hd0 hd9
    exact div_step (abs_wellFormed hb) rfl hc hcn hlt d hd0 hd9 fuel hf

/-- Witness for C4 at `-999 / 7`. -/
theorem div_truncates_witness :
    (BigNumber.mk [9, 9, 9] true).WellFormed ∧ (BigNumber.mk [7] false).WellFormed ∧
      (BigNumber.mk [7] false).isZero = false ∧
      ∃ q, BigNumber.div 11 ⟨[9, 9, 9], true⟩ ⟨[7], false⟩ = some (.ok q) ∧ q.WellFormed ∧
        q.mag = (BigNumber.mk [9, 9, 9] true).mag / (BigNumber.mk [7] false).mag ∧
        q.isNegative = (((BigNumber.mk [9, 9, 9] true).isNegative !=
          (BigNumber.mk [7] false).isNegative) && !q.isZero) ∧
        q.value = Int.tdiv (BigNumber.mk [9, 9, 9] true).value (BigNumber.mk [7] false).value :=
  ⟨by decide, by decide, by decide,
    (div_truncates ⟨[9, 9, 9], true⟩ ⟨[7], false⟩ (by decide) (by decide) (by decide) 11
      (by decide)).1⟩

/-- C5: when `b` is the zero value both `a / b` and `a % b` throw
`runtime_error("Division by zero")`, for every `a` and before any other work; when `b` is
not the zero value `a / b` throws nothing, and for well-formed operands it returns a
value. -/
theorem div_mod_by_zero (a b : BigNumber) (fuel : Nat) :
    (b.isZero = true →
      BigNumber.div fuel a b = some (.error "Division by zero") ∧
      BigNumber.mod fuel a b = some (.error "Division by zero")) ∧
    (b.isZero = false → ∀ e, BigNumber.div fuel a b ≠ some (.error e)) ∧
    (a.WellFormed → b.WellFormed → b.isZero = false → 11 ≤ fuel →
      ∃ q, BigNumber.div fuel a b = some (.ok q)) := by
  refine ⟨?_, ?_, ?_⟩
  · intro hz
    have hd : BigNumber.div fuel a b = some (.error "Division by zero") := by
      unfold BigNumber.div; rw [if_pos hz]
    exact ⟨hd, by unfold BigNumber.mod; rw [hd]⟩
  · intro hz e
    unfold BigNumber.div
    simp only [hz, Bool.false_eq_true, if_false]
    split
    · simp
    · split <;> simp
  · intro ha hb hz hf
    obtain ⟨q, hq, _⟩ := div_spec ha hb hz fuel hf
    exact ⟨q, hq⟩

/-- Witness for C5: `-3 / 0` and `-3 % 0` throw, `-3 / 7` does not. -/
theorem div_mod_by_zero_witness :
    (BigNumber.div 0 ⟨[3], true⟩ ⟨[0], false⟩ = some (.error "Division by zero") ∧
      BigNumber.mod 0 ⟨[3], true⟩ ⟨[0], false⟩ = some (.error "Division by zero")) ∧
    (∀ e, BigNumber.div 11 ⟨[3], true⟩ ⟨[7], false⟩ ≠ some (.error e)) ∧
    ∃ q, BigNumber.div 11 ⟨[3], true⟩ ⟨[7], false⟩ = some (.ok q) :=
  ⟨(div_mod_by_zero ⟨[3], true⟩ ⟨[0], false⟩ 0).1 (by decide),
    (div_mod_by_zero ⟨[3], true⟩ ⟨[7], false⟩ 11).2.1 (by decide),
    (div_mod_by_zero ⟨[3], true⟩ ⟨[7], false⟩ 11).2.2 (by decide) (by decide) (by decide)
      (by decide)⟩

/-- C6 (failing inputs).  For `a = -1`, `b = 2` the quotient is the zero value, `(a / b) * b`
is the zero value, and `a % b` is `a - 0` with `a` negative, which never returns.  For
`a = -4`, `b = 2` the quotient is `-2`, `(a / b) * b` is `-4`, `a % b` is the zero value, and
the sum `(a / b) * b + (a % b)` is `-4 + 0`, which never returns.  In both cases the
comparison with `a` is never reached. -/
theorem div_mod_identity_never_returns :
    (BigNumber.mk [1] true).WellFormed ∧ (BigNumber.mk [4] true).WellFormed ∧
      (BigNumber.mk [2] false).WellFormed ∧ (BigNumber.mk [2] false).isZero = false ∧
      (∀ fuel, BigNumber.mod fuel ⟨[1], true⟩ ⟨[2], false⟩ = none) ∧
      BigNumber.div 11 ⟨[4], true⟩ ⟨[2], false⟩ = some (.ok ⟨[2], true⟩) ∧
      BigNumber.mod 11 ⟨[4], true⟩ ⟨[2], false⟩ = some (.ok ⟨[0], false⟩) ∧
      ∀ fuel, BigNumber.add fuel ((BigNumber.mk [2] true).mul ⟨[2], false⟩) ⟨[0], false⟩ = none := by
  refine ⟨by decide, by decide, by decide, by decide, ?_, rfl, rfl, ?_⟩
  · intro fuel
    have hd : BigNumber.div fuel ⟨[1], true⟩ ⟨[2], false⟩ = some (.ok ⟨[0], false⟩) := rfl
    have hm : (BigNumber.mk [0] false).mul ⟨[2], false⟩ = ⟨[0], false⟩ := by decide
    unfold BigNumber.mod
    rw [hd]
    simp only [hm, (add_sub_negative_zero ⟨[1], true⟩ rfl fuel).2]
  · intro fuel
    have hm : (BigNumber.mk [2] true).mul ⟨[2], false⟩ = ⟨[4], true⟩ := by decide
    rw [hm]
    exact (add_sub_negative_zero ⟨[4], true⟩ rfl fuel).1

/-- C7 (failing inputs): for every negative `a`, neither `a + 0` nor `a - 0` returns: the
delegation chain `a + b -> a - (-b) -> a + (-(-b))` keeps the zero operand unchanged,
because unary minus does not flip the sign of the zero value, and so never reaches a
same-sign digit loop. -/
theorem add_sub_not_total (a : BigNumber) (hn : a.isNegative = true) (fuel : Nat) :
    BigNumber.add fuel a (BigNumber.ofULL 0) = none ∧
      BigNumber.sub fuel a (BigNumber.ofULL 0) = none := by
  rw [ofULL_zero]
  exact add_sub_negative_zero a hn fuel

/-- Witness for C7 at the well-formed operands `a = -7` and `BigNumber(0)`. -/
theorem add_sub_not_total_witness :
    (BigNumber.mk [7] true).WellFormed ∧ (BigNumber.ofULL 0).WellFormed ∧
      ∀ fuel, BigNumber.add fuel ⟨[7], true⟩ (BigNumber.ofULL 0) = none ∧
        BigNumber.sub fuel ⟨[7], true⟩ (BigNumber.ofULL 0) = none :=
  ⟨by decide, by decide, fun fuel => add_sub_not_total ⟨[7], true⟩ rfl fuel⟩

/-- C8 (failing inputs): the constructor from text throws nothing for the empty text and
for the lone sign; the loop body is never entered and a value with an empty digit vector
is returned. -/
theorem ofString_no_digits_returns :
    BigNumber.ofString "" = .ok ⟨[], false⟩ ∧ BigNumber.ofString "-" = .ok ⟨[], true⟩ :=
  ⟨rfl, rfl⟩

/-- C9 (counterexample): the text of 2147483649 characters `a`.  No character is a digit or
a sign, yet nothing is thrown: the loop index is the `int` that `s.size() - 1 = 2^31`
converts to, which is `-2^31`, so the loop test `i >= start` fails at once, no character
is examined, and the constructor returns a value with an empty digit vector. -/
theorem ofString_long_text_not_rejected :
    (String.mk (List.replicate 2147483649 'a')).data.length = 2147483649 ∧
      (∀ ch ∈ (String.mk (List.replicate 2147483649 'a')).data,
        ch.isDigit = false ∧ ch ≠ '-') ∧
      BigNumber.ofString ⟨List.replicate 2147483649 'a'⟩ = .ok ⟨[], false⟩ :=
  ⟨List.length_replicate _ _,
    fun ch hc => by rw [List.eq_of_mem_replicate hc]; exact ⟨by decide, by decide⟩,
    ofString_replicate 2147483649 'a' (by decide) (by decide)⟩

/-- C9 (amended): for a text of at most 2147483648 characters: if some character is not a
decimal digit, and is not a `-` at index 0, the constructor from text throws
`runtime_error("Invalid number")`. -/
theorem ofString_rejects_non_digit (s : String) (hlen : s.data.length ≤ 2147483648)
    (i : Nat) (hi : i < s.data.length)
    (hnd : (s.data.get ⟨i, hi⟩).isDigit = false)
    (hsign : ¬ (i = 0 ∧ s.data.get ⟨i, hi⟩ = '-')) :
    BigNumber.ofString s = .error "Invalid number" := by
  have hmem : s.data.get ⟨i, hi⟩ ∈ (List.drop (if (decide (s.data.length > 0) &&
      decide (s.data.head? = some '-')) = true then 1 else 0) s.data).reverse := by
    rw [List.mem_reverse]
    exact mem_drop_sign s.data i hi hsign
  rw [ofString_of_length_le s hlen]
  simp only
  rw [parseLoop_error _ [] ⟨_, hmem, hnd⟩]

/-- Witness for C9 at the text `12a3`, whose character at index 2 is not a digit. -/
theorem ofString_rejects_non_digit_witness :
    BigNumber.ofString "12a3" = .error "Invalid number" :=
  ofString_rejects_non_digit "12a3" (by decide) 2 (by decide) (by decide) (by decide)

/-- C10 (failing inputs): the values the constructor from text returns for the empty text
and for the lone sign have an empty digit vector, so they break invariant 1; the second
one also carries the sign flag.  The texts `-0` and `000` do yield the non-negative single
digit 0. -/
theorem ofString_no_digits_not_wellFormed :
    (∃ v, BigNumber.ofString "" = .ok v ∧ v.digits = [] ∧ ¬ v.WellFormed) ∧
      (∃ v, BigNumber.ofString "-" = .ok v ∧ v.digits = [] ∧ v.isNegative = true ∧
        ¬ v.WellFormed) ∧
      BigNumber.ofString "-0" = .ok ⟨[0], false⟩ ∧
      BigNumber.ofString "000" = .ok ⟨[0], false⟩ :=
  ⟨⟨⟨[], false⟩, rfl, rfl, by decide⟩, ⟨⟨[], true⟩, rfl, rfl, rfl, by decide⟩, rfl, rfl⟩

/-- C11 (counterexample): the normalised text of 2147483649 digits `1`.  The loop index of
the constructor is the `int` that `s.size() - 1 = 2^31` converts to, `-2^31`, so no
character is read and the number built has an empty digit vector; `operator<<` then writes
nothing, which is not the text. -/
theorem roundtrip_long_text_fails :
    (String.mk (List.replicate 2147483649 '1')).data.length = 2147483649 ∧
      (∀ ch ∈ (String.mk (List.replicate 2147483649 '1')).data,
        ch.isDigit = true ∧ ch ≠ '0') ∧
      BigNumber.ofString ⟨List.replicate 2147483649 '1'⟩ = .ok ⟨[], false⟩ ∧
      (BigNumber.mk [] false).toText = "" ∧
      (BigNumber.mk [] false).toText ≠ ⟨List.replicate 2147483649 '1'⟩ :=
  ⟨List.length_replicate _ _,
    fun ch hc => by rw [List.eq_of_mem_replicate hc]; exact ⟨by decide, by decide⟩,
    ofString_replicate 2147483649 '1' (by decide) (by decide), by decide,
    text_ne_empty 2147483649 '1' (by decide)⟩

/-- C11 (amended): for every normalised decimal text `s` of at most 2147483648 characters
(an optional `-`, then one or more digits, no leading zero unless the digits are the
single `0`, and not `-0`), constructing a number from `s` and writing it with `operator<<`
gives back exactly `s`; the text written starts with `-` exactly when the number is
negative and non-zero, and after the sign come the digits from the most significant to the
least significant. -/
theorem parse_print_roundtrip (s : String) (neg : Bool) (ds : List Char)
    (hlen : s.data.length ≤ 2147483648)
    (hs : s.data = (if neg then ['-'] else []) ++ ds) (hne : ds ≠ [])
    (hdig : ∀ c ∈ ds, c.isDigit = true) (hlead : ds.head? ≠ some '0' ∨ ds = ['0'])
    (hnz : ¬ (neg = true ∧ ds = ['0'])) :
    ∃ v, BigNumber.ofString s = .ok v ∧ v.toText = s ∧
      (v.toText.data.head? = some '-' ↔ (v.isNegative = true ∧ v.isZero = false)) ∧
      ((v.isNegative = true ∧ v.isZero = false) ↔ v.value < 0) ∧
      v.toText.data = (if v.isNegative && !v.isZero then ['-'] else []) ++
        v.digits.reverse.map (fun d => Char.ofNat (48 + d.toNat)) := by
  obtain ⟨hof, hw⟩ := ofString_normalised s neg ds hlen hs hne hdig hlead hnz
  have hdl : (BigNumber.mk (ds.map (fun c => (c.toNat : Int) - 48)).reverse neg).digits.length ≤
      2147483648 := by
    have h1 : s.data.length = (if neg then ['-'] else []).length + ds.length := by
      rw [hs, List.length_append]
    show ((ds.map (fun c => (c.toNat : Int) - 48)).reverse).length ≤ 2147483648
    rw [List.length_reverse, List.length_map]
    omega
  refine ⟨_, hof, ?_, toText_head hw hdl, negative_iff_value_neg hw, toText_data hw.2.1 hdl⟩
  have hsign : ((BigNumber.mk (ds.map (fun c => (c.toNat : Int) - 48)).reverse neg).isNegative &&
      !(BigNumber.mk (ds.map (fun c => (c.toNat : Int) - 48)).reverse neg).isZero) = neg := by
    cases hn : neg with
    | false => rfl
    | true =>
      subst hn
      rw [not_isZero_of_negative hw rfl]
      rfl
  unfold BigNumber.toText
  rw [take_toInt32_pred _ hdl, hsign]
  simp only [List.reverse_reverse]
  rw [flatten_digits ds hdig, ← hs]

/-- Witness for C11 at the text `-120`. -/
theorem parse_print_roundtrip_witness :
    ∃ v, BigNumber.ofString "-120" = .ok v ∧ v.toText = "-120" ∧
      (v.toText.data.head? = some '-' ↔ (v.isNegative = true ∧ v.isZero = false)) ∧
      ((v.isNegative = true ∧ v.isZero = false) ↔ v.value < 0) ∧
      v.toText.data = (if v.isNegative && !v.isZero then ['-'] else []) ++
        v.digits.reverse.map (fun d => Char.ofNat (48 + d.toNat)) :=
  parse_print_roundtrip "-120" true ['1', '2', '0'] (by decide) rfl (by decide) (by decide)
    (by decide) (by decide)

/-- C12: on well-formed numbers `a < b` holds exactly when `value a < value b`; so `<` is
irreflexive and transitive, exactly one of `a < b`, `a == b`, `b < a` holds, and `>`, `<=`,
`>=` are `b < a`, `!(b < a)`, `!(a < b)`, the orders `>`, `<=`, `>=` of the values. -/
theorem lt_strict_total_order (a b c : BigNumber) (ha : a.WellFormed) (hb : b.WellFormed)
    (hc : c.WellFormed) :
    (a.lt b = true ↔ a.value < b.value) ∧
      a.lt a = false ∧
      (a.lt b = true → b.lt c = true → a.lt c = true) ∧
      ((a.lt b = true ∧ a.eq b = false ∧ b.lt a = false) ∨
        (a.lt b = false ∧ a.eq b = true ∧ b.lt a = false) ∨
        (a.lt b = false ∧ a.eq b = false ∧ b.lt a = true)) ∧
      (a.gt b = b.lt a ∧ a.le b = !(b.lt a) ∧ a.ge b = !(a.lt b)) ∧
      (a.gt b = true ↔ b.value < a.value) ∧
      (a.le b = true ↔ a.value ≤ b.value) ∧
      (a.ge b = true ↔ b.value ≤ a.value) := by
  have hab := lt_iff ha hb
  have hba := lt_iff hb ha
  have hbc := lt_iff hb hc
  have hac := lt_iff ha hc
  have haa := lt_iff ha ha
  have heq : a.eq b = true ↔ a.value = b.value :=
    ⟨fun h => by rw [(eq_iff a b).1 h], fun h => (eq_iff a b).2 (eq_of_value_eq ha hb h)⟩
  refine ⟨hab, ?_, ?_, ?_, ⟨rfl, rfl, rfl⟩, ?_, ?_, ?_⟩
  · rw [Bool.eq_false_iff, Ne, haa]; omega
  · intro h1 h2
    rw [hab] at h1
    rw [hbc] at h2
    rw [hac]; omega
  · rcases lt_trichotomy a.value b.value with h | h | h
    · left
      refine ⟨hab.2 h, ?_, ?_⟩
      · rw [Bool.eq_false_iff, Ne, heq]; omega
      · rw [Bool.eq_false_iff, Ne, hba]; omega
    · right; left
      refine ⟨?_, heq.2 h, ?_⟩
      · rw [Bool.eq_false_iff, Ne, hab]; omega
      · rw [Bool.eq_false_iff, Ne, hba]; omega
    · right; right
      refine ⟨?_, ?_, hba.2 h⟩
      · rw [Bool.eq_false_iff, Ne, hab]; omega
      · rw [Bool.eq_false_iff, Ne, heq]; omega
  · exact hba
  · unfold BigNumber.le BigNumber.gt
    rw [Bool.not_eq_true', Bool.eq_false_iff, Ne, hba]; omega
  · unfold BigNumber.ge
    rw [Bool.not_eq_true', Bool.eq_false_iff, Ne, hab]; omega

/-- Witness for C12: `BigNumber("-100") < BigNumber("-99")`, with `BigNumber("5")` as third
number. -/
theorem lt_strict_total_order_witness :
    BigNumber.ofString "-100" = .ok ⟨[0, 0, 1], true⟩ ∧
      BigNumber.ofString "-99" = .ok ⟨[9, 9], true⟩ ∧
      (BigNumber.mk [0, 0, 1] true).lt ⟨[9, 9], true⟩ = true ∧
      ((BigNumber.mk [0, 0, 1] true).lt ⟨[9, 9], true⟩ = true ↔
        (BigNumber.mk [0, 0, 1] true).value < (BigNumber.mk [9, 9] true).value) :=
  ⟨rfl, rfl, by decide,
    (lt_strict_total_order ⟨[0, 0, 1], true⟩ ⟨[9, 9], true⟩ ⟨[5], false⟩ (by decide) (by decide)
      (by decide)).1⟩

/-- C13: in every state of the caches that earlier calls can have produced, `factorial(n)`
returns the well-formed number with value `n!`, and the factorial cache it leaves has
length `max(old length, n + 1)` and the old cache as a prefix, so no entry already
present has changed.  (The index is a non-negative `int` below `INT_MAX`, so that the loop
counter stays in range.) -/
theorem factorial_correct (n : Nat) (hn : n < 2147483647) (s : Caches) (hs : s.Reachable) :
    (BigNumber.factorial n s).1.value = (n.factorial : Int) ∧
      (BigNumber.factorial n s).1.WellFormed ∧
      (BigNumber.factorial n s).2.factorialCache.length = max s.factorialCache.length (n + 1) ∧
      s.factorialCache <+: (BigNumber.factorial n s).2.factorialCache ∧
      (BigNumber.factorial n s).2.Reachable := by
  obtain ⟨p1, p2, _, p4, p5, _, _⟩ := factorial_spec n hn s (reachable_ok hs).1
  exact ⟨p2, p1, p4, p5, Caches.Reachable.factorial n s hn hs⟩

/-- Witness for C13: `factorial(20)` in a fresh process, and the three values quoted with
the claim. -/
theorem factorial_correct_witness :
    ((BigNumber.factorial 20 ⟨[], [], []⟩).1.value = (Nat.factorial 20 : Int) ∧
      (BigNumber.factorial 20 ⟨[], [], []⟩).1.WellFormed ∧
      (BigNumber.factorial 20 ⟨[], [], []⟩).2.factorialCache.length = max 0 (20 + 1) ∧
      [] <+: (BigNumber.factorial 20 ⟨[], [], []⟩).2.factorialCache ∧
      (BigNumber.factorial 20 ⟨[], [], []⟩).2.Reachable) ∧
    (BigNumber.factorial 0 ⟨[], [], []⟩).1.toText = "1" ∧
    (BigNumber.factorial 5 ⟨[], [], []⟩).1.toText = "120" ∧
    (BigNumber.factorial 20 ⟨[], [], []⟩).1.toText = "2432902008176640000" :=
  ⟨factorial_correct 20 (by norm_num) ⟨[], [], []⟩ Caches.Reachable.init, by decide!, by decide!,
    by decide!⟩

/-- C14: in every state of the caches that earlier calls can have produced, `fibonacci(n)`
returns (one unit of fuel is enough, the sums never delegate) the well-formed number whose
value is the `n`-th Fibonacci number, `F(0) = 0`, `F(1) = 1`, `F(i) = F(i-1) + F(i-2)`,
keeping the old cache as a prefix of the new one. -/
theorem fibonacci_correct (fuel n : Nat) (hn : n < 2147483647) (hf : 1 ≤ fuel) (s : Caches)
    (hs : s.Reachable) :
    ∃ v s2, BigNumber.fibonacci fuel n s = some (v, s2) ∧ v.value = (Nat.fib n : Int) ∧
      v.WellFormed ∧ s.fibonacciCache <+: s2.fibonacciCache ∧ s2.Reachable := by
  have hok := reachable_ok hs
  obtain ⟨g1, g2⟩ := fibonacci_spec fuel n hn s hok.2.1.1 hok.2.1.2
  obtain ⟨v, s2, h⟩ := g2 hf
  obtain ⟨p1, p2, _, _, p5, _, _⟩ := g1 v s2 h
  exact ⟨v, s2, h, p2, p1, p5, Caches.Reachable.fibonacci fuel n s v s2 hn hs h⟩

/-- Witness for C14: `fibonacci(10)` in a fresh process, and the three values quoted with
the claim. -/
theorem fibonacci_correct_witness :
    (∃ v s2, BigNumber.fibonacci 1 10 ⟨[], [], []⟩ = some (v, s2) ∧
      v.value = (Nat.fib 10 : Int) ∧ v.WellFormed ∧ [] <+: s2.fibonacciCache ∧ s2.Reachable) ∧
    (BigNumber.fibonacci 1 0 ⟨[], [], []⟩).map (fun p => p.1.toText) = some "0" ∧
    (BigNumber.fibonacci 1 1 ⟨[], [], []⟩).map (fun p => p.1.toText) = some "1" ∧
    (BigNumber.fibonacci 1 10 ⟨[], [], []⟩).map (fun p => p.1.toText) = some "55" :=
  ⟨fibonacci_correct 1 10 (by norm_num) (le_refl _) ⟨[], [], []⟩ Caches.Reachable.init,
    by decide!, by decide!, by decide!⟩

/-- C15: in every state of the caches that earlier calls can have produced, `catalan(n)`
returns (given fuel for the division) the well-formed number whose value is the `n`-th
Catalan number `(2n)! / ((n+1)! * n!)`, and throws nothing; in every iteration the divisor
`factorial(i+1) * factorial(i)` divides the dividend `factorial(2i)`, so the truncating
division leaves remainder zero.  (The index is a non-negative `int` with `2 * n` in the
`int` range.) -/
theorem catalan_correct (fuel n : Nat) (hn : n < 1073741824) (hf : 11 ≤ fuel) (s : Caches)
    (hs : s.Reachable) :
    (∃ v s2, BigNumber.catalan fuel n s = some (.ok (v, s2)) ∧ v.value = (catalan n : Int) ∧
      v.WellFormed ∧ s.catalanCache <+: s2.catalanCache ∧ s2.Reachable) ∧
    catalan n = (2 * n).factorial / ((n + 1).factorial * n.factorial) ∧
    (∀ e, BigNumber.catalan fuel n s ≠ some (.error e)) ∧
    ∀ i, i < 1073741824 →
      Int.tmod (BigNumber.factorial (2 * i) s).1.value
        ((BigNumber.factorial (i + 1) (BigNumber.factorial (2 * i) s).2).1.mul
          (BigNumber.factorial i (BigNumber.factorial (i + 1)
            (BigNumber.factorial (2 * i) s).2).2).1).value = 0 := by
  have hok := reachable_ok hs
  obtain ⟨g1, g2, g3⟩ := catalan_spec fuel n hn s hok
  refine ⟨?_, ?_, g3, ?_⟩
  · obtain ⟨v, s2, h⟩ := g2 hf
    obtain ⟨p1, p2, _, p4, _, _⟩ := g1 v s2 h
    exact ⟨v, s2, h, p2, p1, p4, Caches.Reachable.catalan fuel n s v s2 hn hs h⟩
  · rw [factorial_two_mul]
    exact (Nat.mul_div_cancel _
      (Nat.mul_pos (Nat.factorial_pos _) (Nat.factorial_pos _))).symm
  · intro i hi
    obtain ⟨_, _, _, t4, _⟩ := catalan_step fuel i hi s hok.1
    exact Int.tmod_eq_zero_of_dvd t4

/-- Witness for C15: `catalan(3)` in a fresh process, and the three values quoted with the
claim. -/
theorem catalan_correct_witness :
    (∃ v s2, BigNumber.catalan 11 3 ⟨[], [], []⟩ = some (.ok (v, s2)) ∧
      v.value = (catalan 3 : Int) ∧ v.WellFormed ∧ [] <+: s2.catalanCache ∧ s2.Reachable) ∧
    ((BigNumber.catalan 11 0 ⟨[], [], []⟩).bind (fun r => r.toOption)).map
      (fun p => p.1.toText) = some "1" ∧
    ((BigNumber.catalan 11 3 ⟨[], [], []⟩).bind (fun r => r.toOption)).map
      (fun p => p.1.toText) = some "5" ∧
    ((BigNumber.catalan 11 10 ⟨[], [], []⟩).bind (fun r => r.toOption)).map
      (fun p => p.1.toText) = some "16796" :=
  ⟨(catalan_correct 11 3 (by norm_num) (le_refl _) ⟨[], [], []⟩ Caches.Reachable.init).1,
    by decide!, by decide!, by decide!⟩

/-- C16 (counterexample): `a = b =` the well-formed number of 2147483648 digits 1.  The
sign flags agree, so `operator+` runs its digit loop with `int n = digits.size()`, which is
`-2^31`, and the same for `m`: with the carry 0 the loop test fails at once and the value
returned has an empty digit vector, which breaks invariant 1. -/
theorem add_huge_not_wellFormed :
    (BigNumber.mk (List.replicate 2147483648 1) false).WellFormed ∧
      BigNumber.add 1 ⟨List.replicate 2147483648 1, false⟩
        ⟨List.replicate 2147483648 1, false⟩ = some ⟨[], false⟩ ∧
      ¬ (BigNumber.mk [] false).WellFormed := by
  refine ⟨replicate_one_wellFormed 2147483648 (by decide) false, ?_, by decide⟩
  have hl : toInt32 ((BigNumber.mk (List.replicate 2147483648 1) false).digits.length : Int) ≤
      0 := by
    simp only [List.length_replicate]
    decide
  have h0 : (toInt32 ((BigNumber.mk (List.replicate 2147483648 1) false).digits.length :
      Int)).toNat = 0 := by omega
  have h := @add_left_size_wrapped ⟨List.replicate 2147483648 1, false⟩
    ⟨List.replicate 2147483648 1, false⟩ (Eq.refl false) hl 0
  rw [show (0 : Nat) + 1 = 1 from rfl] at h
  rw [h, h0, List.take_zero]
  decide!

/-- C16 (amended): on well-formed operands of fewer than 2147483647 (`INT_MAX`) digits
each, `-a` is well-formed, every value that `a + b`, `a - b` or `a / b` returns, with
whatever fuel, is well-formed, and so is what `a * b` returns when every `int` of
`operator*` stays in range; the same-sign path of `operator+` returns the digits of the
addition loop as they are, and they are already normalised.  Values are returned: by `+`
and `-` unless `a` is negative and `b` is the zero value; by `/` unless `b` is the zero
value; by `*` when `len a + len b <= 2147483647` and
`90 * min(len a, len b) <= 2147483647`. -/
theorem results_wellFormed (a b : BigNumber) (ha : a.WellFormed) (hb : b.WellFormed)
    (hla : a.digits.length < 2147483647) (hlb : b.digits.length < 2147483647) :
    a.neg.WellFormed ∧
      (∀ fuel r, BigNumber.add fuel a b = some r → r.WellFormed) ∧
      (∀ fuel r, BigNumber.sub fuel a b = some r → r.WellFormed) ∧
      (∀ r, a.mulInt b = some r → r.WellFormed) ∧
      (∀ fuel q, BigNumber.div fuel a b = some (.ok q) → q.WellFormed) ∧
      (a.isNegative = b.isNegative →
        BigNumber.add 1 a b = some ⟨addLoop a.digits b.digits 0, a.isNegative⟩ ∧
        (BigNumber.mk (addLoop a.digits b.digits 0) a.isNegative).WellFormed) ∧
      (¬ (a.isNegative = true ∧ b.isZero = true) →
        (∃ r, BigNumber.add 4 a b = some r) ∧ ∃ r, BigNumber.sub 3 a b = some r) ∧
      (b.isZero = false → ∃ q, BigNumber.div 11 a b = some (.ok q)) ∧
      (a.digits.length + b.digits.length ≤ 2147483647 →
        90 * min a.digits.length b.digits.length ≤ 2147483647 → ∃ r, a.mulInt b = some r) := by
  have hla2 : a.digits.length ≤ 2147483647 := by omega
  have hlb2 : b.digits.length ≤ 2147483647 := by omega
  have hsum : (addLoop a.digits b.digits 0).length ≤ 2147483647 := by
    have := addLoop_length_le ha.2.1 hb.2.1
    omega
  refine ⟨neg_wellFormed ha, fun fuel r => (add_sub_wellFormed fuel a b r ha hb hla2 hlb2).1,
    fun fuel r => (add_sub_wellFormed fuel a b r ha hb hla2 hlb2).2, ?_,
    fun fuel q h => div_wellFormed_of_ok ha fuel h, ?_, ?_, ?_, ?_⟩
  · intro r hr
    rw [mulInt_eq_some hr]
    exact mul_wellFormed ha hb
  · intro hs
    exact ⟨(add_same_sign hs hla2 hlb2 hsum 0).1, addLoop_wellFormed ha hb⟩
  · intro hdef
    obtain ⟨r1, h1, _⟩ := add_value ha hb hdef (fun _ => ⟨hla2, hlb2, hsum⟩) 0
    obtain ⟨r2, h2, _⟩ := sub_value ha hb hdef (fun _ => ⟨hla2, hlb2, hsum⟩) 0
    exact ⟨⟨r1, h1⟩, ⟨r2, h2⟩⟩
  · intro hz
    obtain ⟨q, hq, _⟩ := div_spec ha hb hz 11 (le_refl _)
    exact ⟨q, hq⟩
  · intro hlen hsmall
    exact ⟨_, mulInt_of_small ha.2.1 hb.2.1 hlen hsmall⟩

/-- Witness for C16 at `a = 95`, `b = 7`: the same-sign sum `102` has one digit more than
its operands and is well-formed. -/
theorem results_wellFormed_witness :
    (BigNumber.mk [5, 9] false).WellFormed ∧ (BigNumber.mk [7] false).WellFormed ∧
      BigNumber.add 1 ⟨[5, 9], false⟩ ⟨[7], false⟩ =
        some ⟨addLoop [5, 9] [7] 0, false⟩ ∧
      (BigNumber.mk (addLoop [5, 9] [7] 0) false).WellFormed :=
  ⟨by decide, by decide,
    (results_wellFormed ⟨[5, 9], false⟩ ⟨[7], false⟩ (by decide) (by decide) (by decide)
      (by decide)).2.2.2.2.2.1 rfl⟩

/-- C17: for every well-formed `a`, `a + (-a)` returns the zero value, the single digit 0
with the sign flag clear, which is equal (`operator==`) to `BigNumber(0)`. -/
theorem add_neg_self (a : BigNumber) (ha : a.WellFormed) (fuel : Nat) :
    BigNumber.add (fuel + 4) a a.neg = some ⟨[0], false⟩ ∧
      (BigNumber.mk [0] false).eq (BigNumber.ofULL 0) = true ∧
      (BigNumber.mk [0] false).value = 0 :=
  ⟨add_neg_eq_zero ha fuel, by decide, by decide⟩

/-- Witness for C17 at `a = -120`. -/
theorem add_neg_self_witness :
    (BigNumber.mk [0, 2, 1] true).WellFormed ∧
      BigNumber.add 4 ⟨[0, 2, 1], true⟩ (BigNumber.mk [0, 2, 1] true).neg = some ⟨[0], false⟩ :=
  ⟨by decide, (add_neg_self ⟨[0, 2, 1], true⟩ (by decide) 0).1⟩

/-- C18 (counterexample): the numeric constructor reads the native `-5` as the unsigned
64-bit value `18446744073709551611`, so `BigNumber(-5) < BigNumber(0)` is false and the
chain `BigNumber(-5) < BigNumber(0) < BigNumber(5)` does not hold. -/
theorem numeric_minus_five_not_lt_zero :
    ¬ ((BigNumber.ofULL (intToULL (-5))).lt (BigNumber.ofULL (intToULL 0)) = true ∧
      (BigNumber.ofULL (intToULL 0)).lt (BigNumber.ofULL (intToULL 5)) = true) := by
  decide

/-- C18 (amended): `BigNumber(-5)` built by the numeric constructor is the non-negative
number `18446744073709551611 = 2 ^ 64 - 5`; `BigNumber(-5) < BigNumber(0)` is false and
`BigNumber(0) < BigNumber(-5)` is true; `BigNumber(0) < BigNumber(5)` is true; the negative
number built from text satisfies `BigNumber("-5") < BigNumber(0)`. -/
theorem numeric_constructor_order :
    intToULL (-5) = 2 ^ 64 - 5 ∧
      (BigNumber.ofULL (intToULL (-5))).toText = "18446744073709551611" ∧
      (BigNumber.ofULL (intToULL (-5))).isNegative = false ∧
      (BigNumber.ofULL (intToULL (-5))).lt (BigNumber.ofULL (intToULL 0)) = false ∧
      (BigNumber.ofULL (intToULL 0)).lt (BigNumber.ofULL (intToULL (-5))) = true ∧
      (BigNumber.ofULL (intToULL 0)).lt (BigNumber.ofULL (intToULL 5)) = true ∧
      BigNumber.ofString "-5" = .ok ⟨[5], true⟩ ∧
      (BigNumber.mk [5] true).lt (BigNumber.ofULL (intToULL 0)) = true :=
  ⟨by decide, by decide, by decide, by decide, by decide, by decide, rfl, by decide⟩

/-- C19: for well-formed non-negative `a` and `b`: if `|a| >= |b|` the digit loop of
`operator-` ends with borrow 0, every digit it pushes is in 0..9, and the value returned
is the normalised loop result, with value `|a| - |b|`; if `|a| < |b|` the value returned is
the negation of `b - a`, with value `-(|b| - |a|)`. -/
theorem sub_nonneg_path (a b : BigNumber) (ha : a.WellFormed) (hb : b.WellFormed)
    (hna : a.isNegative = false) (hnb : b.isNegative = false) :
    (b.mag ≤ a.mag →
      (subLoop a.digits b.digits 0).2 = 0 ∧ DigitsOk (subLoop a.digits b.digits 0).1 ∧
      BigNumber.sub 1 a b =
        some (BigNumber.removeLeadingZeros ⟨(subLoop a.digits b.digits 0).1, false⟩) ∧
      (BigNumber.removeLeadingZeros ⟨(subLoop a.digits b.digits 0).1, false⟩).WellFormed ∧
      (BigNumber.removeLeadingZeros ⟨(subLoop a.digits b.digits 0).1, false⟩).value =
        a.mag - b.mag) ∧
    (a.mag < b.mag →
      ∃ r, BigNumber.sub 1 b a = some r ∧ BigNumber.sub 2 a b = some r.neg ∧
        r.value = b.mag - a.mag ∧ r.neg.value = -(b.mag - a.mag) ∧ r.neg.WellFormed) := by
  constructor
  · intro hle
    have hc := subLoop_correct ha.2.1 hb.2.1 (length_le_of_mag_le ha hb hle) hle
    obtain ⟨r, hr, hw, hn, hm⟩ := sub_nonneg_ge ha hb hna hnb hle 0
    have hal : a.absLess b = false := by
      rw [Bool.eq_false_iff, Ne, absLess_iff ha hb]; omega
    have hdef : BigNumber.sub 1 a b =
        some (BigNumber.removeLeadingZeros ⟨(subLoop a.digits b.digits 0).1, false⟩) := by
      rw [sub_succ]; simp [hna, hnb, hal]
    rw [hdef] at hr
    simp only [Option.some.injEq] at hr
    rw [← hr] at hw hn hm
    exact ⟨hc.1, hc.2.2, hdef, hw, by rw [value_of_nonneg hn, hm]⟩
  · intro hlt
    obtain ⟨r, hr, hw, hn, hm⟩ := sub_nonneg_ge hb ha hnb hna hlt.le 0
    have hal : a.absLess b = true := (absLess_iff ha hb).2 hlt
    refine ⟨r, hr, ?_, by rw [value_of_nonneg hn, hm], ?_, neg_wellFormed hw⟩
    · rw [sub_succ]; simp [hna, hnb, hal, hr]
    · rw [neg_value hw, value_of_nonneg hn, hm]

/-- Witness for C19 at `a = 100`, `b = 1`: the loop borrows through two digits and ends
with borrow 0. -/
theorem sub_nonneg_path_witness :
    (BigNumber.mk [0, 0, 1] false).WellFormed ∧ (BigNumber.mk [1] false).WellFormed ∧
      (BigNumber.mk [1] false).mag ≤ (BigNumber.mk [0, 0, 1] false).mag ∧
      (subLoop [0, 0, 1] [1] 0).2 = 0 ∧ DigitsOk (subLoop [0, 0, 1] [1] 0).1 ∧
      BigNumber.sub 1 ⟨[0, 0, 1], false⟩ ⟨[1], false⟩ =
        some (BigNumber.removeLeadingZeros ⟨(subLoop [0, 0, 1] [1] 0).1, false⟩) ∧
      (BigNumber.removeLeadingZeros ⟨(subLoop [0, 0, 1] [1] 0).1, false⟩).WellFormed ∧
      (BigNumber.removeLeadingZeros ⟨(subLoop [0, 0, 1] [1] 0).1, false⟩).value =
        (BigNumber.mk [0, 0, 1] false).mag - (BigNumber.mk [1] false).mag :=
  ⟨by decide, by decide, by decide,
    (sub_nonneg_path ⟨[0, 0, 1], false⟩ ⟨[1], false⟩ (by decide) (by decide) rfl rfl).1
      (by decide)⟩

/-- C20 (counterexample): `a` the well-formed negative number of 2147483648 digits 1 and
`b = -5`.  The sign flags agree; `int n = digits.size()` is `-2^31`, so the test `i < n`
never holds and no digit of `a` is added: `operator+` returns `-5`, of one digit where
`max(len a, len b)` is 2147483648, and of magnitude 5, less than `|a| + |b|`. -/
theorem add_same_sign_huge_drops_digits :
    (BigNumber.mk (List.replicate 2147483648 1) true).WellFormed ∧
      (BigNumber.mk [5] true).WellFormed ∧
      BigNumber.add 1 ⟨List.replicate 2147483648 1, true⟩ ⟨[5], true⟩ = some ⟨[5], true⟩ ∧
      max (BigNumber.mk (List.replicate 2147483648 1) true).digits.length
        (BigNumber.mk [5] true).digits.length = 2147483648 ∧
      (BigNumber.mk [5] true).digits.length = 1 ∧
      (BigNumber.mk [5] true).mag <
        (BigNumber.mk (List.replicate 2147483648 1) true).mag + (BigNumber.mk [5] true).mag := by
  have hw := replicate_one_wellFormed 2147483648 (by decide) true
  refine ⟨hw, by decide, ?_, ?_, rfl, ?_⟩
  · have hl : toInt32 ((BigNumber.mk (List.replicate 2147483648 1) true).digits.length : Int) ≤
        0 := by
      simp only [List.length_replicate]
      decide
    have h := @add_left_size_wrapped ⟨List.replicate 2147483648 1, true⟩ ⟨[5], true⟩
      (Eq.refl true) hl 0
    rw [show (0 : Nat) + 1 = 1 from rfl] at h
    rw [h]
    decide!
  · simp only [List.length_replicate]
    decide
  · have hp := mag_pos_of_not_isZero hw (not_isZero_of_negative hw rfl)
    omega

/-- C20 (amended): for well-formed `a` and `b` with equal sign flags whose sum `|a| + |b|`
has at most 2147483647 (`INT_MAX`) digits, so that the sizes fit `int` and the counter
stays in range, `operator+` returns, with no nested call (one unit of fuel), the number
with the common sign flag whose digits are those of the addition loop; its magnitude is
`|a| + |b|`, the carry left after the most significant position is 0 or 1, and its digit
count is `max(len a, len b)` plus one exactly when that carry is 1. -/
theorem add_same_sign_path (a b : BigNumber) (ha : a.WellFormed) (hb : b.WellFormed)
    (hs : a.isNegative = b.isNegative)
    (hsum : (addLoop a.digits b.digits 0).length ≤ 2147483647) :
    BigNumber.add 1 a b = some ⟨addLoop a.digits b.digits 0, a.isNegative⟩ ∧
      (BigNumber.mk (addLoop a.digits b.digits 0) a.isNegative).mag = a.mag + b.mag ∧
      (BigNumber.mk (addLoop a.digits b.digits 0) a.isNegative).value = a.value + b.value ∧
      (addCarry a.digits b.digits 0 = 0 ∨ addCarry a.digits b.digits 0 = 1) ∧
      (addLoop a.digits b.digits 0).length =
        max a.digits.length b.digits.length +
          (if addCarry a.digits b.digits 0 = 1 then 1 else 0) ∧
      (BigNumber.mk (addLoop a.digits b.digits 0) a.isNegative).WellFormed := by
  obtain ⟨hc, _, hlen, _⟩ := addLoop_shape a.digits b.digits 0 ha.2.1 hb.2.1 (le_refl _)
    (by norm_num)
  have hla : a.digits.length ≤ 2147483647 := by omega
  have hlb : b.digits.length ≤ 2147483647 := by omega
  obtain ⟨h1, h2⟩ := add_same_sign hs hla hlb hsum 0
  refine ⟨h1, ?_, h2, by omega, hlen, addLoop_wellFormed ha hb⟩
  show evalDigits (addLoop a.digits b.digits 0) = a.mag + b.mag
  rw [addLoop_eval]; simp [BigNumber.mag]

/-- Witness for C20 at `-95 + -7`: a carry of 1 remains and the sum `-102` has three
digits. -/
theorem add_same_sign_path_witness :
    (BigNumber.mk [5, 9] true).WellFormed ∧ (BigNumber.mk [7] true).WellFormed ∧
      BigNumber.add 1 ⟨[5, 9], true⟩ ⟨[7], true⟩ = some ⟨addLoop [5, 9] [7] 0, true⟩ ∧
      (addLoop [5, 9] [7] 0).length = max 2 1 + (if addCarry [5, 9] [7] 0 = 1 then 1 else 0) ∧
      addLoop [5, 9] [7] 0 = [2, 0, 1] ∧ addCarry [5, 9] [7] 0 = 1 :=
  ⟨by decide, by decide,
    (add_same_sign_path ⟨[5, 9], true⟩ ⟨[7], true⟩ (by decide) (by decide) rfl
      (by decide!)).1,
    (add_same_sign_path ⟨[5, 9], true⟩ ⟨[7], true⟩ (by decide) (by decide) rfl
      (by decide!)).2.2.2.2.1,
    by decide!, by decide!⟩

end BigNumberDemo
